import Mathlib

set_option autoImplicit false

/-!
Verification development for the static-analysis core of the pedal feedback
framework: the type lattice of src/site-packages/pedal/tifa/type_definitions.py
and the binding ledger of src/site-packages/pedal/cait/ast_map.py.

The embedding is split into three parts:
1. a pure value model of the type lattice (inductive Ty with the literal model
   Lit and a Json tree for the serialization codec);
2. an identity-annotated model (TyI) in which every mutable Python object
   (Type instance, list, dict) carries a numeric object id, so that claims
   about object identity and shared mutable sub-state can be stated: two
   occurrences of the same id denote the same Python object, and a clone
   operation threads an allocation counter handing out fresh ids;
3. a heap-based model of the binding ledger (AstMap), in which student AST
   nodes and the AstSymbolList list objects live in explicit heaps, because
   the source mutates node identifier fields and appends to shared lists.
-/

namespace PedalSpec

/-! ## JSON trees (the transport format of the serialization codec) -/

/-- A JSON-like transport value.  Numbers are modelled as integers: every
literal the codec moves is produced by Python json handling and the claims
only exercise integers and strings. -/
inductive Json where
  | str (s : String)
  | num (n : Int)
  | bool (b : Bool)
  | null
  | arr (items : List Json)
  | obj (fields : List (String × Json))

mutual

/-- Structural equality of JSON values (Python == on the deserialized data).
Python == would also identify 1 with 1.0 and True; the codec never mixes
those shapes, and are_literals_equal only ever compares values stored under
the same literal variant. -/
def Json.beq : Json → Json → Bool
  | .str a, .str b => a == b
  | .num a, .num b => a == b
  | .bool a, .bool b => a == b
  | .null, .null => true
  | .arr xs, .arr ys => Json.beqList xs ys
  | .obj xs, .obj ys => Json.beqPairs xs ys
  | _, _ => false

/-- Pointwise equality of JSON arrays. -/
def Json.beqList : List Json → List Json → Bool
  | [], [] => true
  | x :: xs, y :: ys => Json.beq x y && Json.beqList xs ys
  | _, _ => false

/-- Pointwise equality of JSON object field lists. -/
def Json.beqPairs : List (String × Json) → List (String × Json) → Bool
  | [], [] => true
  | (k1, v1) :: xs, (k2, v2) :: ys =>
      k1 == k2 && Json.beq v1 v2 && Json.beqPairs xs ys
  | _, _ => false

end

instance : BEq Json := ⟨Json.beq⟩

/-- Python d.get(k, None) / d[k] on a JSON object: the first binding of the
key, none when the key is missing or the value is not an object at all
(subscripting a non-dict raises, which callers surface as failure). -/
def jGet : Json → String → Option Json
  | .obj fields, k => fields.lookup k
  | _, _ => none

/-- Python membership test k in val for a JSON object. -/
def jHas (val : Json) (k : String) : Bool :=
  (jGet val k).isSome

/-- A Python value that is either a bool or None.  The source stores
val.get(..., None) results and default flags in the same attribute, so the
empty flags of ListType, StrType and DictType range over this type.  Truthiness
of None is false. -/
abbrev PyBool := Option Bool

/-- Python truthiness of a bool-or-None flag. -/
def pyTruthy : PyBool → Bool
  | some b => b
  | none => false

/-- Encode a bool-or-None flag back into JSON (None becomes null). -/
def pyBoolToJson : PyBool → Json
  | some b => .bool b
  | none => .null

/-- Read a bool-or-None flag out of an optional JSON field, as Python
val.get(k, None) followed by storing the raw value does.  Absent keys and
null give None; the codec only ever writes booleans or null here. -/
def jsonToPyBool : Option Json → PyBool
  | some (.bool b) => some b
  | _ => none

/-! ## The literal model (LiteralValue and its subclasses) -/

/-- The literal model: LiteralNum, LiteralBool, LiteralStr, LiteralTuple and
LiteralNone from type_definitions.py, each wrapping the raw value it was
constructed with (scalar payloads are kept as JSON values, exactly what
literal_from_json passes through).  The extra pynone constructor stands for
the Python None value in a position where a literal is expected, which
literal_from_json yields for unhandled tags; are_literals_equal tests for it
explicitly. -/
inductive Lit where
  | num (value : Json)
  | bool (value : Json)
  | str (value : Json)
  | tuple (value : List Lit)
  | noneLit (value : Json)
  | pynone

mutual

/-- are_literals_equal from type_definitions.py: false when either side is
Python None, false across different variants (the isinstance test between the
sibling Literal classes), recursive pointwise comparison with a length check
for tuples, and raw value equality otherwise.  (The branch returning True for
objects that are not LiteralValue instances at all is unreachable here: every
Lit constructor models a LiteralValue subclass.) -/
def are_literals_equal : Lit → Lit → Bool
  | .pynone, _ => false
  | _, .pynone => false
  | .num a, .num b => a == b
  | .bool a, .bool b => a == b
  | .str a, .str b => a == b
  | .noneLit a, .noneLit b => a == b
  | .tuple xs, .tuple ys =>
      decide (xs.length = ys.length) && litListEqual xs ys
  | _, _ => false

/-- Pointwise comparison of zipped literal lists, as the for loop over
zip(first.value, second.value) in are_literals_equal: zip stops at the
shorter list (the length check is done separately). -/
def litListEqual : List Lit → List Lit → Bool
  | [], _ => true
  | _, [] => true
  | x :: xs, y :: ys => are_literals_equal x y && litListEqual xs ys

end

/-! ## The type lattice as pure values -/

/-- The closed variant set of the type lattice, as pure values.  Object
identity is deliberately absent here (see TyI below for the identity model).
Fields that Python may set to None (module and function names, empty flags)
use Option / PyBool.  The pynone constructor stands for the Python None value
sitting where a Type is expected, which type_from_json returns for unhandled
tags; operations that would raise AttributeError on it return Option.none.

FunctionType stores only its name: the definition attribute is an arbitrary
behavioral closure and carries no further wire-representable data.
InstanceType stores the name and fields of its parent class (the instance
shares the fields dict of the parent by reference; the sharing itself is
modelled in TyI). -/
inductive Ty where
  | unknown
  | recursed
  | function (name : Option String)
  | classT (name : String) (fields : List (String × Ty))
  | instT (parentName : String) (parentFields : List (String × Ty))
  | num
  | noneT
  | boolT
  | tuple (subtypes : List Ty)
  | list (subtype : Ty) (empty : PyBool)
  | str (empty : PyBool)
  | file
  | dict (empty : PyBool) (literals : Option (List Lit))
         (keys : Option (List Ty)) (values : Option (List Ty))
  | module (name : Option String) (submodules : List (String × Ty))
           (fields : List (String × Ty))
  | set (subtype : Ty) (empty : PyBool)
  | generator (subtype : Ty) (empty : PyBool)
  | time
  | day
  | pynone

mutual

/-- The clone protocol, at value level.  Each branch follows the clone method
that Python dispatch would select:
* leaves and every class without an override use Type.clone, which calls the
  class constructor with no arguments, so StrType loses a true empty flag
  (StrType() defaults empty to False), FunctionType comes back anonymous
  (FunctionType() defaults name to *Anonymous) and ModuleType comes back
  completely blank (ModuleType() defaults);
* ClassType.clone rebuilds ClassType(self.name), whose constructor starts a
  fresh empty fields dict;
* InstanceType.clone rebuilds InstanceType(self.parent) on the same parent;
* TupleType.clone and ListType.clone recursively clone their substructure;
* SetType and GeneratorType inherit ListType.clone, which constructs a
  ListType, so their clones change variant;
* DictType.clone passes its literal/key/value lists through unchanged.
Cloning the Python None value raises AttributeError, hence Option. -/
def Ty.clone : Ty → Option Ty
  | .unknown => some .unknown
  | .recursed => some .recursed
  | .function _ => some (.function (some "*Anonymous"))
  | .classT name _ => some (.classT name [])
  | .instT p pf => some (.instT p pf)
  | .num => some .num
  | .noneT => some .noneT
  | .boolT => some .boolT
  | .tuple subs => do
      let subs2 ← Ty.cloneList subs
      some (.tuple subs2)
  | .list s e => do
      let s2 ← Ty.clone s
      some (.list s2 e)
  | .str _ => some (.str (some false))
  | .file => some .file
  | .dict e l k v => some (.dict e l k v)
  | .module _ _ _ => some (.module (some "*UnknownModule") [] [])
  | .set s e => do
      let s2 ← Ty.clone s
      some (.list s2 e)
  | .generator s e => do
      let s2 ← Ty.clone s
      some (.list s2 e)
  | .time => some .time
  | .day => some .day
  | .pynone => none

/-- The list comprehension in TupleType.clone. -/
def Ty.cloneList : List Ty → Option (List Ty)
  | [] => some []
  | t :: ts => do
      let t2 ← Ty.clone t
      let ts2 ← Ty.cloneList ts
      some (t2 :: ts2)

end

/-- The Python class of a lattice value (the key used for the
TYPE_LOOKUPS dictionary lookup in is_equal). -/
inductive TyTag where
  | unknown | recursed | function | classT | instT | num | noneT | boolT
  | tuple | list | str | file | dict | module | set | generator | time | day
  | pynone
  deriving DecidableEq, Repr

/-- type(self) of a lattice value. -/
def Ty.tag : Ty → TyTag
  | .unknown => .unknown
  | .recursed => .recursed
  | .function _ => .function
  | .classT _ _ => .classT
  | .instT _ _ => .instT
  | .num => .num
  | .noneT => .noneT
  | .boolT => .boolT
  | .tuple _ => .tuple
  | .list _ _ => .list
  | .str _ => .str
  | .file => .file
  | .dict _ _ _ _ => .dict
  | .module _ _ _ => .module
  | .set _ _ => .set
  | .generator _ _ => .generator
  | .time => .time
  | .day => .day
  | .pynone => .pynone

/-- The TYPE_LOOKUPS registry, restricted to its string entries.  The source
tuples also contain Python type objects, builtin types and (for NoneType) the
None singleton; a string query compares unequal to all of those, so for
is_equal against a textual name only the string aliases matter.  Classes
absent from the registry (UnknownType, RecursedType, ModuleType,
GeneratorType, TimeType, DayType) give Option.none, on which is_equal answers
false. -/
def TYPE_LOOKUPS_STR : TyTag → Option (List String)
  | .function => some ["function", "FunctionType"]
  | .classT => some ["class", "ClassType"]
  | .instT => some ["instance", "InstanceType"]
  | .num => some ["num", "NumType"]
  | .boolT => some ["bool", "BoolType"]
  | .noneT => some ["None", "NoneType"]
  | .tuple => some ["tuple", "TupleType"]
  | .list => some ["list", "ListType"]
  | .str => some ["str", "StrType"]
  | .file => some ["file", "FileType"]
  | .dict => some ["dict", "DictType"]
  | .set => some ["set", "SetType"]
  | _ => none

/-- Type.is_equal for a textual name: false when type(self) is not a key of
TYPE_LOOKUPS, otherwise membership of the name in the registered alias
tuple. -/
def Ty.is_equal (t : Ty) (other : String) : Bool :=
  match TYPE_LOOKUPS_STR t.tag with
  | none => false
  | some aliases => aliases.contains other

/-! ## DictType access -/

/-- DictType._access_item on the four attributes of a mapping value: an empty
(truthy flag) mapping answers unknown; a literal-keyed mapping scans
zip(literals, values) and answers a clone of the first matching value, or
unknown when no literal matches; otherwise the get_keys flag picks the first
key or the first value and clones it.  Failures model the exceptions Python
would raise: zipping or subscripting a None attribute, subscripting an empty
list, and cloning a None entry. -/
def dict_access_item (empty : PyBool) (literals : Option (List Lit))
    (keys values : Option (List Ty)) (i : Lit) (get_keys : Bool) : Option Ty :=
  if pyTruthy empty then some .unknown
  else
    match literals with
    | some lits =>
        match values with
        | none => none
        | some vals =>
            match (lits.zip vals).find? (fun p => are_literals_equal p.1 i) with
            | some p => p.2.clone
            | none => some .unknown
    | none =>
        if get_keys then
          match keys with
          | none => none
          | some [] => none
          | some (k :: _) => k.clone
        else
          match values with
          | none => none
          | some [] => none
          | some (v :: _) => v.clone

/-- DictType.index: _access_item with get_keys False.  Defined only on the
mapping variant (the method lives on DictType). -/
def DictType_index (t : Ty) (i : Lit) : Option Ty :=
  match t with
  | .dict e l k v => dict_access_item e l k v i false
  | _ => none

/-- DictType.iterate: _access_item with get_keys True. -/
def DictType_iterate (t : Ty) (i : Lit) : Option Ty :=
  match t with
  | .dict e l k v => dict_access_item e l k v i true
  | _ => none

/-! ## The serialization codec -/

/-- literal_from_json: reconstructs a literal from a tagged record.  A missing
type field (or a non-object input) raises, modelled as failure; a tag other
than LiteralStr / LiteralNum / LiteralBool falls off the end of the Python
function and returns None, modelled as Lit.pynone. -/
def literal_from_json (val : Json) : Option Lit := do
  let t ← jGet val "type"
  if t == Json.str "LiteralStr" then do
    let v ← jGet val "value"
    pure (Lit.str v)
  else if t == Json.str "LiteralNum" then do
    let v ← jGet val "value"
    pure (Lit.num v)
  else if t == Json.str "LiteralBool" then do
    let v ← jGet val "value"
    pure (Lit.bool v)
  else
    pure Lit.pynone

/-- Iterating a JSON value as a Python list.  The codec stores literal and
value collections as lists; iterating anything else would feed non-record
elements to the recursive calls, which raise, so other shapes are failure. -/
def asArr : Json → Option (List Json)
  | .arr items => some items
  | _ => none

/-- val.get(k, default-empty-dict).items(): absent key gives the empty field
list, an object gives its fields, anything else raises (no items method). -/
def optObjFields : Option Json → Option (List (String × Json))
  | none => some []
  | some (.obj fields) => some fields
  | some _ => none

/-- A name attribute read by val.get('name'): the wire format carries a
string or null/absent (giving Python None). -/
def jsonToName : Option Json → Option String
  | some (.str s) => some s
  | _ => none

/-- The ListType constructor turns a None subtype into UnknownType
(ListType.__init__ with subtype None). -/
def noneToUnknown : Ty → Ty
  | .pynone => .unknown
  | t => t

/-- The list comprehension over literal_from_json in the DictType branch. -/
def lits_from_json : List Json → Option (List Lit)
  | [] => some []
  | j :: rest => do
    let l ← literal_from_json j
    let ls ← lits_from_json rest
    pure (l :: ls)

/-- Elementwise run of a decoder over a JSON list, as the list comprehension
over type_from_json: exceptions propagate, None results are kept. -/
def types_from_list (rec : Json → Option Ty) : List Json → Option (List Ty)
  | [] => some []
  | j :: rest => do
    let t ← rec j
    let ts ← types_from_list rec rest
    pure (t :: ts)

/-- Elementwise run of a decoder over the submodules / fields object of a
module record, as the dict comprehension in the ModuleType branch. -/
def named_types_from_list (rec : Json → Option Ty) :
    List (String × Json) → Option (List (String × Ty))
  | [] => some []
  | (name, j) :: rest => do
    let t ← rec j
    let ts ← named_types_from_list rec rest
    pure ((name, t) :: ts)

/-- One layer of type_from_json, with rec standing for the recursive call.
Translated from the source.  Option.none models a raised exception; the
result Ty.pynone models the Python None the source returns for an unhandled
tag.  For FunctionType the returns record is parsed (so its exceptions
propagate) but feeds only the constant-return closure, which carries no
wire-representable data. -/
def type_from_json_step (rec : Json → Option Ty) (val : Json) : Option Ty := do
  let t ← jGet val "type"
  if t == Json.str "DictType" then do
    let vjson ← jGet val "values"
    let vitems ← asArr vjson
    let values ← types_from_list rec vitems
    let empty := jsonToPyBool (jGet val "empty")
    if jHas val "literals" then do
      let ljson ← jGet val "literals"
      let litems ← asArr ljson
      let literals ← lits_from_json litems
      pure (Ty.dict empty (some literals) none (some values))
    else do
      let kjson ← jGet val "keys"
      let kitems ← asArr kjson
      let keys ← types_from_list rec kitems
      pure (Ty.dict empty none (some keys) (some values))
  else if t == Json.str "ListType" then do
    let sjson ← jGet val "subtype"
    let s ← rec sjson
    pure (Ty.list (noneToUnknown s) (jsonToPyBool (jGet val "empty")))
  else if t == Json.str "StrType" then
    pure (Ty.str (jsonToPyBool (jGet val "empty")))
  else if t == Json.str "BoolType" then
    pure Ty.boolT
  else if t == Json.str "NoneType" then
    pure Ty.noneT
  else if t == Json.str "NumType" then
    pure Ty.num
  else if t == Json.str "ModuleType" then do
    let sfields ← optObjFields (jGet val "submodules")
    let submodules ← named_types_from_list rec sfields
    let ffields ← optObjFields (jGet val "fields")
    let fields ← named_types_from_list rec ffields
    pure (Ty.module (jsonToName (jGet val "name")) submodules fields)
  else if t == Json.str "FunctionType" then do
    let rjson := (jGet val "returns").getD (Json.obj [("type", Json.str "NoneType")])
    let _ ← rec rjson
    pure (Ty.function (jsonToName (jGet val "name")))
  else
    pure Ty.pynone

/-- type_from_json, the from-JSON direction of the codec.  The Nat argument
is recursion fuel forcing termination only; Python recursion is unbounded and
every statement in this development supplies ample fuel. -/
def type_from_json : Nat → Json → Option Ty
  | 0, _ => none
  | fuel + 1, val => type_from_json_step (type_from_json fuel) val

/-- A name attribute written back to the wire: None becomes null. -/
def nameToJson : Option String → Json
  | some s => .str s
  | none => .null

/-- Modelled from the spec: the to-JSON direction of the codec for literals is
absent from src (only literal_from_json ships); spec section 6 fixes the
record shape as a type tag plus the raw value.  Only the three literal kinds
the from-JSON direction handles are representable. -/
def lit_to_json : Lit → Option Json
  | .str v => some (.obj [("type", .str "LiteralStr"), ("value", v)])
  | .num v => some (.obj [("type", .str "LiteralNum"), ("value", v)])
  | .bool v => some (.obj [("type", .str "LiteralBool"), ("value", v)])
  | _ => none

/-- Encode a list of literals elementwise. -/
def lit_list_to_json : List Lit → Option (List Json)
  | [] => some []
  | l :: rest => do
    let j ← lit_to_json l
    let js ← lit_list_to_json rest
    pure (j :: js)

mutual

/-- Modelled from the spec: type_to_json, the to-JSON direction of the codec,
is absent from src (type_from_json names it as its dual; spec sections 4.2
and 6 enumerate the wire variants and their fields).  Mapping records carry
empty plus either literals+values or keys+values; List carries subtype and
empty; Text carries empty; Boolean, None and Number are bare tags; Module
carries name, submodules and fields (name to record mappings).  Variants the
wire format cannot carry give none. -/
def type_to_json : Ty → Option Json
  | .num => some (.obj [("type", .str "NumType")])
  | .boolT => some (.obj [("type", .str "BoolType")])
  | .noneT => some (.obj [("type", .str "NoneType")])
  | .str e => some (.obj [("type", .str "StrType"), ("empty", pyBoolToJson e)])
  | .list s e => do
      let sj ← type_to_json s
      some (.obj [("type", .str "ListType"), ("subtype", sj),
                  ("empty", pyBoolToJson e)])
  | .dict e (some lits) _ (some vals) => do
      let lj ← lit_list_to_json lits
      let vj ← type_list_to_json vals
      some (.obj [("type", .str "DictType"), ("empty", pyBoolToJson e),
                  ("literals", .arr lj), ("values", .arr vj)])
  | .dict e none (some ks) (some vs) => do
      let kj ← type_list_to_json ks
      let vj ← type_list_to_json vs
      some (.obj [("type", .str "DictType"), ("empty", pyBoolToJson e),
                  ("keys", .arr kj), ("values", .arr vj)])
  | .module name subs flds => do
      let sj ← named_list_to_json subs
      let fj ← named_list_to_json flds
      some (.obj [("type", .str "ModuleType"), ("name", nameToJson name),
                  ("submodules", .obj sj), ("fields", .obj fj)])
  | _ => none

/-- Encode a list of types elementwise. -/
def type_list_to_json : List Ty → Option (List Json)
  | [] => some []
  | t :: rest => do
    let j ← type_to_json t
    let js ← type_list_to_json rest
    pure (j :: js)

/-- Encode a name-to-type mapping elementwise. -/
def named_list_to_json : List (String × Ty) → Option (List (String × Json))
  | [] => some []
  | (name, t) :: rest => do
    let j ← type_to_json t
    let js ← named_list_to_json rest
    pure ((name, j) :: js)

end

/-- The literal kinds the wire format can carry (LiteralStr, LiteralNum,
LiteralBool, with any payload: the codec passes the raw value through). -/
def RepLit : Lit → Prop
  | .str _ => True
  | .num _ => True
  | .bool _ => True
  | _ => False

/-- The wire-representable lattice values named by the round-trip claim:
number, boolean, none, text, list (empty or not), literal-keyed mapping,
general key-typed mapping, and module, closed under the recursion the codec
performs. -/
inductive Rep : Ty → Prop where
  | num : Rep .num
  | boolT : Rep .boolT
  | noneT : Rep .noneT
  | str : ∀ e, Rep (.str e)
  | list : ∀ s e, Rep s → Rep (.list s e)
  | dictLit : ∀ e lits vals, (∀ l ∈ lits, RepLit l) → (∀ v ∈ vals, Rep v) →
      Rep (.dict e (some lits) none (some vals))
  | dictKeys : ∀ e ks vs, (∀ k ∈ ks, Rep k) → (∀ v ∈ vs, Rep v) →
      Rep (.dict e none (some ks) (some vs))
  | module : ∀ name subs flds, (∀ p ∈ subs, Rep p.2) → (∀ p ∈ flds, Rep p.2) →
      Rep (.module name subs flds)

/-! ## The identity-annotated type lattice

Every mutable Python object reachable from a Type instance carries a numeric
object id: the Type instance itself (oid), each Python list object (the
subtypes list of a tuple, the literal/key/value lists of a mapping) and each
Python dict object (the fields dict of a class or module, the submodules
dict of a module).  Two occurrences of the same id denote the same Python
object, so a mutation through one occurrence is observed through every other.
Operations that allocate thread a counter and hand out ids starting at the
counter, modelling that a newly constructed object is distinct from every
object that existed before. -/

/-- The leaf variants whose instances carry no substructure of their own. -/
inductive LeafTag where
  | unknown | recursed | num | noneT | boolT | file | time | day
  deriving DecidableEq, Repr

/-- An identity-annotated list object: the id of the Python list plus its
elements. -/
structure PyListI (α : Type) where
  lid : Nat
  items : List α

/-- An identity-annotated dict object keyed by strings. -/
structure PyDictI (α : Type) where
  did : Nat
  items : List (String × α)

/-- Identity-annotated lattice values.  An InstanceType holds its parent
ClassType value inline; the shared fields dict of the parent is the fields
attribute of the instance as well (InstanceType.__init__ sets fields to
parent.fields), which the identity model expresses by the parent value
carrying the dict id. -/
inductive TyI where
  | leaf (oid : Nat) (tag : LeafTag)
  | strI (oid : Nat) (empty : PyBool)
  | funcI (oid : Nat) (name : Option String)
  | tupleI (oid : Nat) (subsId : Nat) (subs : List TyI)
  | listI (oid : Nat) (subtype : TyI) (empty : PyBool)
  | setI (oid : Nat) (subtype : TyI) (empty : PyBool)
  | genI (oid : Nat) (subtype : TyI) (empty : PyBool)
  | dictI (oid : Nat) (empty : PyBool) (literals : Option (PyListI Lit))
          (keys : Option (PyListI TyI)) (values : Option (PyListI TyI))
  | classI (oid : Nat) (name : String) (fields : PyDictI TyI)
  | instI (oid : Nat) (parentOid : Nat) (parentName : String)
          (fields : PyDictI TyI)
  | moduleI (oid : Nat) (name : Option String) (submodules : PyDictI TyI)
            (fields : PyDictI TyI)

/-- The object id of the top-level Type instance. -/
def TyI.oid : TyI → Nat
  | .leaf i _ => i
  | .strI i _ => i
  | .funcI i _ => i
  | .tupleI i _ _ => i
  | .listI i _ _ => i
  | .setI i _ _ => i
  | .genI i _ _ => i
  | .dictI i _ _ _ _ => i
  | .classI i _ _ => i
  | .instI i _ _ _ => i
  | .moduleI i _ _ _ => i

/-- The class-level immutable flag: True on NumType, NoneType, BoolType,
TupleType and StrType; every other class keeps the Type default False
(SetType and GeneratorType inherit from ListType, which does not set it). -/
def TyI.immutable : TyI → Bool
  | .leaf _ .num => true
  | .leaf _ .noneT => true
  | .leaf _ .boolT => true
  | .strI _ _ => true
  | .tupleI _ _ _ => true
  | _ => false

mutual

/-- The clone protocol over identity-annotated values, threading the
allocation counter (the returned Nat is the next unused id).  The branches
mirror Ty.clone; additionally every constructor call allocates a fresh object
id for the instance it builds and fresh ids for the list/dict objects its
initializer creates.  DictType.clone hands its literal/key/value list objects
to the new instance unchanged (same list ids); InstanceType.clone keeps the
parent (and with it the shared fields dict); ClassType.clone starts a fresh
empty fields dict. -/
def TyI.cloneI : TyI → Nat → TyI × Nat
  | .leaf _ tag, c => (.leaf c tag, c + 1)
  | .strI _ _, c => (.strI c (some false), c + 1)
  | .funcI _ _, c => (.funcI c (some "*Anonymous"), c + 1)
  | .tupleI _ _ subs, c =>
      let r := TyI.cloneListI subs (c + 2)
      (.tupleI c (c + 1) r.1, r.2)
  | .listI _ s e, c =>
      let r := TyI.cloneI s (c + 1)
      (.listI c r.1 e, r.2)
  | .setI _ s e, c =>
      let r := TyI.cloneI s (c + 1)
      (.listI c r.1 e, r.2)
  | .genI _ s e, c =>
      let r := TyI.cloneI s (c + 1)
      (.listI c r.1 e, r.2)
  | .dictI _ e l k v, c => (.dictI c e l k v, c + 1)
  | .classI _ name _, c => (.classI c name ⟨c + 1, []⟩, c + 2)
  | .instI _ pOid pName pFields, c => (.instI c pOid pName pFields, c + 1)
  | .moduleI _ _ _ _, c =>
      (.moduleI c (some "*UnknownModule") ⟨c + 1, []⟩ ⟨c + 2, []⟩, c + 3)

/-- Clone of the elements of a tuple subtypes list. -/
def TyI.cloneListI : List TyI → Nat → List TyI × Nat
  | [], c => ([], c)
  | t :: ts, c =>
      let r := TyI.cloneI t c
      let rs := TyI.cloneListI ts r.2
      (r.1 :: rs.1, rs.2)

end

/-- Type.clone_mutably: the clone when the variant is immutable, the very
same instance otherwise. -/
def TyI.clone_mutably (t : TyI) (c : Nat) : TyI × Nat :=
  if t.immutable then t.cloneI c else (t, c)

mutual

/-- Every object id reachable from a value: instance oids, list object ids
and dict object ids (the mutable objects of the Python object graph). -/
def TyI.allIds : TyI → List Nat
  | .leaf i _ => [i]
  | .strI i _ => [i]
  | .funcI i _ => [i]
  | .tupleI i sid subs => i :: sid :: TyI.allIdsList subs
  | .listI i s _ => i :: TyI.allIds s
  | .setI i s _ => i :: TyI.allIds s
  | .genI i s _ => i :: TyI.allIds s
  | .dictI i _ l k v =>
      i :: (TyI.litListIds l ++ TyI.optListIds k ++ TyI.optListIds v)
  | .classI i _ f => i :: f.did :: TyI.allIdsPairs f.items
  | .instI i pOid _ f => i :: pOid :: f.did :: TyI.allIdsPairs f.items
  | .moduleI i _ s f =>
      i :: s.did :: f.did :: (TyI.allIdsPairs s.items ++ TyI.allIdsPairs f.items)

/-- Ids reachable from a list of values. -/
def TyI.allIdsList : List TyI → List Nat
  | [] => []
  | t :: ts => TyI.allIds t ++ TyI.allIdsList ts

/-- Ids reachable from a name-to-value dict. -/
def TyI.allIdsPairs : List (String × TyI) → List Nat
  | [] => []
  | (_, t) :: ts => TyI.allIds t ++ TyI.allIdsPairs ts

/-- Ids of an optional literal list attribute (the literal objects themselves
carry no mutable substructure the claims touch; the list object id is what
sharing is about). -/
def TyI.litListIds : Option (PyListI Lit) → List Nat
  | none => []
  | some l => [l.lid]

/-- Ids of an optional value list attribute. -/
def TyI.optListIds : Option (PyListI TyI) → List Nat
  | none => []
  | some l => l.lid :: TyI.allIdsList l.items

end

mutual

/-- No mapping and no instance occurs anywhere in the value: exactly the
values on which the recursive clone allocates everything it returns (DictType
hands over its list objects and InstanceType its parent, every other branch
builds fresh objects). -/
def TyI.noShare : TyI → Bool
  | .leaf _ _ => true
  | .strI _ _ => true
  | .funcI _ _ => true
  | .tupleI _ _ subs => TyI.noShareList subs
  | .listI _ s _ => TyI.noShare s
  | .setI _ s _ => TyI.noShare s
  | .genI _ s _ => TyI.noShare s
  | .dictI _ _ _ _ _ => false
  | .classI _ _ _ => true
  | .instI _ _ _ _ => false
  | .moduleI _ _ _ _ => true

/-- noShare over a list of values. -/
def TyI.noShareList : List TyI → Bool
  | [] => true
  | t :: ts => TyI.noShare t && TyI.noShareList ts

end

/-! ## The binding ledger (ast_map.py)

Student AST nodes (CaitNode) live in a node heap keyed by numeric node ids,
because add_func_to_sym_table assigns to node attributes; the AstSymbolList
objects of the three symbol tables live in a list heap, because
add_x_to_sym_table appends to a list shared by table and (during a merge) by
the iteration.  The tables of an AstMap store the list heap id of their
AstSymbolList.  A single counter allocates both fresh AstSymbol object ids
and fresh list ids. -/

/-- Generic first-occurrence association lookup (Python dict access with the
insertion-ordered list representation used throughout). -/
def dlookup {κ α : Type} [DecidableEq κ] : List (κ × α) → κ → Option α
  | [], _ => none
  | (k0, v) :: rest, k => if k0 = k then some v else dlookup rest k

/-- Python d[k] = v on the association list: replace the binding in place
when the key exists, append otherwise. -/
def dset {κ α : Type} [DecidableEq κ] : List (κ × α) → κ → α → List (κ × α)
  | [], k, v => [(k, v)]
  | (k0, v0) :: rest, k, v =>
      if k0 = k then (k0, v) :: rest else (k0, v0) :: dset rest k v

/-- Python d1.update(d2): existing keys are overwritten in place, new keys
appended in the order of d2. -/
def dict_update {κ α : Type} [DecidableEq κ]
    (d1 d2 : List (κ × α)) : List (κ × α) :=
  d2.foldl (fun acc p => dset acc p.1 p.2) d1

/-- A student AST node as the ledger reads and writes it.  cait_node.py is
not part of src (only its callers are), so the node is modelled from the
spec: a construct wrapping a raw AST node, exposing the kind of the raw node
(ast_name and type(node.astNode).__name__, both the AST class name), a
mutable textual identifier (_id, also astNode._id: the resolved student
identifier for name-like nodes, writable by the parent-climb fallback), the
definition name (astNode.name of a FunctionDef / ClassDef) and a parent
reference. -/
structure CaitNode where
  typeName : String
  idStr : String
  defName : String
  parent : Option Nat
  deriving DecidableEq, Repr

/-- AstSymbol: the instructor-side binding record.  sid is the Python object
id of the record itself (AstSymbol defines no equality, so the membership
test in add_x_to_sym_table compares by object identity); id is the resolved
student identifier the record was constructed with; node is the student node
it wraps. -/
structure AstSymbol where
  sid : Nat
  id : String
  node : Nat
  deriving DecidableEq, Repr

/-- The mutable object heaps and the allocation counter. -/
structure LedgerState where
  nodeHeap : List (Nat × CaitNode)
  listHeap : List (Nat × List AstSymbol)
  ctr : Nat
  deriving DecidableEq, Repr

/-- The AstMap record: raw node pairings, the expression table, the three
symbol tables (variable, function, class) storing list heap ids of their
AstSymbolList objects, and the conflict key list.  match_root and diagnosis
carry no behavior the claims touch. -/
structure AstMap where
  mappings : List (Nat × Nat)
  exp_table : List (String × Nat)
  symbol_table : List (String × Nat)
  func_table : List (String × Nat)
  class_table : List (String × Nat)
  conflict_keys : List String
  deriving DecidableEq, Repr

/-- The freshly constructed AstMap. -/
def AstMap.empty : AstMap := ⟨[], [], [], [], [], []⟩

/-- has_conflicts. -/
def AstMap.has_conflicts (m : AstMap) : Bool :=
  decide (0 < m.conflict_keys.length)

/-- add_x_to_sym_table from the source, on one table with the shared conflict
list: when the key is bound, fetch its list, append the value unless an
element with the same object identity is already present (the value a caller
passes is freshly constructed, so this never deduplicates in practice), and,
unless the key is already flagged, flag it once if the value identifier
differs from some element of the list just updated; when the key is unbound,
allocate a fresh singleton list.  Either way the table slot is reassigned.
The source returns len(conflict_keys); callers in the claims never read it,
so the updated table, conflicts and state are returned instead.  Failure is
the unreachable case of a table naming a dead list object. -/
def add_x_to_sym_table (key : String) (value : AstSymbol)
    (x_table : List (String × Nat)) (conflicts : List String)
    (ls : LedgerState) :
    Option (List (String × Nat) × List String × LedgerState) :=
  match dlookup x_table key with
  | some lid =>
      match dlookup ls.listHeap lid with
      | none => none
      | some cur =>
          let cur2 := if cur.any (fun o => o.sid == value.sid)
                      then cur else cur ++ [value]
          let conflicts2 :=
            if conflicts.contains key then conflicts
            else if cur2.any (fun o => value.id != o.id)
            then conflicts ++ [key] else conflicts
          some (dset x_table key lid, conflicts2,
                { ls with listHeap := dset ls.listHeap lid cur2 })
  | none =>
      some (dset x_table key ls.ctr, conflicts,
            { ls with listHeap := ls.listHeap ++ [(ls.ctr, [value])],
                      ctr := ls.ctr + 1 })

/-- The instructor key of add_var_to_sym_table: the string itself, or
ins_node.astNode._id. -/
def resolve_var_key (ins : Sum String Nat) (ls : LedgerState) : Option String :=
  match ins with
  | .inl s => some s
  | .inr n => (dlookup ls.nodeHeap n).map (fun nd => nd.idStr)

/-- The instructor key of add_func_to_sym_table: the string itself; the
definition name when the instructor node is a FunctionDef; otherwise (via the
raised-and-caught AttributeError) ins_node.astNode._id. -/
def resolve_func_key (ins : Sum String Nat) (ls : LedgerState) : Option String :=
  match ins with
  | .inl s => some s
  | .inr n => (dlookup ls.nodeHeap n).map
      (fun nd => if nd.typeName = "FunctionDef" then nd.defName else nd.idStr)

/-- The instructor key of add_class_to_sym_table, analogous with ClassDef. -/
def resolve_class_key (ins : Sum String Nat) (ls : LedgerState) : Option String :=
  match ins with
  | .inl s => some s
  | .inr n => (dlookup ls.nodeHeap n).map
      (fun nd => if nd.typeName = "ClassDef" then nd.defName else nd.idStr)

/-- add_var_to_sym_table: wraps the student node into a fresh AstSymbol keyed
by the student textual identifier and commits it to the variable table.
Failure models the TypeError on a value that is not a student node (here: a
dangling node reference). -/
def add_var_to_sym_table (ins : Sum String Nat) (std : Nat)
    (m : AstMap) (ls : LedgerState) : Option (AstMap × LedgerState) := do
  let key ← resolve_var_key ins ls
  let nd ← dlookup ls.nodeHeap std
  let value : AstSymbol := ⟨ls.ctr, nd.idStr, std⟩
  let ls2 := { ls with ctr := ls.ctr + 1 }
  let r ← add_x_to_sym_table key value m.symbol_table m.conflict_keys ls2
  pure ({ m with symbol_table := r.1, conflict_keys := r.2.1 }, r.2.2)

/-- add_func_to_sym_table.  A FunctionDef student node binds under its
definition name.  Any other node takes the fallback of the source: walk to
the parent unless the raw node is a Call, assign the student identifier onto
the chosen node (this is the mutation observable through every other binding
that wraps the same node), and bind that node under the student identifier.
Failure: dangling node, or the fallback reaching a node without parent. -/
def add_func_to_sym_table (ins : Sum String Nat) (std : Nat)
    (m : AstMap) (ls : LedgerState) : Option (AstMap × LedgerState) := do
  let key ← resolve_func_key ins ls
  let nd ← dlookup ls.nodeHeap std
  if nd.typeName = "FunctionDef" then
    let value : AstSymbol := ⟨ls.ctr, nd.defName, std⟩
    let ls2 := { ls with ctr := ls.ctr + 1 }
    let r ← add_x_to_sym_table key value m.func_table m.conflict_keys ls2
    pure ({ m with func_table := r.1, conflict_keys := r.2.1 }, r.2.2)
  else do
    let nodeRef ←
      if nd.typeName = "Call" then some std
      else nd.parent
    let pn ← dlookup ls.nodeHeap nodeRef
    let ls2 := { ls with nodeHeap := dset ls.nodeHeap nodeRef { pn with idStr := nd.idStr } }
    let value : AstSymbol := ⟨ls2.ctr, nd.idStr, nodeRef⟩
    let ls3 := { ls2 with ctr := ls2.ctr + 1 }
    let r ← add_x_to_sym_table key value m.func_table m.conflict_keys ls3
    pure ({ m with func_table := r.1, conflict_keys := r.2.1 }, r.2.2)

/-- add_class_to_sym_table: the student node must be a ClassDef (anything
else raises AttributeError with no handler on the student side) and binds
under its definition name. -/
def add_class_to_sym_table (ins : Sum String Nat) (std : Nat)
    (m : AstMap) (ls : LedgerState) : Option (AstMap × LedgerState) := do
  let key ← resolve_class_key ins ls
  let nd ← dlookup ls.nodeHeap std
  if nd.typeName = "ClassDef" then
    let value : AstSymbol := ⟨ls.ctr, nd.defName, std⟩
    let ls2 := { ls with ctr := ls.ctr + 1 }
    let r ← add_x_to_sym_table key value m.class_table m.conflict_keys ls2
    pure ({ m with class_table := r.1, conflict_keys := r.2.1 }, r.2.2)
  else
    none

/-- add_exp_to_sym_table: a direct overwrite of the expression table slot,
with no conflict detection (the documented gap). -/
def add_exp_to_sym_table (insId : String) (std : Nat)
    (m : AstMap) (ls : LedgerState) : Option (AstMap × LedgerState) := do
  let _ ← dlookup ls.nodeHeap std
  pure ({ m with exp_table := dset m.exp_table insId std }, ls)

/-- add_node_pairing: records the raw instructor-to-student correspondence. -/
def add_node_pairing (insN std : Nat)
    (m : AstMap) (ls : LedgerState) : Option (AstMap × LedgerState) := do
  let _ ← dlookup ls.nodeHeap std
  pure ({ m with mappings := dset m.mappings insN std }, ls)

/-- The inner loop of the variable-table merge: re-insert every AstSymbol of
one key through add_var_to_sym_table(key, sub_value.astNode). -/
def merge_var_syms (m : AstMap) (key : String) (syms : List AstSymbol)
    (ls : LedgerState) : Option (AstMap × LedgerState) :=
  match syms with
  | [] => some (m, ls)
  | s :: rest => do
      let r ← add_var_to_sym_table (.inl key) s.node m ls
      merge_var_syms r.1 key rest r.2

/-- The outer loop of the variable-table merge.  The list contents of each
key are read once from the heap when the key is reached (the source iterates
the live list; the two never differ because a merge appends only to the
fresh lists of the map being built, never to the lists of the map being read). -/
def merge_var_entries (m : AstMap) (entries : List (String × Nat))
    (ls : LedgerState) : Option (AstMap × LedgerState) :=
  match entries with
  | [] => some (m, ls)
  | (key, lid) :: rest => do
      let syms ← dlookup ls.listHeap lid
      let r ← merge_var_syms m key syms ls
      merge_var_entries r.1 rest r.2

/-- The inner loop of the function-table merge (the source passes str(key),
which is the key itself: table keys are strings). -/
def merge_func_syms (m : AstMap) (key : String) (syms : List AstSymbol)
    (ls : LedgerState) : Option (AstMap × LedgerState) :=
  match syms with
  | [] => some (m, ls)
  | s :: rest => do
      let r ← add_func_to_sym_table (.inl key) s.node m ls
      merge_func_syms r.1 key rest r.2

/-- The outer loop of the function-table merge. -/
def merge_func_entries (m : AstMap) (entries : List (String × Nat))
    (ls : LedgerState) : Option (AstMap × LedgerState) :=
  match entries with
  | [] => some (m, ls)
  | (key, lid) :: rest => do
      let syms ← dlookup ls.listHeap lid
      let r ← merge_func_syms m key syms ls
      merge_func_entries r.1 rest r.2

/-- The inner loop of the class-table merge. -/
def merge_class_syms (m : AstMap) (key : String) (syms : List AstSymbol)
    (ls : LedgerState) : Option (AstMap × LedgerState) :=
  match syms with
  | [] => some (m, ls)
  | s :: rest => do
      let r ← add_class_to_sym_table (.inl key) s.node m ls
      merge_class_syms r.1 key rest r.2

/-- The outer loop of the class-table merge. -/
def merge_class_entries (m : AstMap) (entries : List (String × Nat))
    (ls : LedgerState) : Option (AstMap × LedgerState) :=
  match entries with
  | [] => some (m, ls)
  | (key, lid) :: rest => do
      let syms ← dlookup ls.listHeap lid
      let r ← merge_class_syms m key syms ls
      merge_class_entries r.1 rest r.2

/-- merge_map_with: raw node pairings and expression bindings are a plain
dict update where the other map wins collisions; variable, function and
class bindings are re-inserted one by one through the add paths so conflict
detection re-runs. -/
def merge_map_with (m other : AstMap) (ls : LedgerState) :
    Option (AstMap × LedgerState) := do
  let m1 := { m with mappings := dict_update m.mappings other.mappings,
                     exp_table := dict_update m.exp_table other.exp_table }
  let r1 ← merge_var_entries m1 other.symbol_table ls
  let r2 ← merge_func_entries r1.1 other.func_table r1.2
  let r3 ← merge_class_entries r2.1 other.class_table r2.2
  pure r3

/-- new_merged_map: build a fresh map, merge self into it, then other. -/
def new_merged_map (a b : AstMap) (ls : LedgerState) :
    Option (AstMap × LedgerState) := do
  let r1 ← merge_map_with AstMap.empty a ls
  let r2 ← merge_map_with r1.1 b r1.2
  pure r2

/-- What a ledger lookup hands back: the single student node of an
expression binding, or the AstSymbolList (by its list id) of a symbol
binding. -/
inductive GetResult where
  | expr (node : Nat)
  | syms (lid : Nat)
  deriving DecidableEq, Repr

/-- The getitem lookup: a key with the distinguished two-character leading
marker probes the expression table (the source also plants a back-reference
to the map on the returned node, irrelevant to which binding is returned);
every other key probes the variable table, then the function table, then the
class table, failing (KeyError) when none has the key. -/
def AstMap.getItem (m : AstMap) (id_n : String) : Option GetResult :=
  if id_n.startsWith "__" then
    (dlookup m.exp_table id_n).map .expr
  else
    match dlookup m.symbol_table id_n with
    | some lid => some (.syms lid)
    | none =>
        match dlookup m.func_table id_n with
        | some lid => some (.syms lid)
        | none => (dlookup m.class_table id_n).map .syms

/-- The membership test: the expression table for marked keys, otherwise the
variable table or the function table; the class table is never consulted. -/
def AstMap.containsKey (m : AstMap) (id_n : String) : Bool :=
  if id_n.startsWith "__" then
    (dlookup m.exp_table id_n).isSome
  else
    (dlookup m.symbol_table id_n).isSome || (dlookup m.func_table id_n).isSome

/-! ## Observations used to state the ledger claims -/

/-- Two list elements differ (the condition under which the scan in
add_x_to_sym_table eventually flags a key). -/
def twoDiffer (l : List String) : Bool :=
  l.any (fun a => l.any (fun b => a != b))

/-- The resolved identifiers currently bound under a key of a table. -/
def idsAt (ls : LedgerState) (tbl : List (String × Nat)) (k : String) :
    List String :=
  match dlookup tbl k with
  | none => []
  | some lid => ((dlookup ls.listHeap lid).getD []).map AstSymbol.id

/-- The identifier a variable-table re-insert derives from a stored node:
the node identifier attribute. -/
def derive_var_id (ls : LedgerState) (n : Nat) : Option String :=
  (dlookup ls.nodeHeap n).map CaitNode.idStr

/-- The identifier a function-table re-insert derives from a stored node
without touching any other node: the definition name of a FunctionDef, the
identifier of a Call (whose fallback write is the identity); any other kind
takes the parent-climb fallback, which rebinds a different node, so no fixed
identifier exists (none). -/
def derive_func_id (ls : LedgerState) (n : Nat) : Option String :=
  (dlookup ls.nodeHeap n).bind (fun nd =>
    if nd.typeName = "FunctionDef" then some nd.defName
    else if nd.typeName = "Call" then some nd.idStr
    else none)

/-- The identifier a class-table re-insert derives: the definition name of a
ClassDef; any other kind raises. -/
def derive_class_id (ls : LedgerState) (n : Nat) : Option String :=
  (dlookup ls.nodeHeap n).bind (fun nd =>
    if nd.typeName = "ClassDef" then some nd.defName else none)

/-- The identifiers a merge would re-derive for the bindings of one key of a
table (all derivations succeed under TableWf, so the filter drops nothing). -/
def derived_ids (derive : Nat → Option String) (ls : LedgerState)
    (tbl : List (String × Nat)) (k : String) : List String :=
  match dlookup tbl k with
  | none => []
  | some lid =>
      ((dlookup ls.listHeap lid).getD []).filterMap (fun s => derive s.node)

/-- Well-formedness of one symbol table against the heaps: keys are not
repeated (Python dict keys), every bound list id is below the allocation
counter and names a live list, and the given derivation succeeds on every
stored node. -/
def TableWf (derive : Nat → Option String) (ls : LedgerState)
    (tbl : List (String × Nat)) : Prop :=
  (tbl.map Prod.fst).Nodup ∧
  ∀ k lid, dlookup tbl k = some lid →
    lid < ls.ctr ∧
    ∃ syms, dlookup ls.listHeap lid = some syms ∧
      ∀ s ∈ syms, (derive s.node).isSome

/-- Well-formedness of a whole ledger against the heaps, with the merge
re-derivations guaranteed to stay on the node they read: variable bindings
wrap live nodes, function bindings wrap FunctionDef or Call nodes, class
bindings wrap ClassDef nodes. -/
def MapWf (m : AstMap) (ls : LedgerState) : Prop :=
  TableWf (derive_var_id ls) ls m.symbol_table ∧
  TableWf (derive_func_id ls) ls m.func_table ∧
  TableWf (derive_class_id ls) ls m.class_table

/-- A run of add_x_to_sym_table calls on one key, one call per (identifier,
node) pair, each wrapping its pair in a freshly allocated AstSymbol exactly
as the add operations construct one per call. -/
def run_adds (key : String) (pairs : List (String × Nat))
    (tbl : List (String × Nat)) (conflicts : List String) (ls : LedgerState) :
    Option (List (String × Nat) × List String × LedgerState) :=
  match pairs with
  | [] => some (tbl, conflicts, ls)
  | p :: rest =>
      match add_x_to_sym_table key ⟨ls.ctr, p.1, p.2⟩ tbl conflicts
              { ls with ctr := ls.ctr + 1 } with
      | none => none
      | some r => run_adds key rest r.1 r.2.1 r.2.2

/-! ## Observations used to state the merge-order claim -/

/-- Every AstSymbol stored in a live list carries an allocation stamp below
the counter (each add operation stamps the value with the counter it then
bumps, so this holds of every ledger the operations build). -/
def sidsBelow (ls : LedgerState) : Prop :=
  ∀ lid syms, dlookup ls.listHeap lid = some syms → ∀ s ∈ syms, s.sid < ls.ctr

/-- Every live list id is below the allocation counter. -/
def heapDomBelow (ls : LedgerState) : Prop :=
  ∀ lid syms, dlookup ls.listHeap lid = some syms → lid < ls.ctr

/-- The three symbol tables of a map, indexed for uniform statements. -/
def tableOf (m : AstMap) : Fin 3 → List (String × Nat)
  | 0 => m.symbol_table
  | 1 => m.func_table
  | 2 => m.class_table

/-- No two table slots of a map share one list object: each AstSymbolList
is owned by the single (table, key) slot that allocated it. -/
def LidsInj (m : AstMap) : Prop :=
  ∀ t1 k1 t2 k2 lid, dlookup (tableOf m t1) k1 = some lid →
    dlookup (tableOf m t2) k2 = some lid → t1 = t2 ∧ k1 = k2

/-- Every binding of a table names a list allocated inside the window
between a base counter and the current one, and that list is live. -/
def TableLive (ls0 ls : LedgerState) (tbl : List (String × Nat)) : Prop :=
  ∀ k lid, dlookup tbl k = some lid →
    ls0.ctr ≤ lid ∧ lid < ls.ctr ∧ (dlookup ls.listHeap lid).isSome

/-- The map with one of its three tables replaced. -/
def setTable (m : AstMap) (t : Fin 3) (tbl : List (String × Nat)) : AstMap :=
  match t with
  | 0 => { m with symbol_table := tbl }
  | 1 => { m with func_table := tbl }
  | 2 => { m with class_table := tbl }

/-- The re-derivation a merge applies to the bindings of each table. -/
def deriveOf (ls : LedgerState) : Fin 3 → Nat → Option String
  | 0 => derive_var_id ls
  | 1 => derive_func_id ls
  | 2 => derive_class_id ls

/-- The conflict list is exactly the set of keys currently bound, in one
of the three tables, to two bindings with differing resolved identifiers:
this is how the incremental scan of add_x_to_sym_table characterises the
conflicts it has accumulated. -/
def conflictChar (m : AstMap) (ls : LedgerState) : Prop :=
  ∀ k, k ∈ m.conflict_keys ↔
    ∃ t : Fin 3, twoDiffer (idsAt ls (tableOf m t) k) = true

/-- The invariant a merge maintains while re-inserting bindings into the
map being built: the counter only grows, no raw node changes, no list
alive at the start changes, the heap stays well-stamped, the built map
owns its lists within the fresh window without sharing, and the conflict
list stays characterised by the differing-identifier test. -/
def MergeInv (ls0 : LedgerState) (m : AstMap) (ls : LedgerState) : Prop :=
  ls0.ctr ≤ ls.ctr ∧
  ls.nodeHeap = ls0.nodeHeap ∧
  (∀ lid, lid < ls0.ctr → dlookup ls.listHeap lid = dlookup ls0.listHeap lid) ∧
  heapDomBelow ls ∧
  sidsBelow ls ∧
  (∀ t, TableLive ls0 ls (tableOf m t)) ∧
  LidsInj m ∧
  conflictChar m ls

mutual

/-- Nesting depth measure used to supply recursion fuel to type_from_json
(only the codec-recursive positions count). -/
def Ty.size : Ty → Nat
  | .list s _ => Ty.size s + 1
  | .dict _ _ k v => Ty.sizeOpt k + Ty.sizeOpt v + 1
  | .module _ subs flds => Ty.sizePairs subs + Ty.sizePairs flds + 1
  | _ => 1

/-- Size of an optional list attribute. -/
def Ty.sizeOpt : Option (List Ty) → Nat
  | none => 0
  | some l => Ty.sizeList l

/-- Size of a list of types. -/
def Ty.sizeList : List Ty → Nat
  | [] => 0
  | t :: ts => Ty.size t + Ty.sizeList ts

/-- Size of a name-to-type list. -/
def Ty.sizePairs : List (String × Ty) → Nat
  | [] => 0
  | (_, t) :: ts => Ty.size t + Ty.sizePairs ts

end

end PedalSpec

namespace PedalSpec

/-! ## Association list lemmas -/

theorem dlookup_dset {κ α : Type} [DecidableEq κ] (h : List (κ × α)) (k : κ) (v : α) :
    dlookup (dset h k v) k = some v := by
  induction h with
  | nil => simp [dset, dlookup]
  | cons p rest ih =>
      obtain ⟨k0, v0⟩ := p
      by_cases hk : k0 = k
      · subst hk; simp [dset, dlookup]
      · simp [dset, dlookup, hk, ih]

theorem dlookup_dset_ne {κ α : Type} [DecidableEq κ] (h : List (κ × α)) (k k2 : κ) (v : α)
    (hne : k2 ≠ k) : dlookup (dset h k v) k2 = dlookup h k2 := by
  induction h with
  | nil => simp [dset, dlookup, Ne.symm hne]
  | cons p rest ih =>
      obtain ⟨k0, v0⟩ := p
      by_cases hk : k0 = k
      · subst hk
        simp [dset, dlookup, Ne.symm hne]
      · simp [dset, dlookup, hk, ih]

theorem dlookup_append_fresh {κ α : Type} [DecidableEq κ] (h : List (κ × α)) (k : κ) (v : α)
    (hfresh : dlookup h k = none) : dlookup (h ++ [(k, v)]) k = some v := by
  induction h with
  | nil => simp [dlookup]
  | cons p rest ih =>
      obtain ⟨k0, v0⟩ := p
      by_cases hk : k0 = k
      · subst hk; simp [dlookup] at hfresh
      · simp [dlookup, hk] at hfresh ⊢
        exact ih hfresh

theorem dlookup_append_old {κ α : Type} [DecidableEq κ] (h : List (κ × α)) (k k2 : κ) (v : α)
    (hne : k2 ≠ k) : dlookup (h ++ [(k, v)]) k2 = dlookup h k2 := by
  induction h with
  | nil => simp [dlookup, Ne.symm hne]
  | cons p rest ih =>
      obtain ⟨k0, v0⟩ := p
      by_cases hk : k0 = k2
      · subst hk; simp [dlookup]
      · simp [dlookup, hk, ih]

/-! ## C1: clone_mutably and the aliasing invariant -/

theorem cloneI_oid (t : TyI) (c : Nat) : (t.cloneI c).1.oid = c := by
  cases t <;> simp [TyI.cloneI, TyI.oid]

/-- Claim C1: clone_mutably clones only immutable values.  On a mutable
value it returns the very same object with the counter untouched; on an
immutable value it returns a full clone carrying a fresh object identity
distinct from the original. -/
theorem clone_mutably_aliasing (t : TyI) (c : Nat) (h : t.oid < c) :
    (t.immutable = false → t.clone_mutably c = (t, c)) ∧
    (t.immutable = true →
      t.clone_mutably c = t.cloneI c ∧
      (t.clone_mutably c).1.oid = c ∧
      (t.clone_mutably c).1.oid ≠ t.oid) := by
  constructor
  · intro himm
    simp [TyI.clone_mutably, himm]
  · intro himm
    refine ⟨by simp [TyI.clone_mutably, himm], ?_, ?_⟩
    · simp [TyI.clone_mutably, himm, cloneI_oid]
    · simp [TyI.clone_mutably, himm, cloneI_oid]
      omega

theorem clone_mutably_aliasing_check :
    (TyI.leaf 0 LeafTag.num).oid < 1 ∧
    (((TyI.leaf 0 LeafTag.num).immutable = false →
        (TyI.leaf 0 LeafTag.num).clone_mutably 1 = (TyI.leaf 0 LeafTag.num, 1)) ∧
     ((TyI.leaf 0 LeafTag.num).immutable = true →
        (TyI.leaf 0 LeafTag.num).clone_mutably 1 = (TyI.leaf 0 LeafTag.num).cloneI 1 ∧
        ((TyI.leaf 0 LeafTag.num).clone_mutably 1).1.oid = 1 ∧
        ((TyI.leaf 0 LeafTag.num).clone_mutably 1).1.oid ≠ (TyI.leaf 0 LeafTag.num).oid)) :=
  ⟨by decide, clone_mutably_aliasing (TyI.leaf 0 LeafTag.num) 1 (by decide)⟩

end PedalSpec

namespace PedalSpec

/-! ## C8: clone and shared mutable sub-state -/

mutual

theorem cloneI_ctr_le (t : TyI) (c : Nat) : c ≤ (t.cloneI c).2 := by
  cases t with
  | tupleI oid sid subs =>
      have h := cloneListI_ctr_le subs (c + 2)
      simp only [TyI.cloneI]
      omega
  | listI oid s e =>
      have h := cloneI_ctr_le s (c + 1)
      simp only [TyI.cloneI]
      omega
  | setI oid s e =>
      have h := cloneI_ctr_le s (c + 1)
      simp only [TyI.cloneI]
      omega
  | genI oid s e =>
      have h := cloneI_ctr_le s (c + 1)
      simp only [TyI.cloneI]
      omega
  | leaf oid tag => simp [TyI.cloneI]
  | strI oid e => simp [TyI.cloneI]
  | funcI oid n => simp [TyI.cloneI]
  | dictI oid e l k v => simp [TyI.cloneI]
  | classI oid n f => simp [TyI.cloneI]
  | instI oid p pn pf => simp [TyI.cloneI]
  | moduleI oid n sm f => simp [TyI.cloneI]

theorem cloneListI_ctr_le (ts : List TyI) (c : Nat) : c ≤ (TyI.cloneListI ts c).2 := by
  cases ts with
  | nil => simp [TyI.cloneListI]
  | cons t rest =>
      have h1 := cloneI_ctr_le t c
      have h2 := cloneListI_ctr_le rest (t.cloneI c).2
      simp only [TyI.cloneListI]
      omega

end

mutual

theorem cloneI_ids_ge (t : TyI) (c : Nat) (h : t.noShare = true) :
    ∀ i ∈ (t.cloneI c).1.allIds, c ≤ i := by
  cases t with
  | leaf oid tag => intro i hi; simp [TyI.cloneI, TyI.allIds] at hi; omega
  | strI oid e => intro i hi; simp [TyI.cloneI, TyI.allIds] at hi; omega
  | funcI oid n => intro i hi; simp [TyI.cloneI, TyI.allIds] at hi; omega
  | tupleI oid sid subs =>
      intro i hi
      simp only [TyI.noShare] at h
      simp only [TyI.cloneI, TyI.allIds, List.mem_cons] at hi
      rcases hi with rfl | rfl | hi
      · omega
      · omega
      · have := cloneListI_ids_ge subs (c + 2) h i hi
        omega
  | listI oid s e =>
      intro i hi
      simp only [TyI.noShare] at h
      simp only [TyI.cloneI, TyI.allIds, List.mem_cons] at hi
      rcases hi with rfl | hi
      · omega
      · have := cloneI_ids_ge s (c + 1) h i hi
        omega
  | setI oid s e =>
      intro i hi
      simp only [TyI.noShare] at h
      simp only [TyI.cloneI, TyI.allIds, List.mem_cons] at hi
      rcases hi with rfl | hi
      · omega
      · have := cloneI_ids_ge s (c + 1) h i hi
        omega
  | genI oid s e =>
      intro i hi
      simp only [TyI.noShare] at h
      simp only [TyI.cloneI, TyI.allIds, List.mem_cons] at hi
      rcases hi with rfl | hi
      · omega
      · have := cloneI_ids_ge s (c + 1) h i hi
        omega
  | dictI oid e l k v => simp [TyI.noShare] at h
  | classI oid n f =>
      intro i hi
      simp [TyI.cloneI, TyI.allIds, TyI.allIdsPairs] at hi
      omega
  | instI oid p pn pf => simp [TyI.noShare] at h
  | moduleI oid n sm f =>
      intro i hi
      simp [TyI.cloneI, TyI.allIds, TyI.allIdsPairs] at hi
      omega

theorem cloneListI_ids_ge (ts : List TyI) (c : Nat) (h : TyI.noShareList ts = true) :
    ∀ i ∈ TyI.allIdsList (TyI.cloneListI ts c).1, c ≤ i := by
  cases ts with
  | nil => intro i hi; simp [TyI.cloneListI, TyI.allIdsList] at hi
  | cons t rest =>
      intro i hi
      simp only [TyI.noShareList, Bool.and_eq_true] at h
      simp only [TyI.cloneListI, TyI.allIdsList, List.mem_append] at hi
      rcases hi with hi | hi
      · exact cloneI_ids_ge t c h.1 i hi
      · have h2 := cloneListI_ids_ge rest (t.cloneI c).2 h.2 i hi
        have h3 := cloneI_ctr_le t c
        omega

end

/-- Claim C8 (amended): a clone of a sharing-free value allocates only
fresh object identities, disjoint from the original's; but a mapping clone
keeps the very literal, key and value list objects of the original, an
instance clone keeps the parent fields dictionary, and a class clone drops
the fields to a fresh empty dictionary, so value-independence of clones
fails exactly on the sharing cases. -/
theorem clone_identity_substructure (t : TyI) (c : Nat)
    (hb : ∀ i ∈ t.allIds, i < c) :
    (t.noShare = true → ∀ i ∈ (t.cloneI c).1.allIds, i ∉ t.allIds) ∧
    (∀ oid e l k v, t = .dictI oid e l k v → (t.cloneI c).1 = .dictI c e l k v) ∧
    (∀ oid pOid pName pf, t = .instI oid pOid pName pf →
       (t.cloneI c).1 = .instI c pOid pName pf) ∧
    (∀ oid name f, t = .classI oid name f →
       (t.cloneI c).1 = .classI c name ⟨c + 1, []⟩) := by
  refine ⟨?_, ?_, ?_, ?_⟩
  · intro hns i hi hmem
    have h1 := cloneI_ids_ge t c hns i hi
    have h2 := hb i hmem
    omega
  · rintro oid e l k v rfl; simp [TyI.cloneI]
  · rintro oid pOid pName pf rfl; simp [TyI.cloneI]
  · rintro oid name f rfl; simp [TyI.cloneI]

/-- Claim C8 witness. -/
theorem clone_identity_substructure_check :
    (∀ i ∈ (TyI.listI 0 (TyI.leaf 1 LeafTag.num) (some false)).allIds, i < 5) ∧
    ((TyI.listI 0 (TyI.leaf 1 LeafTag.num) (some false)).noShare = true →
      ∀ i ∈ ((TyI.listI 0 (TyI.leaf 1 LeafTag.num) (some false)).cloneI 5).1.allIds,
        i ∉ (TyI.listI 0 (TyI.leaf 1 LeafTag.num) (some false)).allIds) :=
  ⟨by decide,
   (clone_identity_substructure (TyI.listI 0 (TyI.leaf 1 LeafTag.num) (some false)) 5
     (by decide)).1⟩

/-- Claim C8 counterexample: the clone of a mapping is a fresh instance whose
literal and value attributes are the very same list objects (ids 10 and 11)
as the original, so an in-place update through the clone (update_key appends
to those lists) changes the original, refuting value-independence. -/
theorem dict_clone_shares_lists :
    ((TyI.dictI 0 (some false) (some ⟨10, [Lit.str (Json.str "a")]⟩) none
        (some ⟨11, [TyI.leaf 1 LeafTag.num]⟩)).cloneI 20).1 =
      TyI.dictI 20 (some false) (some ⟨10, [Lit.str (Json.str "a")]⟩) none
        (some ⟨11, [TyI.leaf 1 LeafTag.num]⟩) ∧
    (10 ∈ (TyI.dictI 0 (some false) (some ⟨10, [Lit.str (Json.str "a")]⟩) none
        (some ⟨11, [TyI.leaf 1 LeafTag.num]⟩)).allIds ∧
     10 ∈ ((TyI.dictI 0 (some false) (some ⟨10, [Lit.str (Json.str "a")]⟩) none
        (some ⟨11, [TyI.leaf 1 LeafTag.num]⟩)).cloneI 20).1.allIds) ∧
    (11 ∈ (TyI.dictI 0 (some false) (some ⟨10, [Lit.str (Json.str "a")]⟩) none
        (some ⟨11, [TyI.leaf 1 LeafTag.num]⟩)).allIds ∧
     11 ∈ ((TyI.dictI 0 (some false) (some ⟨10, [Lit.str (Json.str "a")]⟩) none
        (some ⟨11, [TyI.leaf 1 LeafTag.num]⟩)).cloneI 20).1.allIds) := by
  refine ⟨rfl, ⟨?_, ?_⟩, ⟨?_, ?_⟩⟩ <;> simp [TyI.allIds, TyI.cloneI, TyI.litListIds, TyI.optListIds, TyI.allIdsList]

end PedalSpec

namespace PedalSpec

/-! ## C7: clone and the registered alias names -/

theorem clone_preserves_tag (t c : Ty) (h : t.clone = some c)
    (hs : t.tag ≠ TyTag.set) (hg : t.tag ≠ TyTag.generator) : c.tag = t.tag := by
  cases t with
  | tuple subs =>
      cases hcl : Ty.cloneList subs with
      | none => simp [Ty.clone, hcl] at h
      | some subs2 =>
          simp [Ty.clone, hcl] at h
          subst h
          rfl
  | list s e =>
      cases hcl : Ty.clone s with
      | none => simp [Ty.clone, hcl] at h
      | some s2 =>
          simp [Ty.clone, hcl] at h
          subst h
          rfl
  | set s e => simp [Ty.tag] at hs
  | generator s e => simp [Ty.tag] at hg
  | pynone => simp [Ty.clone] at h
  | unknown => simp [Ty.clone] at h; subst h; rfl
  | recursed => simp [Ty.clone] at h; subst h; rfl
  | function n => simp [Ty.clone] at h; subst h; rfl
  | classT n f => simp [Ty.clone] at h; subst h; rfl
  | instT p pf => simp [Ty.clone] at h; subst h; rfl
  | num => simp [Ty.clone] at h; subst h; rfl
  | noneT => simp [Ty.clone] at h; subst h; rfl
  | boolT => simp [Ty.clone] at h; subst h; rfl
  | str e => simp [Ty.clone] at h; subst h; rfl
  | file => simp [Ty.clone] at h; subst h; rfl
  | dict e l k v => simp [Ty.clone] at h; subst h; rfl
  | module n sm f => simp [Ty.clone] at h; subst h; rfl
  | time => simp [Ty.clone] at h; subst h; rfl
  | day => simp [Ty.clone] at h; subst h; rfl

/-- Claim C7 (amended): a successful clone preserves every is_equal
type-name alias provided the value is not a set or a generator; those two
clone into a plain list and lose their aliases. -/
theorem clone_keeps_alias (t c : Ty) (name : String) (h : t.clone = some c)
    (hs : t.tag ≠ TyTag.set) (hg : t.tag ≠ TyTag.generator)
    (hname : t.is_equal name = true) : c.is_equal name = true := by
  unfold Ty.is_equal at hname ⊢
  rw [clone_preserves_tag t c h hs hg]
  exact hname

/-- Claim C7 witness. -/
theorem clone_keeps_alias_check :
    Ty.clone Ty.num = some Ty.num ∧ Ty.is_equal Ty.num "num" = true :=
  ⟨rfl, clone_keeps_alias Ty.num Ty.num "num" rfl (by decide) (by decide) rfl⟩

/-- Claim C7 counterexample: the set variant is registered under the alias
set, yet its clone (built by the inherited ListType.clone) is a list value,
whose alias tuple does not contain set, so is_equal of the clone against the
own registered name answers false. -/
theorem set_clone_loses_name :
    Ty.is_equal (Ty.set Ty.num (some false)) "set" = true ∧
    Ty.clone (Ty.set Ty.num (some false)) = some (Ty.list Ty.num (some false)) ∧
    Ty.is_equal (Ty.list Ty.num (some false)) "set" = false :=
  ⟨rfl, rfl, rfl⟩

/-! ## C3: mapping lookup by index and by iteration -/

theorem find?_of_first {α : Type} (p : α → Bool) (pre : List α) (x : α) (post : List α)
    (hpre : ∀ a ∈ pre, p a = false) (hx : p x = true) :
    (pre ++ x :: post).find? p = some x := by
  induction pre with
  | nil => simp [List.find?_cons, hx]
  | cons a rest ih =>
      have ha : p a = false := hpre a (by simp)
      simp only [List.cons_append, List.find?_cons, ha]
      exact ih (fun b hb => hpre b (by simp [hb]))

/-- Claim C3 (amended): indexing a mapping returns unknown when updates
were unobserved or no literal key matches, a clone of the first value whose
literal key matches, and on a get_keys/get_values mapping a clone of the
head key or value; iteration on a literal-keyed mapping does not iterate
the keys but behaves exactly like indexing, returning the head of the
get_keys branch. -/
theorem dict_access_amended (e : PyBool) (i : Lit) (gk : Bool) :
    (∀ l k v, pyTruthy e = true →
       dict_access_item e l k v i gk = some Ty.unknown) ∧
    (∀ lits vals k, pyTruthy e = false →
       (∀ p ∈ lits.zip vals, are_literals_equal p.1 i = false) →
       dict_access_item e (some lits) k (some vals) i gk = some Ty.unknown) ∧
    (∀ lits vals k pre l0 v0 post, pyTruthy e = false →
       lits.zip vals = pre ++ (l0, v0) :: post →
       (∀ p ∈ pre, are_literals_equal p.1 i = false) →
       are_literals_equal l0 i = true →
       dict_access_item e (some lits) k (some vals) i gk = v0.clone) ∧
    (∀ k0 ks v0 vs, pyTruthy e = false →
       dict_access_item e none (some (k0 :: ks)) (some (v0 :: vs)) i gk =
         (if gk then k0.clone else v0.clone)) ∧
    (∀ lits k v,
       dict_access_item e (some lits) k v i true =
         dict_access_item e (some lits) k v i false) := by
  refine ⟨?_, ?_, ?_, ?_, ?_⟩
  · intro l k v he
    simp [dict_access_item, he]
  · intro lits vals k he hall
    have hfind : (lits.zip vals).find? (fun p => are_literals_equal p.1 i) = none := by
      rw [List.find?_eq_none]
      intro p hp
      simp [hall p hp]
    simp [dict_access_item, he, hfind]
  · intro lits vals k pre l0 v0 post he hzip hpre hl0
    have hfind : (lits.zip vals).find? (fun p => are_literals_equal p.1 i) =
        some (l0, v0) := by
      rw [hzip]
      exact find?_of_first _ pre (l0, v0) post (fun a ha => hpre a ha) hl0
    simp [dict_access_item, he, hfind]
  · intro k0 ks v0 vs he
    cases gk <;> simp [dict_access_item, he]
  · intro lits k v
    cases hv : v <;> simp [dict_access_item]

/-- Claim C3 witness: the literal-keyed mapping of the spec example, looked
up at the second literal key. -/
theorem dict_access_amended_check :
    pyTruthy (some false) = false ∧
    dict_access_item (some false)
      (some [Lit.str (Json.str "a"), Lit.str (Json.str "b")]) none
      (some [Ty.num, Ty.str (some false)]) (Lit.str (Json.str "b")) false =
      (Ty.str (some false)).clone :=
  ⟨rfl,
   (dict_access_amended (some false) (Lit.str (Json.str "b")) false).2.2.1
     [Lit.str (Json.str "a"), Lit.str (Json.str "b")]
     [Ty.num, Ty.str (some false)] none
     [(Lit.str (Json.str "a"), Ty.num)]
     (Lit.str (Json.str "b")) (Ty.str (some false)) [] rfl rfl
     (by intro p hp; simp at hp; subst hp; rfl) rfl⟩

/-- Claim C3 counterexample: on a literal-keyed mapping, lookup-by-iteration
does not return the key type: the literals branch of _access_item runs before
the get_keys test, so iteration returns the recorded value (here the number
type), not the type of the text key. -/
theorem dict_iterate_literal_counterexample :
    DictType_iterate
      (Ty.dict (some false) (some [Lit.str (Json.str "a")]) none (some [Ty.num]))
      (Lit.str (Json.str "a")) = some Ty.num ∧
    Ty.num ≠ Ty.str (some false) :=
  ⟨rfl, fun h => Ty.noConfusion h⟩

end PedalSpec

namespace PedalSpec

/-! ## C6: lookup versus membership on the ledger -/

/-- Claim C6: item lookup probes the variable table, then the function
table, then the class table, while the membership test probes only the
variable and the function tables, so a key bound only in the class table is
retrievable yet reported absent. -/
theorem ledger_lookup_asymmetry (m : AstMap) (k : String)
    (hpre : k.startsWith "__" = false) :
    (∀ lid, dlookup m.symbol_table k = some lid →
       m.getItem k = some (.syms lid)) ∧
    (∀ lid, dlookup m.symbol_table k = none →
       dlookup m.func_table k = some lid →
       m.getItem k = some (.syms lid)) ∧
    (∀ lid, dlookup m.symbol_table k = none →
       dlookup m.func_table k = none →
       dlookup m.class_table k = some lid →
       m.getItem k = some (.syms lid) ∧ m.containsKey k = false) := by
  refine ⟨?_, ?_, ?_⟩
  · intro lid hs
    simp [AstMap.getItem, hpre, hs]
  · intro lid hs hf
    simp [AstMap.getItem, hpre, hs, hf]
  · intro lid hs hf hc
    constructor
    · simp [AstMap.getItem, hpre, hs, hf, hc]
    · simp [AstMap.containsKey, hpre, hs, hf]

/-- Claim C6 witness: a ledger whose class table alone binds the key. -/
theorem ledger_lookup_asymmetry_check :
    ("C".startsWith "__" = false) ∧
    (AstMap.getItem ⟨[], [], [], [], [("C", 5)], []⟩ "C" = some (.syms 5) ∧
     AstMap.containsKey ⟨[], [], [], [], [("C", 5)], []⟩ "C" = false) :=
  ⟨rfl, (ledger_lookup_asymmetry ⟨[], [], [], [], [("C", 5)], []⟩ "C" rfl).2.2 5 rfl rfl rfl⟩

/-! ## C9: repeated adds under one key -/

/-- Claim C9 counterexample: adding the same (key, student node) pair twice
leaves two bindings, not one.  The presence test of add_x_to_sym_table
compares by binding-record object identity, and each add constructs a fresh
record (here with object ids 100 and 102), so the second add appends a
duplicate wrapping the very same student node 0. -/
theorem duplicate_pair_appended :
    (do
      let r1 ← add_var_to_sym_table (.inl "k") 0 AstMap.empty
        ⟨[(0, ⟨"Name", "x", "", none⟩)], [], 100⟩
      let r2 ← add_var_to_sym_table (.inl "k") 0 r1.1 r1.2
      pure (dlookup r2.2.listHeap 101, r2.1.conflict_keys)) =
    some (some [⟨100, "x", 0⟩, ⟨102, "x", 0⟩], []) := rfl

/-- Claim C9 amended theorem: an add under an already-bound key always
appends the freshly constructed binding record (never deduplicates, the
record being new), and when the resolved identifiers agree no conflict entry
is created. -/
theorem add_always_appends (k : String) (n : Nat) (m : AstMap) (ls : LedgerState)
    (lid : Nat) (cur : List AstSymbol) (nd : CaitNode)
    (hn : dlookup ls.nodeHeap n = some nd)
    (ht : dlookup m.symbol_table k = some lid)
    (hl : dlookup ls.listHeap lid = some cur)
    (hfresh : ∀ s ∈ cur, s.sid < ls.ctr) :
    ∃ r, add_var_to_sym_table (.inl k) n m ls = some r ∧
      dlookup r.2.listHeap lid = some (cur ++ [⟨ls.ctr, nd.idStr, n⟩]) ∧
      ((∀ s ∈ cur, s.id = nd.idStr) → r.1.conflict_keys = m.conflict_keys) := by
  have hmem : cur.any (fun o => o.sid == ls.ctr) = false := by
    simp only [List.any_eq_false]
    intro s hs
    have := hfresh s hs
    simp
    omega
  simp only [add_var_to_sym_table, resolve_var_key, add_x_to_sym_table,
    Option.bind_eq_bind, Option.some_bind, hn, ht, hl, hmem, Bool.false_eq_true,
    if_false]
  refine ⟨_, rfl, ?_, ?_⟩
  · simp [dlookup_dset]
  · intro hsame
    by_cases hck : m.conflict_keys.contains k
    · simp only [hck, if_true]
    · simp only [hck, Bool.false_eq_true, if_false]
      have hscan : (cur ++ [(⟨ls.ctr, nd.idStr, n⟩ : AstSymbol)]).any
          (fun o => nd.idStr != o.id) = false := by
        simp only [List.any_eq_false]
        intro s hs
        simp only [List.mem_append, List.mem_singleton] at hs
        rcases hs with hs | rfl
        · simp [hsame s hs]
        · simp
      simp [hscan]

/-- Claim C9 witness. -/
theorem add_always_appends_check :
    ∃ r, add_var_to_sym_table (.inl "k") 0
        ⟨[], [], [("k", 7)], [], [], []⟩
        ⟨[(0, ⟨"Name", "x", "", none⟩)], [(7, [⟨3, "x", 0⟩])], 50⟩ = some r ∧
      dlookup r.2.listHeap 7 = some ([⟨3, "x", 0⟩] ++ [⟨50, "x", 0⟩]) ∧
      ((∀ s ∈ [(⟨3, "x", 0⟩ : AstSymbol)], s.id = "x") →
        r.1.conflict_keys = []) := by
  exact add_always_appends "k" 0 ⟨[], [], [("k", 7)], [], [], []⟩
    ⟨[(0, ⟨"Name", "x", "", none⟩)], [(7, [⟨3, "x", 0⟩])], 50⟩ 7
    [⟨3, "x", 0⟩] ⟨"Name", "x", "", none⟩ rfl rfl rfl
    (by intro s hs; simp at hs; subst hs; decide)

end PedalSpec

namespace PedalSpec

/-! ## C2: conflict flagging discipline -/

theorem twoDiffer_iff (l : List String) :
    twoDiffer l = true ↔ ∃ a ∈ l, ∃ b ∈ l, a ≠ b := by
  simp [twoDiffer, List.any_eq_true, bne_iff_ne]

theorem twoDiffer_of_two (l : List String) (a b : String)
    (ha : a ∈ l) (hb : b ∈ l) (hab : a ≠ b) : twoDiffer l = true :=
  (twoDiffer_iff l).2 ⟨a, ha, b, hb, hab⟩

theorem twoDiffer_eq_false_of_const (l : List String) (x : String)
    (h : ∀ a ∈ l, a = x) : twoDiffer l = false := by
  rw [← Bool.not_eq_true, twoDiffer_iff]
  rintro ⟨a, ha, b, hb, hab⟩
  rw [h a ha, h b hb] at hab
  exact hab rfl

theorem contains_iff (l : List String) (a : String) :
    l.contains a = true ↔ a ∈ l := by
  simp [List.contains]

theorem run_adds_established (key : String) (rest : List (String × Nat))
    (tbl : List (String × Nat)) (conflicts : List String) (ls : LedgerState)
    (lid : Nat) (syms : List AstSymbol)
    (ht : dlookup tbl key = some lid)
    (hl : dlookup ls.listHeap lid = some syms)
    (hsid : ∀ s ∈ syms, s.sid < ls.ctr)
    (hcnt : conflicts.count key =
      if twoDiffer (syms.map AstSymbol.id) then 1 else 0) :
    ∃ r, run_adds key rest tbl conflicts ls = some r ∧
      r.2.1.count key =
        if twoDiffer (syms.map AstSymbol.id ++ rest.map Prod.fst) then 1
        else 0 := by
  induction rest generalizing tbl conflicts ls syms with
  | nil => exact ⟨(tbl, conflicts, ls), rfl, by simpa using hcnt⟩
  | cons p rest2 ih =>
      have hmem : syms.any (fun o => o.sid == ls.ctr) = false := by
        simp only [List.any_eq_false]
        intro s hs
        have := hsid s hs
        simp
        omega
      set value : AstSymbol := ⟨ls.ctr, p.1, p.2⟩ with hval
      set conflicts2 : List String :=
        if conflicts.contains key then conflicts
        else if (syms ++ [value]).any (fun o => value.id != o.id)
        then conflicts ++ [key] else conflicts with hconf2
      have hstep : run_adds key (p :: rest2) tbl conflicts ls =
          run_adds key rest2 (dset tbl key lid) conflicts2
            { ls with listHeap := dset ls.listHeap lid (syms ++ [value]),
                      ctr := ls.ctr + 1 } := by
        simp only [run_adds, add_x_to_sym_table, ht, hl, hmem,
          Bool.false_eq_true, if_false]
      have hcnt2 : conflicts2.count key =
          if twoDiffer ((syms ++ [value]).map AstSymbol.id) then 1 else 0 := by
        by_cases hdiff : twoDiffer (syms.map AstSymbol.id) = true
        · have hcount1 : conflicts.count key = 1 := by rw [hcnt, if_pos hdiff]
          have hmem2 : key ∈ conflicts := by
            have hne : conflicts.count key ≠ 0 := by omega
            by_contra hnk
            exact hne (List.count_eq_zero.2 hnk)
          have hcontains : conflicts.contains key = true :=
            (contains_iff _ _).2 hmem2
          have hdiff2 : twoDiffer ((syms ++ [value]).map AstSymbol.id) = true := by
            rw [twoDiffer_iff] at hdiff ⊢
            obtain ⟨a, ha, b, hb, hab⟩ := hdiff
            refine ⟨a, ?_, b, ?_, hab⟩
            · rw [List.map_append]
              exact List.mem_append_left _ ha
            · rw [List.map_append]
              exact List.mem_append_left _ hb
          rw [hconf2, if_pos hcontains, if_pos hdiff2]
          exact hcount1
        · have hcount0 : conflicts.count key = 0 := by
            rw [hcnt, if_neg hdiff]
          have hnmem : key ∉ conflicts := List.count_eq_zero.1 hcount0
          have hcontains : conflicts.contains key = false := by
            rw [← Bool.not_eq_true, contains_iff]
            exact hnmem
          by_cases hscan : (syms ++ [value]).any (fun o => value.id != o.id) = true
          · have hdiff2 : twoDiffer ((syms ++ [value]).map AstSymbol.id) = true := by
              rw [List.any_eq_true] at hscan
              obtain ⟨o, ho, hne⟩ := hscan
              rw [bne_iff_ne] at hne
              refine twoDiffer_of_two _ value.id o.id ?_ ?_ hne
              · rw [List.map_append]
                exact List.mem_append_right _ (by simp)
              · exact List.mem_map_of_mem _ ho
            have hc_ne : ¬(conflicts.contains key = true) := by
              rw [hcontains]
              exact Bool.false_ne_true
            rw [hconf2, if_neg hc_ne, if_pos hscan, if_pos hdiff2,
              List.count_append, hcount0]
            simp
          · have hscanf : ((syms ++ [value]).any (fun o => value.id != o.id)) = false :=
              Bool.eq_false_iff.2 hscan
            have hall : ∀ o ∈ syms ++ [value], o.id = value.id := by
              rw [List.any_eq_false] at hscanf
              intro o ho
              have := hscanf o ho
              simp only [bne_iff_ne, ne_eq, Decidable.not_not] at this
              exact this.symm
            have hdiff2 : twoDiffer ((syms ++ [value]).map AstSymbol.id) = false := by
              refine twoDiffer_eq_false_of_const _ value.id ?_
              intro a ha
              obtain ⟨o, ho, rfl⟩ := List.mem_map.1 ha
              exact hall o ho
            have hc_ne : ¬(conflicts.contains key = true) := by
              rw [hcontains]
              exact Bool.false_ne_true
            have hd_ne : ¬(twoDiffer ((syms ++ [value]).map AstSymbol.id) = true) := by
              rw [hdiff2]
              exact Bool.false_ne_true
            rw [hconf2, if_neg hc_ne, if_neg hscan, if_neg hd_ne]
            exact hcount0
      have hrec := ih (dset tbl key lid) conflicts2
        { ls with listHeap := dset ls.listHeap lid (syms ++ [value]),
                  ctr := ls.ctr + 1 }
        (syms ++ [value]) (dlookup_dset tbl key lid)
        (dlookup_dset ls.listHeap lid (syms ++ [value]))
        (by
          intro s hs
          simp only [List.mem_append, List.mem_singleton] at hs
          rcases hs with hs | rfl
          · have := hsid s hs
            simp
            omega
          · simp)
        hcnt2
      obtain ⟨r, hr, hrc⟩ := hrec
      refine ⟨r, by rw [hstep]; exact hr, ?_⟩
      rw [hrc]
      simp [List.map_append, List.append_assoc]

/-- Claim C2: a run of adds under one fresh key never flags the key when
all resolved identifiers agree, and flags it exactly once, never twice, as
soon as two identifiers differ. -/
theorem add_key_conflict_flagged_once (key : String)
    (pairs : List (String × Nat))
    (tbl : List (String × Nat)) (conflicts : List String) (ls : LedgerState)
    (hk : dlookup tbl key = none) (hc : key ∉ conflicts)
    (hfresh : ∀ lid2, (dlookup ls.listHeap lid2).isSome → lid2 < ls.ctr) :
    ∃ r, run_adds key pairs tbl conflicts ls = some r ∧
      ((∀ p ∈ pairs, ∀ q ∈ pairs, (p : String × Nat).1 = q.1) →
        r.2.1.count key = 0) ∧
      ((∃ p ∈ pairs, ∃ q ∈ pairs, (p : String × Nat).1 ≠ q.1) →
        r.2.1.count key = 1) := by
  cases pairs with
  | nil =>
      refine ⟨(tbl, conflicts, ls), rfl, ?_, ?_⟩
      · intro _
        exact List.count_eq_zero.2 hc
      · rintro ⟨p, hp, -⟩
        exact absurd hp (List.not_mem_nil p)
  | cons p rest =>
      have hfresh2 : dlookup ls.listHeap (ls.ctr + 1) = none := by
        cases hh : dlookup ls.listHeap (ls.ctr + 1) with
        | none => rfl
        | some v =>
            have := hfresh (ls.ctr + 1) (by simp [hh])
            omega
      have hstep : run_adds key (p :: rest) tbl conflicts ls =
          run_adds key rest (dset tbl key (ls.ctr + 1)) conflicts
            { ls with
                listHeap := ls.listHeap ++ [(ls.ctr + 1, [⟨ls.ctr, p.1, p.2⟩])],
                ctr := ls.ctr + 2 } := by
        simp only [run_adds, add_x_to_sym_table, hk]
      have hrec := run_adds_established key rest (dset tbl key (ls.ctr + 1))
        conflicts
        { ls with
            listHeap := ls.listHeap ++ [(ls.ctr + 1, [⟨ls.ctr, p.1, p.2⟩])],
            ctr := ls.ctr + 2 }
        (ls.ctr + 1) [⟨ls.ctr, p.1, p.2⟩]
        (dlookup_dset tbl key (ls.ctr + 1))
        (dlookup_append_fresh ls.listHeap (ls.ctr + 1) _ hfresh2)
        (by
          intro s hs
          simp at hs
          subst hs
          simp)
        (by
          rw [List.count_eq_zero.2 hc]
          simp [twoDiffer])
      obtain ⟨r, hr, hrc⟩ := hrec
      have hrc2 : r.2.1.count key =
          if twoDiffer (p.1 :: rest.map Prod.fst) then 1 else 0 := by
        simpa using hrc
      refine ⟨r, by rw [hstep]; exact hr, ?_, ?_⟩
      · intro hsame
        rw [hrc2, twoDiffer_eq_false_of_const _ p.1 ?_]
        · simp
        · intro a ha
          rcases List.mem_cons.1 ha with rfl | ha
          · rfl
          · obtain ⟨q, hq, rfl⟩ := List.mem_map.1 ha
            exact hsame q (by simp [hq]) p (by simp)
      · rintro ⟨pa, hpa, pb, hpb, hab⟩
        rw [hrc2, twoDiffer_of_two _ pa.1 pb.1 ?_ ?_ hab]
        · simp
        · exact List.mem_map_of_mem Prod.fst hpa
        · exact List.mem_map_of_mem Prod.fst hpb

/-- Claim C2 witness: two adds of identifier a then one of identifier b flag
the key exactly once. -/
theorem add_key_conflict_flagged_once_check :
    ∃ r, run_adds "k" [("a", 0), ("a", 1), ("b", 2)] [] [] ⟨[], [], 10⟩ = some r ∧
      r.2.1.count "k" = 1 := by
  obtain ⟨r, hr, -, hcone⟩ := add_key_conflict_flagged_once "k"
    [("a", 0), ("a", 1), ("b", 2)] [] [] ⟨[], [], 10⟩ rfl
    (List.not_mem_nil "k") (by intro lid2 h; simp [dlookup] at h)
  exact ⟨r, hr, hcone ⟨("a", 0), by simp, ("b", 2), by simp, by simp⟩⟩

end PedalSpec

namespace PedalSpec

/-! ## C10: serialization round trip -/

theorem size_le_sizeList (v : Ty) (l : List Ty) (h : v ∈ l) :
    Ty.size v ≤ Ty.sizeList l := by
  induction l with
  | nil => exact absurd h (List.not_mem_nil v)
  | cons t ts ih =>
      rcases List.mem_cons.1 h with rfl | h2
      · simp [Ty.sizeList]
      · have := ih h2
        simp [Ty.sizeList]
        omega

theorem size_le_sizePairs (p : String × Ty) (l : List (String × Ty)) (h : p ∈ l) :
    Ty.size p.2 ≤ Ty.sizePairs l := by
  induction l with
  | nil => exact absurd h (List.not_mem_nil p)
  | cons q ts ih =>
      rcases List.mem_cons.1 h with rfl | h2
      · obtain ⟨a, b⟩ := p
        simp [Ty.sizePairs]
      · have := ih h2
        obtain ⟨a, b⟩ := q
        simp [Ty.sizePairs]
        omega

theorem pyBool_roundtrip (e : PyBool) : jsonToPyBool (some (pyBoolToJson e)) = e := by
  cases e <;> rfl

theorem name_roundtrip (n : Option String) : jsonToName (some (nameToJson n)) = n := by
  cases n <;> rfl

theorem rep_ne_pynone (t : Ty) (h : Rep t) : t ≠ Ty.pynone := by
  cases h <;> exact fun hh => Ty.noConfusion hh

theorem noneToUnknown_of_ne (t : Ty) (h : t ≠ Ty.pynone) : noneToUnknown t = t := by
  cases t <;> first | rfl | exact absurd rfl h

theorem lit_roundtrip (l : Lit) (h : RepLit l) :
    ∃ j, lit_to_json l = some j ∧ literal_from_json j = some l := by
  cases l with
  | str v => exact ⟨_, rfl, rfl⟩
  | num v => exact ⟨_, rfl, rfl⟩
  | bool v => exact ⟨_, rfl, rfl⟩
  | tuple v => exact absurd h (by simp [RepLit])
  | noneLit v => exact absurd h (by simp [RepLit])
  | pynone => exact absurd h (by simp [RepLit])

theorem lit_list_roundtrip (lits : List Lit) (hall : ∀ l ∈ lits, RepLit l) :
    ∃ js, lit_list_to_json lits = some js ∧ lits_from_json js = some lits := by
  induction lits with
  | nil => exact ⟨[], rfl, rfl⟩
  | cons l rest ih =>
      obtain ⟨j, hj, hfj⟩ := lit_roundtrip l (hall l (by simp))
      obtain ⟨js, hjs, hfjs⟩ := ih (fun x hx => hall x (by simp [hx]))
      refine ⟨j :: js, ?_, ?_⟩
      · simp [lit_list_to_json, hj, hjs]
      · simp [lits_from_json, hfj, hfjs]

theorem types_roundtrip_list (vals : List Ty) (f : Nat)
    (hall : ∀ v ∈ vals, ∃ j, type_to_json v = some j ∧
      type_from_json f j = some v) :
    ∃ js, type_list_to_json vals = some js ∧
      types_from_list (type_from_json f) js = some vals := by
  induction vals with
  | nil => exact ⟨[], rfl, rfl⟩
  | cons v rest ih =>
      obtain ⟨j, hj, hfj⟩ := hall v (by simp)
      obtain ⟨js, hjs, hfjs⟩ := ih (fun x hx => hall x (by simp [hx]))
      refine ⟨j :: js, ?_, ?_⟩
      · simp [type_list_to_json, hj, hjs]
      · simp [types_from_list, hfj, hfjs]

theorem named_roundtrip_list (pairs : List (String × Ty)) (f : Nat)
    (hall : ∀ p ∈ pairs, ∃ j, type_to_json (p : String × Ty).2 = some j ∧
      type_from_json f j = some p.2) :
    ∃ js, named_list_to_json pairs = some js ∧
      named_types_from_list (type_from_json f) js = some pairs := by
  induction pairs with
  | nil => exact ⟨[], rfl, rfl⟩
  | cons p rest ih =>
      obtain ⟨j, hj, hfj⟩ := hall p (by simp)
      obtain ⟨js, hjs, hfjs⟩ := ih (fun x hx => hall x (by simp [hx]))
      obtain ⟨name, v⟩ := p
      refine ⟨(name, j) :: js, ?_, ?_⟩
      · simp [named_list_to_json, hj, hjs]
      · simp [named_types_from_list, hfj, hfjs]

/-- Claim C10: every representable parsed type serializes successfully,
and feeding the serialization back to the parser with fuel at least the
nesting depth returns the original type exactly. -/
theorem type_json_roundtrip (t : Ty) (h : Rep t) :
    ∀ fuel, Ty.size t ≤ fuel →
      ∃ j, type_to_json t = some j ∧ type_from_json fuel j = some t := by
  induction h with
  | num =>
      intro fuel hf
      simp [Ty.size] at hf
      obtain ⟨f, rfl⟩ : ∃ f, fuel = f + 1 := ⟨fuel - 1, by omega⟩
      exact ⟨_, rfl, rfl⟩
  | boolT =>
      intro fuel hf
      simp [Ty.size] at hf
      obtain ⟨f, rfl⟩ : ∃ f, fuel = f + 1 := ⟨fuel - 1, by omega⟩
      exact ⟨_, rfl, rfl⟩
  | noneT =>
      intro fuel hf
      simp [Ty.size] at hf
      obtain ⟨f, rfl⟩ : ∃ f, fuel = f + 1 := ⟨fuel - 1, by omega⟩
      exact ⟨_, rfl, rfl⟩
  | str e =>
      intro fuel hf
      simp [Ty.size] at hf
      obtain ⟨f, rfl⟩ : ∃ f, fuel = f + 1 := ⟨fuel - 1, by omega⟩
      refine ⟨_, rfl, ?_⟩
      show some (Ty.str (jsonToPyBool (some (pyBoolToJson e)))) = some (Ty.str e)
      rw [pyBool_roundtrip]
  | list s e hs ih =>
      intro fuel hf
      have hsz : 1 ≤ Ty.size (Ty.list s e) := by simp [Ty.size]
      obtain ⟨f, rfl⟩ : ∃ f, fuel = f + 1 := ⟨fuel - 1, by omega⟩
      have hbound : Ty.size s ≤ f := by
        simp [Ty.size] at hf
        omega
      obtain ⟨sj, hsj, hfsj⟩ := ih f hbound
      refine ⟨Json.obj [("type", .str "ListType"), ("subtype", sj),
        ("empty", pyBoolToJson e)], ?_, ?_⟩
      · simp [type_to_json, hsj]
      · show (type_from_json f sj).bind
            (fun s2 => some (Ty.list (noneToUnknown s2)
              (jsonToPyBool (some (pyBoolToJson e))))) = some (Ty.list s e)
        rw [hfsj]
        simp [Option.bind, noneToUnknown_of_ne s (rep_ne_pynone s hs), pyBool_roundtrip]
  | dictLit e lits vals hlits hvals ih =>
      intro fuel hf
      have hsz : 1 ≤ Ty.size (Ty.dict e (some lits) none (some vals)) := by
        simp [Ty.size]
      obtain ⟨f, rfl⟩ : ∃ f, fuel = f + 1 := ⟨fuel - 1, by omega⟩
      have hbound : ∀ v ∈ vals, Ty.size v ≤ f := by
        intro v hv
        have h1 := size_le_sizeList v vals hv
        simp [Ty.size, Ty.sizeOpt] at hf
        omega
      obtain ⟨vj, hvj, hfvj⟩ := types_roundtrip_list vals f
        (fun v hv => ih v hv f (hbound v hv))
      obtain ⟨lj, hlj, hflj⟩ := lit_list_roundtrip lits hlits
      refine ⟨Json.obj [("type", .str "DictType"), ("empty", pyBoolToJson e),
        ("literals", .arr lj), ("values", .arr vj)], ?_, ?_⟩
      · simp [type_to_json, hlj, hvj]
      · show (types_from_list (type_from_json f) vj).bind
            (fun values => (lits_from_json lj).bind
              (fun literals => some (Ty.dict (jsonToPyBool (some (pyBoolToJson e)))
                (some literals) none (some values)))) =
          some (Ty.dict e (some lits) none (some vals))
        rw [hfvj, hflj]
        simp [Option.bind, pyBool_roundtrip]
  | dictKeys e ks vs hks hvs ihk ihv =>
      intro fuel hf
      have hsz : 1 ≤ Ty.size (Ty.dict e none (some ks) (some vs)) := by
        simp [Ty.size]
      obtain ⟨f, rfl⟩ : ∃ f, fuel = f + 1 := ⟨fuel - 1, by omega⟩
      have hboundk : ∀ v ∈ ks, Ty.size v ≤ f := by
        intro v hv
        have h1 := size_le_sizeList v ks hv
        simp [Ty.size, Ty.sizeOpt] at hf
        omega
      have hboundv : ∀ v ∈ vs, Ty.size v ≤ f := by
        intro v hv
        have h1 := size_le_sizeList v vs hv
        simp [Ty.size, Ty.sizeOpt] at hf
        omega
      obtain ⟨kj, hkj, hfkj⟩ := types_roundtrip_list ks f
        (fun v hv => ihk v hv f (hboundk v hv))
      obtain ⟨vj, hvj, hfvj⟩ := types_roundtrip_list vs f
        (fun v hv => ihv v hv f (hboundv v hv))
      refine ⟨Json.obj [("type", .str "DictType"), ("empty", pyBoolToJson e),
        ("keys", .arr kj), ("values", .arr vj)], ?_, ?_⟩
      · simp [type_to_json, hkj, hvj]
      · show (types_from_list (type_from_json f) vj).bind
            (fun values => (types_from_list (type_from_json f) kj).bind
              (fun keys => some (Ty.dict (jsonToPyBool (some (pyBoolToJson e)))
                none (some keys) (some values)))) =
          some (Ty.dict e none (some ks) (some vs))
        rw [hfvj, hfkj]
        simp [Option.bind, pyBool_roundtrip]
  | module name subs flds hsubs hflds ihs ihf =>
      intro fuel hf
      have hsz : 1 ≤ Ty.size (Ty.module name subs flds) := by simp [Ty.size]
      obtain ⟨f, rfl⟩ : ∃ f, fuel = f + 1 := ⟨fuel - 1, by omega⟩
      have hbounds : ∀ p ∈ subs, Ty.size (p : String × Ty).2 ≤ f := by
        intro p hp
        have h1 := size_le_sizePairs p subs hp
        simp [Ty.size] at hf
        omega
      have hboundf : ∀ p ∈ flds, Ty.size (p : String × Ty).2 ≤ f := by
        intro p hp
        have h1 := size_le_sizePairs p flds hp
        simp [Ty.size] at hf
        omega
      obtain ⟨sj, hsj, hfsj⟩ := named_roundtrip_list subs f
        (fun p hp => ihs p hp f (hbounds p hp))
      obtain ⟨fj, hfj, hffj⟩ := named_roundtrip_list flds f
        (fun p hp => ihf p hp f (hboundf p hp))
      refine ⟨Json.obj [("type", .str "ModuleType"), ("name", nameToJson name),
        ("submodules", .obj sj), ("fields", .obj fj)], ?_, ?_⟩
      · simp [type_to_json, hsj, hfj]
      · show (named_types_from_list (type_from_json f) sj).bind
            (fun submodules => (named_types_from_list (type_from_json f) fj).bind
              (fun fields => some (Ty.module (jsonToName (some (nameToJson name)))
                submodules fields))) =
          some (Ty.module name subs flds)
        rw [hfsj, hffj]
        simp [Option.bind, name_roundtrip]

/-- Claim C10 witness: a module with one nested submodule and fields covering
the representable variants of the claim. -/
theorem type_json_roundtrip_check :
    ∃ j, type_to_json (Ty.module (some "m")
        [("sub", Ty.module (some "s") [] [])]
        [("xs", Ty.list Ty.num (some false)),
         ("ys", Ty.list (Ty.str (some false)) (some true)),
         ("d", Ty.dict (some false)
            (some [Lit.str (Json.str "a"), Lit.str (Json.str "b")]) none
            (some [Ty.num, Ty.str (some false)])),
         ("g", Ty.dict (some false) none (some [Ty.str (some false)])
            (some [Ty.boolT])),
         ("n", Ty.noneT)]) = some j ∧
      type_from_json (Ty.size (Ty.module (some "m")
        [("sub", Ty.module (some "s") [] [])]
        [("xs", Ty.list Ty.num (some false)),
         ("ys", Ty.list (Ty.str (some false)) (some true)),
         ("d", Ty.dict (some false)
            (some [Lit.str (Json.str "a"), Lit.str (Json.str "b")]) none
            (some [Ty.num, Ty.str (some false)])),
         ("g", Ty.dict (some false) none (some [Ty.str (some false)])
            (some [Ty.boolT])),
         ("n", Ty.noneT)])) j = some (Ty.module (some "m")
        [("sub", Ty.module (some "s") [] [])]
        [("xs", Ty.list Ty.num (some false)),
         ("ys", Ty.list (Ty.str (some false)) (some true)),
         ("d", Ty.dict (some false)
            (some [Lit.str (Json.str "a"), Lit.str (Json.str "b")]) none
            (some [Ty.num, Ty.str (some false)])),
         ("g", Ty.dict (some false) none (some [Ty.str (some false)])
            (some [Ty.boolT])),
         ("n", Ty.noneT)]) := by
  refine type_json_roundtrip _ ?_ _ le_rfl
  refine Rep.module _ _ _ ?_ ?_
  · intro p hp
    simp at hp
    subst hp
    exact Rep.module _ _ _ (by intro q hq; simp at hq) (by intro q hq; simp at hq)
  · intro p hp
    simp at hp
    rcases hp with hp | hp | hp | hp | hp <;> subst hp <;> simp
    · exact Rep.list _ _ Rep.num
    · exact Rep.list _ _ (Rep.str _)
    · refine Rep.dictLit _ _ _ ?_ ?_
      · intro l hl
        rcases List.mem_cons.1 hl with rfl | hl
        · simp [RepLit]
        · simp at hl
          subst hl
          simp [RepLit]
      · intro v hv
        rcases List.mem_cons.1 hv with rfl | hv
        · exact Rep.num
        · simp at hv
          subst hv
          exact Rep.str _
    · refine Rep.dictKeys _ _ _ ?_ ?_
      · intro k hk
        simp at hk
        subst hk
        exact Rep.str _
      · intro v hv
        simp at hv
        subst hv
        exact Rep.boolT
    · exact Rep.noneT

end PedalSpec

namespace PedalSpec

/-! ## Shared evolution lemmas for the merge proofs -/

theorem dset_self {κ α : Type} [DecidableEq κ] (h : List (κ × α)) (k : κ) (v : α)
    (hk : dlookup h k = some v) : dset h k v = h := by
  induction h with
  | nil => simp [dlookup] at hk
  | cons p rest ih =>
      obtain ⟨k0, v0⟩ := p
      by_cases hk0 : k0 = k
      · subst hk0
        simp [dlookup] at hk
        simp [dset, hk]
      · simp [dlookup, hk0] at hk
        simp [dset, hk0, ih hk]

theorem add_x_spec (key : String) (value : AstSymbol)
    (x_table : List (String × Nat)) (conflicts : List String) (ls : LedgerState)
    (hheap : ∀ lid, (dlookup ls.listHeap lid).isSome → lid < ls.ctr)
    (hsid : ∀ lid syms, dlookup ls.listHeap lid = some syms →
      ∀ s ∈ syms, s.sid ≠ value.sid)
    (hlive : ∀ lid, dlookup x_table key = some lid →
      (dlookup ls.listHeap lid).isSome) :
    ∃ r wlid, add_x_to_sym_table key value x_table conflicts ls = some r ∧
      r.1 = dset x_table key wlid ∧
      ((dlookup x_table key = some wlid) ∨
       (dlookup x_table key = none ∧ wlid = ls.ctr)) ∧
      dlookup r.2.2.listHeap wlid =
        some ((dlookup ls.listHeap wlid).getD [] ++ [value]) ∧
      (∀ lid, lid ≠ wlid → dlookup r.2.2.listHeap lid = dlookup ls.listHeap lid) ∧
      (∀ lid, (dlookup r.2.2.listHeap lid).isSome →
        (dlookup ls.listHeap lid).isSome ∨ lid = wlid) ∧
      r.2.2.nodeHeap = ls.nodeHeap ∧
      ls.ctr ≤ r.2.2.ctr ∧ r.2.2.ctr ≤ ls.ctr + 1 ∧ wlid < r.2.2.ctr ∧
      r.2.1 = (if conflicts.contains key then conflicts
        else if ((dlookup ls.listHeap wlid).getD [] ++ [value]).any
          (fun o => value.id != o.id) then conflicts ++ [key] else conflicts) := by
  cases hk : dlookup x_table key with
  | some lid =>
      obtain ⟨syms, hsyms⟩ : ∃ syms, dlookup ls.listHeap lid = some syms := by
        have := hlive lid hk
        cases hh : dlookup ls.listHeap lid with
        | none => rw [hh] at this; simp at this
        | some s => exact ⟨s, rfl⟩
      have hlt : lid < ls.ctr := hheap lid (by simp [hsyms])
      have hnodup : syms.any (fun o => o.sid == value.sid) = false := by
        simp only [List.any_eq_false]
        intro s hs
        have := hsid lid syms hsyms s hs
        simp [this]
      have heq : add_x_to_sym_table key value x_table conflicts ls =
          some (dset x_table key lid,
            (if conflicts.contains key then conflicts
             else if (syms ++ [value]).any (fun o => value.id != o.id)
             then conflicts ++ [key] else conflicts),
            { ls with listHeap := dset ls.listHeap lid (syms ++ [value]) }) := by
        simp only [add_x_to_sym_table, hk, hsyms, hnodup, Bool.false_eq_true,
          if_false]
      refine ⟨_, lid, heq, rfl, Or.inl rfl, ?_, ?_, ?_, rfl, le_refl _,
        Nat.le_succ _, hlt, ?_⟩
      · simp [hsyms, dlookup_dset]
      · intro lid2 hne
        simp [dlookup_dset_ne _ _ _ _ hne]
      · intro lid2 h2
        by_cases hne : lid2 = lid
        · exact Or.inr hne
        · simp only [dlookup_dset_ne _ _ _ _ hne] at h2
          exact Or.inl h2
      · simp [hsyms]
  | none =>
      have hfresh : dlookup ls.listHeap ls.ctr = none := by
        cases hh : dlookup ls.listHeap ls.ctr with
        | none => rfl
        | some v =>
            have := hheap ls.ctr (by simp [hh])
            omega
      have heq : add_x_to_sym_table key value x_table conflicts ls =
          some (dset x_table key ls.ctr, conflicts,
            { ls with listHeap := ls.listHeap ++ [(ls.ctr, [value])],
                      ctr := ls.ctr + 1 }) := by
        simp only [add_x_to_sym_table, hk]
      refine ⟨_, ls.ctr, heq, rfl, Or.inr ⟨rfl, rfl⟩, ?_, ?_, ?_, rfl,
        Nat.le_succ _, le_refl _, Nat.lt_succ_self _, ?_⟩
      · simp [hfresh, dlookup_append_fresh ls.listHeap ls.ctr _ hfresh]
      · intro lid2 hne
        simp [dlookup_append_old ls.listHeap ls.ctr lid2 _ hne]
      · intro lid2 h2
        by_cases hne : lid2 = ls.ctr
        · exact Or.inr hne
        · simp only [dlookup_append_old ls.listHeap ls.ctr lid2 _ hne] at h2
          exact Or.inl h2
      · simp [hfresh]

end PedalSpec

namespace PedalSpec

/-! ## C5: merge-to-new leaves the inputs unmodified -/

theorem add_x_preserve_lt (key : String) (value : AstSymbol)
    (x_table : List (String × Nat)) (conflicts : List String)
    (ls : LedgerState) (r : List (String × Nat) × List String × LedgerState)
    (c0 : Nat)
    (h : add_x_to_sym_table key value x_table conflicts ls = some r)
    (htbl : ∀ k lid, dlookup x_table k = some lid → c0 ≤ lid)
    (hc0 : c0 ≤ ls.ctr) :
    (∀ lid, lid < c0 → dlookup r.2.2.listHeap lid = dlookup ls.listHeap lid) ∧
    (∀ k lid, dlookup r.1 k = some lid → c0 ≤ lid) ∧
    c0 ≤ r.2.2.ctr ∧ ls.ctr ≤ r.2.2.ctr ∧ r.2.2.nodeHeap = ls.nodeHeap := by
  cases hk : dlookup x_table key with
  | some lid =>
      simp only [add_x_to_sym_table, hk] at h
      cases hl : dlookup ls.listHeap lid with
      | none =>
          simp only [hl] at h
          exact Option.noConfusion h
      | some cur =>
          simp only [hl, Option.some.injEq] at h
          subst h
          have hge : c0 ≤ lid := htbl key lid hk
          refine ⟨?_, ?_, hc0, le_refl _, rfl⟩
          · intro lid2 hlt
            exact dlookup_dset_ne _ _ _ _ (by omega)
          · intro k lid2 hk2
            by_cases hkk : k = key
            · subst hkk
              rw [dlookup_dset] at hk2
              cases hk2
              exact hge
            · rw [dlookup_dset_ne _ _ _ _ hkk] at hk2
              exact htbl k lid2 hk2
  | none =>
      simp only [add_x_to_sym_table, hk, Option.some.injEq] at h
      subst h
      refine ⟨?_, ?_, by exact le_trans hc0 (Nat.le_succ _),
        by exact Nat.le_succ _, rfl⟩
      · intro lid2 hlt
        exact dlookup_append_old _ _ _ _ (by omega)
      · intro k lid2 hk2
        by_cases hkk : k = key
        · subst hkk
          rw [dlookup_dset] at hk2
          cases hk2
          exact hc0
        · rw [dlookup_dset_ne _ _ _ _ hkk] at hk2
          exact htbl k lid2 hk2

theorem add_var_preserve_lt (ins : Sum String Nat) (std : Nat) (m : AstMap)
    (ls : LedgerState) (r : AstMap × LedgerState) (c0 : Nat)
    (h : add_var_to_sym_table ins std m ls = some r)
    (htbl : ∀ k lid, dlookup m.symbol_table k = some lid → c0 ≤ lid)
    (hc0 : c0 ≤ ls.ctr) :
    (∀ lid, lid < c0 → dlookup r.2.listHeap lid = dlookup ls.listHeap lid) ∧
    (∀ k lid, dlookup r.1.symbol_table k = some lid → c0 ≤ lid) ∧
    r.1.func_table = m.func_table ∧ r.1.class_table = m.class_table ∧
    c0 ≤ r.2.ctr ∧ ls.ctr ≤ r.2.ctr := by
  simp only [add_var_to_sym_table, Option.bind_eq_bind] at h
  cases hkey : resolve_var_key ins ls with
  | none =>
      simp only [hkey, Option.none_bind] at h
      exact Option.noConfusion h
  | some key =>
      simp only [hkey, Option.some_bind] at h
      cases hnd : dlookup ls.nodeHeap std with
      | none =>
          simp only [hnd, Option.none_bind] at h
          exact Option.noConfusion h
      | some nd =>
          simp only [hnd, Option.some_bind] at h
          cases hadd : add_x_to_sym_table key ⟨ls.ctr, nd.idStr, std⟩
              m.symbol_table m.conflict_keys { ls with ctr := ls.ctr + 1 } with
          | none =>
              simp only [hadd, Option.none_bind] at h
              exact Option.noConfusion h
          | some rx =>
              simp only [hadd, Option.some_bind, Option.pure_def, Option.some.injEq] at h
              subst h
              obtain ⟨hpres, htbl2, hctr0, hctr, -⟩ :=
                add_x_preserve_lt _ _ _ _ _ _ c0 hadd htbl
                  (le_trans hc0 (Nat.le_succ _))
              exact ⟨hpres, htbl2, rfl, rfl, hctr0,
                le_trans (Nat.le_succ _) hctr⟩

theorem add_func_preserve_lt (ins : Sum String Nat) (std : Nat) (m : AstMap)
    (ls : LedgerState) (r : AstMap × LedgerState) (c0 : Nat)
    (h : add_func_to_sym_table ins std m ls = some r)
    (htbl : ∀ k lid, dlookup m.func_table k = some lid → c0 ≤ lid)
    (hc0 : c0 ≤ ls.ctr) :
    (∀ lid, lid < c0 → dlookup r.2.listHeap lid = dlookup ls.listHeap lid) ∧
    (∀ k lid, dlookup r.1.func_table k = some lid → c0 ≤ lid) ∧
    r.1.symbol_table = m.symbol_table ∧ r.1.class_table = m.class_table ∧
    c0 ≤ r.2.ctr ∧ ls.ctr ≤ r.2.ctr := by
  simp only [add_func_to_sym_table, Option.bind_eq_bind] at h
  cases hkey : resolve_func_key ins ls with
  | none =>
      simp only [hkey, Option.none_bind] at h
      exact Option.noConfusion h
  | some key =>
      simp only [hkey, Option.some_bind] at h
      cases hnd : dlookup ls.nodeHeap std with
      | none =>
          simp only [hnd, Option.none_bind] at h
          exact Option.noConfusion h
      | some nd =>
          simp only [hnd, Option.some_bind] at h
          by_cases hfd : nd.typeName = "FunctionDef"
          · simp only [if_pos hfd] at h
            cases hadd : add_x_to_sym_table key ⟨ls.ctr, nd.defName, std⟩
                m.func_table m.conflict_keys { ls with ctr := ls.ctr + 1 } with
            | none =>
              simp only [hadd, Option.none_bind] at h
              exact Option.noConfusion h
            | some rx =>
                simp only [hadd, Option.some_bind, Option.pure_def, Option.some.injEq] at h
                subst h
                obtain ⟨hpres, htbl2, hctr0, hctr, -⟩ :=
                  add_x_preserve_lt _ _ _ _ _ _ c0 hadd htbl
                    (le_trans hc0 (Nat.le_succ _))
                exact ⟨hpres, htbl2, rfl, rfl, hctr0,
                  le_trans (Nat.le_succ _) hctr⟩
          · simp only [if_neg hfd] at h
            by_cases hcall : nd.typeName = "Call"
            · simp only [if_pos hcall] at h
              cases hadd : add_x_to_sym_table key ⟨ls.ctr, nd.idStr, std⟩
                  m.func_table m.conflict_keys
                  { ls with
                      nodeHeap := dset ls.nodeHeap std
                        { nd with idStr := nd.idStr },
                      ctr := ls.ctr + 1 } with
              | none =>
                  simp only [hadd, Option.none_bind] at h
                  exact Option.noConfusion h
              | some rx =>
                  simp only [hadd, Option.some_bind, Option.pure_def,
                    Option.some.injEq] at h
                  subst h
                  obtain ⟨hpres, htbl2, hctr0, hctr, -⟩ :=
                    add_x_preserve_lt _ _ _ _ _ _ c0 hadd htbl
                      (le_trans hc0 (Nat.le_succ _))
                  exact ⟨hpres, htbl2, rfl, rfl, hctr0,
                    le_trans (Nat.le_succ _) hctr⟩
            · simp only [if_neg hcall] at h
              cases hpar : nd.parent with
              | none =>
                  simp only [hpar, Option.none_bind] at h
                  exact Option.noConfusion h
              | some y =>
                  simp only [hpar, Option.some_bind] at h
                  cases hpn : dlookup ls.nodeHeap y with
                  | none =>
                      simp only [hpn, Option.none_bind] at h
                      exact Option.noConfusion h
                  | some pn =>
                      simp only [hpn, Option.some_bind] at h
                      cases hadd : add_x_to_sym_table key
                          ⟨ls.ctr, nd.idStr, y⟩
                          m.func_table m.conflict_keys
                          { ls with
                              nodeHeap := dset ls.nodeHeap y
                                { pn with idStr := nd.idStr },
                              ctr := ls.ctr + 1 } with
                      | none =>
                          simp only [hadd, Option.none_bind] at h
                          exact Option.noConfusion h
                      | some rx =>
                          simp only [hadd, Option.some_bind,
                            Option.pure_def, Option.some.injEq] at h
                          subst h
                          obtain ⟨hpres, htbl2, hctr0, hctr, -⟩ :=
                            add_x_preserve_lt _ _ _ _ _ _ c0 hadd htbl
                              (le_trans hc0 (Nat.le_succ _))
                          exact ⟨hpres, htbl2, rfl, rfl, hctr0,
                            le_trans (Nat.le_succ _) hctr⟩

theorem add_class_preserve_lt (ins : Sum String Nat) (std : Nat) (m : AstMap)
    (ls : LedgerState) (r : AstMap × LedgerState) (c0 : Nat)
    (h : add_class_to_sym_table ins std m ls = some r)
    (htbl : ∀ k lid, dlookup m.class_table k = some lid → c0 ≤ lid)
    (hc0 : c0 ≤ ls.ctr) :
    (∀ lid, lid < c0 → dlookup r.2.listHeap lid = dlookup ls.listHeap lid) ∧
    (∀ k lid, dlookup r.1.class_table k = some lid → c0 ≤ lid) ∧
    r.1.symbol_table = m.symbol_table ∧ r.1.func_table = m.func_table ∧
    c0 ≤ r.2.ctr ∧ ls.ctr ≤ r.2.ctr := by
  simp only [add_class_to_sym_table, Option.bind_eq_bind] at h
  cases hkey : resolve_class_key ins ls with
  | none =>
      simp only [hkey, Option.none_bind] at h
      exact Option.noConfusion h
  | some key =>
      simp only [hkey, Option.some_bind] at h
      cases hnd : dlookup ls.nodeHeap std with
      | none =>
          simp only [hnd, Option.none_bind] at h
          exact Option.noConfusion h
      | some nd =>
          simp only [hnd, Option.some_bind] at h
          by_cases hcd : nd.typeName = "ClassDef"
          · simp only [if_pos hcd] at h
            cases hadd : add_x_to_sym_table key ⟨ls.ctr, nd.defName, std⟩
                m.class_table m.conflict_keys { ls with ctr := ls.ctr + 1 } with
            | none =>
              simp only [hadd, Option.none_bind] at h
              exact Option.noConfusion h
            | some rx =>
                simp only [hadd, Option.some_bind, Option.pure_def, Option.some.injEq] at h
                subst h
                obtain ⟨hpres, htbl2, hctr0, hctr, -⟩ :=
                  add_x_preserve_lt _ _ _ _ _ _ c0 hadd htbl
                    (le_trans hc0 (Nat.le_succ _))
                exact ⟨hpres, htbl2, rfl, rfl, hctr0,
                  le_trans (Nat.le_succ _) hctr⟩
          · simp only [if_neg hcd] at h
            exact Option.noConfusion h

end PedalSpec

namespace PedalSpec

theorem merge_var_syms_preserve_lt (m : AstMap) (key : String)
    (syms : List AstSymbol) (ls : LedgerState) (r : AstMap × LedgerState)
    (c0 : Nat)
    (h : merge_var_syms m key syms ls = some r)
    (htbl : ∀ k lid, dlookup m.symbol_table k = some lid → c0 ≤ lid)
    (hc0 : c0 ≤ ls.ctr) :
    (∀ lid, lid < c0 → dlookup r.2.listHeap lid = dlookup ls.listHeap lid) ∧
    (∀ k lid, dlookup r.1.symbol_table k = some lid → c0 ≤ lid) ∧
    r.1.func_table = m.func_table ∧ r.1.class_table = m.class_table ∧
    c0 ≤ r.2.ctr ∧ ls.ctr ≤ r.2.ctr := by
  induction syms generalizing m ls with
  | nil =>
      simp only [merge_var_syms, Option.some.injEq] at h
      subst h
      exact ⟨fun _ _ => rfl, htbl, rfl, rfl, hc0, le_refl _⟩
  | cons s rest ih =>
      simp only [merge_var_syms, Option.bind_eq_bind] at h
      cases hadd : add_var_to_sym_table (.inl key) s.node m ls with
      | none =>
          simp only [hadd, Option.none_bind] at h
          exact Option.noConfusion h
      | some r1 =>
          simp only [hadd, Option.some_bind] at h
          obtain ⟨hp1, ht1, hf1, hc1, hg1, hm1⟩ :=
            add_var_preserve_lt _ _ _ _ _ c0 hadd htbl hc0
          obtain ⟨hp2, ht2, hf2, hc2, hg2, hm2⟩ := ih r1.1 r1.2 h ht1 hg1
          refine ⟨?_, ht2, hf2.trans hf1, hc2.trans hc1, hg2, hm1.trans hm2⟩
          intro lid hlt
          rw [hp2 lid hlt, hp1 lid hlt]

theorem merge_var_entries_preserve_lt (m : AstMap)
    (entries : List (String × Nat)) (ls : LedgerState) (r : AstMap × LedgerState)
    (c0 : Nat)
    (h : merge_var_entries m entries ls = some r)
    (htbl : ∀ k lid, dlookup m.symbol_table k = some lid → c0 ≤ lid)
    (hc0 : c0 ≤ ls.ctr) :
    (∀ lid, lid < c0 → dlookup r.2.listHeap lid = dlookup ls.listHeap lid) ∧
    (∀ k lid, dlookup r.1.symbol_table k = some lid → c0 ≤ lid) ∧
    r.1.func_table = m.func_table ∧ r.1.class_table = m.class_table ∧
    c0 ≤ r.2.ctr ∧ ls.ctr ≤ r.2.ctr := by
  induction entries generalizing m ls with
  | nil =>
      simp only [merge_var_entries, Option.some.injEq] at h
      subst h
      exact ⟨fun _ _ => rfl, htbl, rfl, rfl, hc0, le_refl _⟩
  | cons e rest ih =>
      obtain ⟨key, lid⟩ := e
      simp only [merge_var_entries, Option.bind_eq_bind] at h
      cases hsyms : dlookup ls.listHeap lid with
      | none =>
          simp only [hsyms, Option.none_bind] at h
          exact Option.noConfusion h
      | some syms =>
          simp only [hsyms, Option.some_bind] at h
          cases hloop : merge_var_syms m key syms ls with
          | none =>
              simp only [hloop, Option.none_bind] at h
              exact Option.noConfusion h
          | some r1 =>
              simp only [hloop, Option.some_bind] at h
              obtain ⟨hp1, ht1, hf1, hc1, hg1, hm1⟩ :=
                merge_var_syms_preserve_lt _ _ _ _ _ c0 hloop htbl hc0
              obtain ⟨hp2, ht2, hf2, hc2, hg2, hm2⟩ := ih r1.1 r1.2 h ht1 hg1
              refine ⟨?_, ht2, hf2.trans hf1, hc2.trans hc1, hg2, hm1.trans hm2⟩
              intro lid2 hlt
              rw [hp2 lid2 hlt, hp1 lid2 hlt]

theorem merge_func_syms_preserve_lt (m : AstMap) (key : String)
    (syms : List AstSymbol) (ls : LedgerState) (r : AstMap × LedgerState)
    (c0 : Nat)
    (h : merge_func_syms m key syms ls = some r)
    (htbl : ∀ k lid, dlookup m.func_table k = some lid → c0 ≤ lid)
    (hc0 : c0 ≤ ls.ctr) :
    (∀ lid, lid < c0 → dlookup r.2.listHeap lid = dlookup ls.listHeap lid) ∧
    (∀ k lid, dlookup r.1.func_table k = some lid → c0 ≤ lid) ∧
    r.1.symbol_table = m.symbol_table ∧ r.1.class_table = m.class_table ∧
    c0 ≤ r.2.ctr ∧ ls.ctr ≤ r.2.ctr := by
  induction syms generalizing m ls with
  | nil =>
      simp only [merge_func_syms, Option.some.injEq] at h
      subst h
      exact ⟨fun _ _ => rfl, htbl, rfl, rfl, hc0, le_refl _⟩
  | cons s rest ih =>
      simp only [merge_func_syms, Option.bind_eq_bind] at h
      cases hadd : add_func_to_sym_table (.inl key) s.node m ls with
      | none =>
          simp only [hadd, Option.none_bind] at h
          exact Option.noConfusion h
      | some r1 =>
          simp only [hadd, Option.some_bind] at h
          obtain ⟨hp1, ht1, hf1, hc1, hg1, hm1⟩ :=
            add_func_preserve_lt _ _ _ _ _ c0 hadd htbl hc0
          obtain ⟨hp2, ht2, hf2, hc2, hg2, hm2⟩ := ih r1.1 r1.2 h ht1 hg1
          refine ⟨?_, ht2, hf2.trans hf1, hc2.trans hc1, hg2, hm1.trans hm2⟩
          intro lid hlt
          rw [hp2 lid hlt, hp1 lid hlt]

theorem merge_func_entries_preserve_lt (m : AstMap)
    (entries : List (String × Nat)) (ls : LedgerState) (r : AstMap × LedgerState)
    (c0 : Nat)
    (h : merge_func_entries m entries ls = some r)
    (htbl : ∀ k lid, dlookup m.func_table k = some lid → c0 ≤ lid)
    (hc0 : c0 ≤ ls.ctr) :
    (∀ lid, lid < c0 → dlookup r.2.listHeap lid = dlookup ls.listHeap lid) ∧
    (∀ k lid, dlookup r.1.func_table k = some lid → c0 ≤ lid) ∧
    r.1.symbol_table = m.symbol_table ∧ r.1.class_table = m.class_table ∧
    c0 ≤ r.2.ctr ∧ ls.ctr ≤ r.2.ctr := by
  induction entries generalizing m ls with
  | nil =>
      simp only [merge_func_entries, Option.some.injEq] at h
      subst h
      exact ⟨fun _ _ => rfl, htbl, rfl, rfl, hc0, le_refl _⟩
  | cons e rest ih =>
      obtain ⟨key, lid⟩ := e
      simp only [merge_func_entries, Option.bind_eq_bind] at h
      cases hsyms : dlookup ls.listHeap lid with
      | none =>
          simp only [hsyms, Option.none_bind] at h
          exact Option.noConfusion h
      | some syms =>
          simp only [hsyms, Option.some_bind] at h
          cases hloop : merge_func_syms m key syms ls with
          | none =>
              simp only [hloop, Option.none_bind] at h
              exact Option.noConfusion h
          | some r1 =>
              simp only [hloop, Option.some_bind] at h
              obtain ⟨hp1, ht1, hf1, hc1, hg1, hm1⟩ :=
                merge_func_syms_preserve_lt _ _ _ _ _ c0 hloop htbl hc0
              obtain ⟨hp2, ht2, hf2, hc2, hg2, hm2⟩ := ih r1.1 r1.2 h ht1 hg1
              refine ⟨?_, ht2, hf2.trans hf1, hc2.trans hc1, hg2, hm1.trans hm2⟩
              intro lid2 hlt
              rw [hp2 lid2 hlt, hp1 lid2 hlt]

theorem merge_class_syms_preserve_lt (m : AstMap) (key : String)
    (syms : List AstSymbol) (ls : LedgerState) (r : AstMap × LedgerState)
    (c0 : Nat)
    (h : merge_class_syms m key syms ls = some r)
    (htbl : ∀ k lid, dlookup m.class_table k = some lid → c0 ≤ lid)
    (hc0 : c0 ≤ ls.ctr) :
    (∀ lid, lid < c0 → dlookup r.2.listHeap lid = dlookup ls.listHeap lid) ∧
    (∀ k lid, dlookup r.1.class_table k = some lid → c0 ≤ lid) ∧
    r.1.symbol_table = m.symbol_table ∧ r.1.func_table = m.func_table ∧
    c0 ≤ r.2.ctr ∧ ls.ctr ≤ r.2.ctr := by
  induction syms generalizing m ls with
  | nil =>
      simp only [merge_class_syms, Option.some.injEq] at h
      subst h
      exact ⟨fun _ _ => rfl, htbl, rfl, rfl, hc0, le_refl _⟩
  | cons s rest ih =>
      simp only [merge_class_syms, Option.bind_eq_bind] at h
      cases hadd : add_class_to_sym_table (.inl key) s.node m ls with
      | none =>
          simp only [hadd, Option.none_bind] at h
          exact Option.noConfusion h
      | some r1 =>
          simp only [hadd, Option.some_bind] at h
          obtain ⟨hp1, ht1, hf1, hc1, hg1, hm1⟩ :=
            add_class_preserve_lt _ _ _ _ _ c0 hadd htbl hc0
          obtain ⟨hp2, ht2, hf2, hc2, hg2, hm2⟩ := ih r1.1 r1.2 h ht1 hg1
          refine ⟨?_, ht2, hf2.trans hf1, hc2.trans hc1, hg2, hm1.trans hm2⟩
          intro lid hlt
          rw [hp2 lid hlt, hp1 lid hlt]

theorem merge_class_entries_preserve_lt (m : AstMap)
    (entries : List (String × Nat)) (ls : LedgerState) (r : AstMap × LedgerState)
    (c0 : Nat)
    (h : merge_class_entries m entries ls = some r)
    (htbl : ∀ k lid, dlookup m.class_table k = some lid → c0 ≤ lid)
    (hc0 : c0 ≤ ls.ctr) :
    (∀ lid, lid < c0 → dlookup r.2.listHeap lid = dlookup ls.listHeap lid) ∧
    (∀ k lid, dlookup r.1.class_table k = some lid → c0 ≤ lid) ∧
    r.1.symbol_table = m.symbol_table ∧ r.1.func_table = m.func_table ∧
    c0 ≤ r.2.ctr ∧ ls.ctr ≤ r.2.ctr := by
  induction entries generalizing m ls with
  | nil =>
      simp only [merge_class_entries, Option.some.injEq] at h
      subst h
      exact ⟨fun _ _ => rfl, htbl, rfl, rfl, hc0, le_refl _⟩
  | cons e rest ih =>
      obtain ⟨key, lid⟩ := e
      simp only [merge_class_entries, Option.bind_eq_bind] at h
      cases hsyms : dlookup ls.listHeap lid with
      | none =>
          simp only [hsyms, Option.none_bind] at h
          exact Option.noConfusion h
      | some syms =>
          simp only [hsyms, Option.some_bind] at h
          cases hloop : merge_class_syms m key syms ls with
          | none =>
              simp only [hloop, Option.none_bind] at h
              exact Option.noConfusion h
          | some r1 =>
              simp only [hloop, Option.some_bind] at h
              obtain ⟨hp1, ht1, hf1, hc1, hg1, hm1⟩ :=
                merge_class_syms_preserve_lt _ _ _ _ _ c0 hloop htbl hc0
              obtain ⟨hp2, ht2, hf2, hc2, hg2, hm2⟩ := ih r1.1 r1.2 h ht1 hg1
              refine ⟨?_, ht2, hf2.trans hf1, hc2.trans hc1, hg2, hm1.trans hm2⟩
              intro lid2 hlt
              rw [hp2 lid2 hlt, hp1 lid2 hlt]

theorem merge_map_with_preserve_lt (m other : AstMap) (ls : LedgerState)
    (r : AstMap × LedgerState) (c0 : Nat)
    (h : merge_map_with m other ls = some r)
    (hs : ∀ k lid, dlookup m.symbol_table k = some lid → c0 ≤ lid)
    (hf : ∀ k lid, dlookup m.func_table k = some lid → c0 ≤ lid)
    (hc : ∀ k lid, dlookup m.class_table k = some lid → c0 ≤ lid)
    (hc0 : c0 ≤ ls.ctr) :
    (∀ lid, lid < c0 → dlookup r.2.listHeap lid = dlookup ls.listHeap lid) ∧
    (∀ k lid, dlookup r.1.symbol_table k = some lid → c0 ≤ lid) ∧
    (∀ k lid, dlookup r.1.func_table k = some lid → c0 ≤ lid) ∧
    (∀ k lid, dlookup r.1.class_table k = some lid → c0 ≤ lid) ∧
    c0 ≤ r.2.ctr ∧ ls.ctr ≤ r.2.ctr := by
  simp only [merge_map_with, Option.bind_eq_bind] at h
  cases h1 : merge_var_entries
      { m with mappings := dict_update m.mappings other.mappings,
               exp_table := dict_update m.exp_table other.exp_table }
      other.symbol_table ls with
  | none =>
      simp only [h1, Option.none_bind] at h
      exact Option.noConfusion h
  | some r1 =>
      simp only [h1, Option.some_bind] at h
      cases h2 : merge_func_entries r1.1 other.func_table r1.2 with
      | none =>
          simp only [h2, Option.none_bind] at h
          exact Option.noConfusion h
      | some r2 =>
          simp only [h2, Option.some_bind] at h
          cases h3 : merge_class_entries r2.1 other.class_table r2.2 with
          | none =>
              simp only [h3, Option.none_bind] at h
              exact Option.noConfusion h
          | some r3 =>
              simp only [h3, Option.some_bind, Option.pure_def,
                Option.some.injEq] at h
              subst h
              obtain ⟨hp1, ht1, hf1, hcl1, hg1, hm1⟩ :=
                merge_var_entries_preserve_lt _ _ _ _ c0 h1 hs hc0
              obtain ⟨hp2, ht2, hs2, hcl2, hg2, hm2⟩ :=
                merge_func_entries_preserve_lt _ _ _ _ c0 h2
                  (by rw [hf1]; exact hf) hg1
              obtain ⟨hp3, ht3, hs3, hf3, hg3, hm3⟩ :=
                merge_class_entries_preserve_lt _ _ _ _ c0 h3
                  (by rw [hcl2, hcl1]; exact hc) hg2
              refine ⟨?_, ?_, ?_, ht3, hg3, le_trans hm1 (le_trans hm2 hm3)⟩
              · intro lid hlt
                rw [hp3 lid hlt, hp2 lid hlt, hp1 lid hlt]
              · intro k lid hk
                rw [hs3, hs2] at hk
                exact ht1 k lid hk
              · intro k lid hk
                rw [hf3] at hk
                exact ht2 k lid hk

/-- Claim C5 theorem: a merge into a new map never writes any list object
that existed when it started, so the AstSymbolList contents of both input
ledgers (whose list ids all predate the allocation counter) are untouched;
the raw-node, expression, variable, function and class tables and the
conflict list of the inputs are immutable record fields here, which the
merge never rebinds. -/
theorem new_merged_map_preserves_inputs (a b : AstMap) (ls : LedgerState)
    (r : AstMap × LedgerState)
    (h : new_merged_map a b ls = some r) :
    ∀ lid, lid < ls.ctr → dlookup r.2.listHeap lid = dlookup ls.listHeap lid := by
  simp only [new_merged_map, Option.bind_eq_bind] at h
  cases h1 : merge_map_with AstMap.empty a ls with
  | none =>
      simp only [h1, Option.none_bind] at h
      exact Option.noConfusion h
  | some r1 =>
      simp only [h1, Option.some_bind] at h
      cases h2 : merge_map_with r1.1 b r1.2 with
      | none =>
          simp only [h2, Option.none_bind] at h
          exact Option.noConfusion h
      | some r2 =>
          simp only [h2, Option.some_bind, Option.pure_def,
            Option.some.injEq] at h
          subst h
          have hempty : ∀ k lid,
              dlookup (AstMap.empty).symbol_table k = some lid → ls.ctr ≤ lid := by
            intro k lid hk
            simp [AstMap.empty, dlookup] at hk
          obtain ⟨hp1, ht1, htf1, htc1, hg1, hm1⟩ :=
            merge_map_with_preserve_lt _ _ _ _ ls.ctr h1 hempty
              (by intro k lid hk; simp [AstMap.empty, dlookup] at hk)
              (by intro k lid hk; simp [AstMap.empty, dlookup] at hk)
              (le_refl _)
          obtain ⟨hp2, ht2, htf2, htc2, hg2, hm2⟩ :=
            merge_map_with_preserve_lt _ _ _ _ ls.ctr h2 ht1 htf1 htc1 hg1
          intro lid hlt
          rw [hp2 lid hlt, hp1 lid hlt]

/-- Claim C5 witness: two one-variable ledgers (list objects 100 and 101)
merged into a new map; both list objects keep their contents. -/
theorem new_merged_map_preserves_inputs_check :
    ∃ r, new_merged_map
        ⟨[], [], [("p", 100)], [], [], []⟩
        ⟨[], [], [("p", 101)], [], [], []⟩
        ⟨[(0, ⟨"Name", "x", "", none⟩), (1, ⟨"Name", "y", "", none⟩)],
         [(100, [⟨50, "x", 0⟩]), (101, [⟨51, "y", 1⟩])], 200⟩ = some r ∧
      ∀ lid, lid < 200 →
        dlookup r.2.listHeap lid =
          dlookup [(100, [⟨50, "x", 0⟩]), (101, [⟨51, "y", 1⟩])] lid :=
  ⟨(⟨[], [], [("p", 201)], [], [], ["p"]⟩,
    ⟨[(0, ⟨"Name", "x", "", none⟩), (1, ⟨"Name", "y", "", none⟩)],
     [(100, [⟨50, "x", 0⟩]), (101, [⟨51, "y", 1⟩]),
      (201, [⟨200, "x", 0⟩, ⟨202, "y", 1⟩])], 203⟩),
   rfl, new_merged_map_preserves_inputs
     ⟨[], [], [("p", 100)], [], [], []⟩
     ⟨[], [], [("p", 101)], [], [], []⟩
     ⟨[(0, ⟨"Name", "x", "", none⟩), (1, ⟨"Name", "y", "", none⟩)],
      [(100, [⟨50, "x", 0⟩]), (101, [⟨51, "y", 1⟩])], 200⟩ _ rfl⟩

end PedalSpec

namespace PedalSpec

theorem twoDiffer_eq_false_iff (l : List String) :
    twoDiffer l = false ↔ ∀ a ∈ l, ∀ b ∈ l, a = b := by
  rw [← Bool.not_eq_true, twoDiffer_iff]
  push_neg
  rfl

theorem twoDiffer_mono_right (l l2 : List String) (h : twoDiffer l = true) :
    twoDiffer (l ++ l2) = true := by
  rw [twoDiffer_iff] at h ⊢
  obtain ⟨a, ha, b, hb, hab⟩ := h
  exact ⟨a, List.mem_append_left _ ha, b, List.mem_append_left _ hb, hab⟩

theorem twoDiffer_swap (l1 l2 : List String) :
    twoDiffer (l1 ++ l2) = true ↔ twoDiffer (l2 ++ l1) = true := by
  rw [twoDiffer_iff, twoDiffer_iff]
  constructor <;>
    · rintro ⟨a, ha, b, hb, hab⟩
      exact ⟨a, List.mem_append.2 (List.mem_append.1 ha).symm,
             b, List.mem_append.2 (List.mem_append.1 hb).symm, hab⟩

theorem twoDiffer_nil : twoDiffer [] = false := rfl

theorem twoDiffer_single (v : String) : twoDiffer [v] = false := by
  simp [twoDiffer]

theorem add_x_existing_spec (key : String) (value : AstSymbol)
    (tbl : List (String × Nat)) (conflicts : List String) (ls : LedgerState)
    (lid : Nat) (cur : List AstSymbol)
    (hk : dlookup tbl key = some lid)
    (hcur : dlookup ls.listHeap lid = some cur)
    (hsid : ∀ s ∈ cur, s.sid ≠ value.sid) :
    add_x_to_sym_table key value tbl conflicts ls =
      some (tbl,
            (if conflicts.contains key then conflicts
             else if (cur ++ [value]).any (fun o => value.id != o.id)
             then conflicts ++ [key] else conflicts),
            { ls with listHeap := dset ls.listHeap lid (cur ++ [value]) }) := by
  have hded : cur.any (fun o => o.sid == value.sid) = false := by
    rw [List.any_eq_false]
    intro s hs
    simpa using hsid s hs
  simp only [add_x_to_sym_table, hk, hcur, hded, Bool.false_eq_true, if_false,
    dset_self tbl key lid hk]

theorem add_x_fresh_spec (key : String) (value : AstSymbol)
    (tbl : List (String × Nat)) (conflicts : List String) (ls : LedgerState)
    (hk : dlookup tbl key = none) :
    add_x_to_sym_table key value tbl conflicts ls =
      some (dset tbl key ls.ctr, conflicts,
            { ls with listHeap := ls.listHeap ++ [(ls.ctr, [value])],
                      ctr := ls.ctr + 1 }) := by
  simp only [add_x_to_sym_table, hk]

theorem mem_conflicts_after (conflicts : List String) (key k : String)
    (cur : List AstSymbol) (value : AstSymbol)
    (hchar : key ∉ conflicts → twoDiffer (cur.map AstSymbol.id) = false) :
    (k ∈ (if conflicts.contains key then conflicts
          else if (cur ++ [value]).any (fun o => value.id != o.id)
          then conflicts ++ [key] else conflicts)) ↔
      (k ∈ conflicts ∨
        (k = key ∧ twoDiffer (cur.map AstSymbol.id ++ [value.id]) = true)) := by
  by_cases hc : key ∈ conflicts
  · have hcc : conflicts.contains key = true := (contains_iff conflicts key).2 hc
    rw [if_pos hcc]
    constructor
    · exact Or.inl
    · rintro (h | ⟨rfl, _⟩)
      · exact h
      · exact hc
  · have hcc : ¬ (conflicts.contains key = true) := by
      rw [contains_iff]
      exact hc
    have hflat := twoDiffer_eq_false_iff _ |>.1 (hchar hc)
    rw [if_neg hcc]
    have hscan : ((cur ++ [value]).any (fun o => value.id != o.id) = true)
        ↔ twoDiffer (cur.map AstSymbol.id ++ [value.id]) = true := by
      rw [twoDiffer_iff, List.any_eq_true]
      constructor
      · rintro ⟨o, ho, hne⟩
        rw [bne_iff_ne] at hne
        rcases List.mem_append.1 ho with ho2 | ho2
        · refine ⟨value.id, ?_, o.id, ?_, hne⟩
          · exact List.mem_append_right _ (List.mem_singleton.2 rfl)
          · exact List.mem_append_left _ (List.mem_map.2 ⟨o, ho2, rfl⟩)
        · rw [List.mem_singleton] at ho2
          subst ho2
          exact absurd rfl hne
      · rintro ⟨a, ha, b, hb, hab⟩
        rcases List.mem_append.1 ha with ha2 | ha2
        · obtain ⟨oa, hoa, rfl⟩ := List.mem_map.1 ha2
          rcases List.mem_append.1 hb with hb2 | hb2
          · obtain ⟨ob, hob, rfl⟩ := List.mem_map.1 hb2
            exact absurd (hflat _ (List.mem_map.2 ⟨oa, hoa, rfl⟩)
              _ (List.mem_map.2 ⟨ob, hob, rfl⟩)) hab
          · rw [List.mem_singleton] at hb2
            subst hb2
            refine ⟨oa, List.mem_append_left _ hoa, ?_⟩
            rw [bne_iff_ne]
            exact fun he => hab he.symm
        · rw [List.mem_singleton] at ha2
          subst ha2
          rcases List.mem_append.1 hb with hb2 | hb2
          · obtain ⟨ob, hob, rfl⟩ := List.mem_map.1 hb2
            refine ⟨ob, List.mem_append_left _ hob, ?_⟩
            rw [bne_iff_ne]
            exact hab
          · rw [List.mem_singleton] at hb2
            exact absurd hb2.symm hab
    by_cases hs : (cur ++ [value]).any (fun o => value.id != o.id) = true
    · rw [if_pos hs]
      rw [List.mem_append, List.mem_singleton]
      constructor
      · rintro (h | rfl)
        · exact Or.inl h
        · exact Or.inr ⟨rfl, hscan.1 hs⟩
      · rintro (h | ⟨rfl, _⟩)
        · exact Or.inl h
        · exact Or.inr rfl
    · rw [if_neg hs]
      constructor
      · exact Or.inl
      · rintro (h | ⟨rfl, htd⟩)
        · exact h
        · exact absurd (hscan.2 htd) hs

end PedalSpec

namespace PedalSpec

theorem tableOf_setTable_same (m : AstMap) (t : Fin 3) (tbl : List (String × Nat)) :
    tableOf (setTable m t tbl) t = tbl := by
  fin_cases t <;> rfl

theorem tableOf_setTable_ne (m : AstMap) (t t2 : Fin 3) (tbl : List (String × Nat))
    (hne : t2 ≠ t) : tableOf (setTable m t tbl) t2 = tableOf m t2 := by
  fin_cases t <;> fin_cases t2 <;> first | rfl | exact absurd rfl hne

theorem setTable_conflicts (m : AstMap) (t : Fin 3) (tbl : List (String × Nat)) :
    (setTable m t tbl).conflict_keys = m.conflict_keys := by
  fin_cases t <;> rfl

theorem tableOf_conflicts_update (m : AstMap) (c : List String) (t : Fin 3) :
    tableOf { m with conflict_keys := c } t = tableOf m t := by
  fin_cases t <;> rfl

theorem tableOf_mapexp_update (m : AstMap) (x : List (Nat × Nat)) (y : List (String × Nat)) (t : Fin 3) :
    tableOf { m with mappings := x, exp_table := y } t = tableOf m t := by
  fin_cases t <;> rfl

theorem mem_keys_of_dlookup {κ α : Type} [DecidableEq κ] (l : List (κ × α))
    (k : κ) (v : α) (h : dlookup l k = some v) : k ∈ l.map Prod.fst := by
  induction l with
  | nil => simp [dlookup] at h
  | cons p rest ih =>
      obtain ⟨k0, v0⟩ := p
      by_cases hk : k0 = k
      · subst hk
        simp
      · simp only [dlookup, hk, if_false] at h
        simpa using Or.inr (ih h)

theorem dlookup_none_of_not_mem_keys {κ α : Type} [DecidableEq κ]
    (l : List (κ × α)) (k : κ) (h : k ∉ l.map Prod.fst) : dlookup l k = none := by
  cases hd : dlookup l k with
  | none => rfl
  | some v => exact absurd (mem_keys_of_dlookup l k v hd) h

theorem dlookup_of_mem_nodup {κ α : Type} [DecidableEq κ] (l : List (κ × α))
    (p : κ × α) (hmem : p ∈ l) (hnd : (l.map Prod.fst).Nodup) :
    dlookup l p.1 = some p.2 := by
  induction l with
  | nil => simp at hmem
  | cons q rest ih =>
      obtain ⟨k0, v0⟩ := q
      simp only [List.map_cons, List.nodup_cons] at hnd
      rcases List.mem_cons.1 hmem with rfl | hmem2
      · simp [dlookup]
      · have hk : k0 ≠ p.1 := by
          intro he
          exact hnd.1 (he ▸ List.mem_map.2 ⟨p, hmem2, rfl⟩)
        simp only [dlookup, hk, if_false]
        exact ih hmem2 hnd.2

end PedalSpec

namespace PedalSpec

theorem merge_step_existing (ls0 : LedgerState) (m : AstMap) (ls : LedgerState)
    (t : Fin 3) (key idv : String) (nodev lid : Nat) (cur : List AstSymbol)
    (hinv : MergeInv ls0 m ls)
    (hk : dlookup (tableOf m t) key = some lid)
    (hcur : dlookup ls.listHeap lid = some cur) :
    MergeInv ls0
      { m with conflict_keys :=
          if m.conflict_keys.contains key then m.conflict_keys
          else if (cur ++ [(⟨ls.ctr, idv, nodev⟩ : AstSymbol)]).any
                (fun o => idv != o.id)
          then m.conflict_keys ++ [key] else m.conflict_keys }
      ⟨ls.nodeHeap, dset ls.listHeap lid (cur ++ [⟨ls.ctr, idv, nodev⟩]),
       ls.ctr + 1⟩ ∧
    idsAt ⟨ls.nodeHeap, dset ls.listHeap lid (cur ++ [⟨ls.ctr, idv, nodev⟩]),
        ls.ctr + 1⟩ (tableOf m t) key = idsAt ls (tableOf m t) key ++ [idv] ∧
    ∀ t2 k2, ¬ (t2 = t ∧ k2 = key) →
      idsAt ⟨ls.nodeHeap, dset ls.listHeap lid (cur ++ [⟨ls.ctr, idv, nodev⟩]),
        ls.ctr + 1⟩ (tableOf m t2) k2 = idsAt ls (tableOf m t2) k2 := by
  obtain ⟨hctr, hnode, hpres, hdom, hsid, hTL, hinj, hchar⟩ := hinv
  obtain ⟨hge, hlt, hlive⟩ := hTL t key lid hk
  have hidsold : idsAt ls (tableOf m t) key = cur.map AstSymbol.id := by
    simp [idsAt, hk, hcur]
  have hidsnew : idsAt ⟨ls.nodeHeap,
      dset ls.listHeap lid (cur ++ [⟨ls.ctr, idv, nodev⟩]), ls.ctr + 1⟩
      (tableOf m t) key = cur.map AstSymbol.id ++ [idv] := by
    simp [idsAt, hk, dlookup_dset]
  have hother : ∀ t2 k2, ¬ (t2 = t ∧ k2 = key) →
      idsAt ⟨ls.nodeHeap, dset ls.listHeap lid (cur ++ [⟨ls.ctr, idv, nodev⟩]),
        ls.ctr + 1⟩ (tableOf m t2) k2 = idsAt ls (tableOf m t2) k2 := by
    intro t2 k2 hne
    cases hk2 : dlookup (tableOf m t2) k2 with
    | none => simp [idsAt, hk2]
    | some lid2 =>
        have hll : lid2 ≠ lid := by
          intro he
          subst he
          exact hne (hinj t2 k2 t key lid2 hk2 hk)
        simp [idsAt, hk2, dlookup_dset_ne _ _ _ _ hll]
  refine ⟨⟨le_trans hctr (Nat.le_succ _), hnode, ?_, ?_, ?_, ?_, ?_, ?_⟩,
    by rw [hidsnew, hidsold], hother⟩
  · intro lid2 h2
    have hne : lid2 ≠ lid := by omega
    show dlookup (dset ls.listHeap lid (cur ++ [⟨ls.ctr, idv, nodev⟩])) lid2 =
      dlookup ls0.listHeap lid2
    rw [dlookup_dset_ne _ _ _ _ hne]
    exact hpres lid2 h2
  · intro lid2 syms h2
    show lid2 < ls.ctr + 1
    by_cases he : lid2 = lid
    · omega
    · rw [show (⟨ls.nodeHeap, dset ls.listHeap lid
          (cur ++ [⟨ls.ctr, idv, nodev⟩]), ls.ctr + 1⟩ : LedgerState).listHeap =
          dset ls.listHeap lid (cur ++ [⟨ls.ctr, idv, nodev⟩]) from rfl,
        dlookup_dset_ne _ _ _ _ he] at h2
      exact Nat.lt_succ_of_lt (hdom lid2 syms h2)
  · intro lid2 syms h2 s hs
    show s.sid < ls.ctr + 1
    by_cases he : lid2 = lid
    · subst he
      rw [show (⟨ls.nodeHeap, dset ls.listHeap lid2
          (cur ++ [⟨ls.ctr, idv, nodev⟩]), ls.ctr + 1⟩ : LedgerState).listHeap =
          dset ls.listHeap lid2 (cur ++ [⟨ls.ctr, idv, nodev⟩]) from rfl,
        dlookup_dset] at h2
      cases h2
      rcases List.mem_append.1 hs with hs2 | hs2
      · exact Nat.lt_succ_of_lt (hsid lid2 cur hcur s hs2)
      · rw [List.mem_singleton] at hs2
        subst hs2
        exact Nat.lt_succ_self _
    · rw [show (⟨ls.nodeHeap, dset ls.listHeap lid
          (cur ++ [⟨ls.ctr, idv, nodev⟩]), ls.ctr + 1⟩ : LedgerState).listHeap =
          dset ls.listHeap lid (cur ++ [⟨ls.ctr, idv, nodev⟩]) from rfl,
        dlookup_dset_ne _ _ _ _ he] at h2
      exact Nat.lt_succ_of_lt (hsid lid2 syms h2 s hs)
  · intro t2
    rw [tableOf_conflicts_update]
    intro k2 lid2 h2
    obtain ⟨hge2, hlt2, hlive2⟩ := hTL t2 k2 lid2 h2
    refine ⟨hge2, Nat.lt_succ_of_lt hlt2, ?_⟩
    show (dlookup (dset ls.listHeap lid (cur ++ [⟨ls.ctr, idv, nodev⟩])) lid2).isSome
    by_cases he : lid2 = lid
    · subst he
      rw [dlookup_dset]
      rfl
    · rw [dlookup_dset_ne _ _ _ _ he]
      exact hlive2
  · intro t1 k1 t2 k2 lid2 h1 h2
    rw [tableOf_conflicts_update] at h1 h2
    exact hinj t1 k1 t2 k2 lid2 h1 h2
  · intro k
    have hc : key ∉ m.conflict_keys →
        twoDiffer (cur.map AstSymbol.id) = false := by
      intro hkc
      have hnex := (hchar key).not.1 hkc
      rw [← hidsold, ← Bool.not_eq_true]
      intro hcontra
      exact hnex ⟨t, hcontra⟩
    have hmm := mem_conflicts_after m.conflict_keys key k cur
      ⟨ls.ctr, idv, nodev⟩ hc
    show k ∈ (if m.conflict_keys.contains key then m.conflict_keys
          else if (cur ++ [(⟨ls.ctr, idv, nodev⟩ : AstSymbol)]).any
                (fun o => idv != o.id)
          then m.conflict_keys ++ [key] else m.conflict_keys) ↔ _
    rw [hmm]
    constructor
    · rintro (hin | ⟨rfl, htd⟩)
      · obtain ⟨t2, htd2⟩ := (hchar k).1 hin
        by_cases hkk : k = key
        · subst hkk
          by_cases ht2 : t2 = t
          · subst ht2
            refine ⟨t2, ?_⟩
            rw [tableOf_conflicts_update, hidsnew]
            rw [hidsold] at htd2
            exact twoDiffer_mono_right _ _ htd2
          · refine ⟨t2, ?_⟩
            rw [tableOf_conflicts_update,
              hother t2 k (fun hpair => ht2 hpair.1)]
            exact htd2
        · by_cases hpair : t2 = t ∧ k = key
          · exact absurd hpair.2 hkk
          · refine ⟨t2, ?_⟩
            rw [tableOf_conflicts_update, hother t2 k hpair]
            exact htd2
      · refine ⟨t, ?_⟩
        rw [tableOf_conflicts_update, hidsnew]
        exact htd
    · rintro ⟨t2, htd2⟩
      rw [tableOf_conflicts_update] at htd2
      by_cases hkk : k = key
      · subst hkk
        by_cases ht2 : t2 = t
        · subst ht2
          rw [hidsnew] at htd2
          exact Or.inr ⟨rfl, htd2⟩
        · rw [hother t2 k (fun hpair => ht2 hpair.1)] at htd2
          exact Or.inl ((hchar k).2 ⟨t2, htd2⟩)
      · by_cases hpair : t2 = t ∧ k = key
        · exact absurd hpair.2 hkk
        · rw [hother t2 k hpair] at htd2
          exact Or.inl ((hchar k).2 ⟨t2, htd2⟩)

end PedalSpec

namespace PedalSpec

theorem merge_step_fresh (ls0 : LedgerState) (m : AstMap) (ls : LedgerState)
    (t : Fin 3) (key idv : String) (nodev : Nat)
    (hinv : MergeInv ls0 m ls)
    (hk : dlookup (tableOf m t) key = none) :
    MergeInv ls0 (setTable m t (dset (tableOf m t) key (ls.ctr + 1)))
      ⟨ls.nodeHeap, ls.listHeap ++ [(ls.ctr + 1, [⟨ls.ctr, idv, nodev⟩])],
       ls.ctr + 2⟩ ∧
    idsAt ⟨ls.nodeHeap, ls.listHeap ++ [(ls.ctr + 1, [⟨ls.ctr, idv, nodev⟩])],
        ls.ctr + 2⟩ (tableOf (setTable m t (dset (tableOf m t) key (ls.ctr + 1))) t)
        key = idsAt ls (tableOf m t) key ++ [idv] ∧
    ∀ t2 k2, ¬ (t2 = t ∧ k2 = key) →
      idsAt ⟨ls.nodeHeap, ls.listHeap ++ [(ls.ctr + 1, [⟨ls.ctr, idv, nodev⟩])],
        ls.ctr + 2⟩ (tableOf (setTable m t (dset (tableOf m t) key (ls.ctr + 1))) t2)
        k2 = idsAt ls (tableOf m t2) k2 := by
  obtain ⟨hctr, hnode, hpres, hdom, hsid, hTL, hinj, hchar⟩ := hinv
  have hfreshheap : dlookup ls.listHeap (ls.ctr + 1) = none := by
    cases hd : dlookup ls.listHeap (ls.ctr + 1) with
    | none => rfl
    | some syms => exact absurd (hdom _ _ hd) (by omega)
  have hcases : ∀ t2 k2 lid2,
      dlookup (tableOf (setTable m t (dset (tableOf m t) key (ls.ctr + 1))) t2)
        k2 = some lid2 →
      (t2 = t ∧ k2 = key ∧ lid2 = ls.ctr + 1) ∨
      (dlookup (tableOf m t2) k2 = some lid2 ∧ lid2 < ls.ctr) := by
    intro t2 k2 lid2 h2
    by_cases ht2 : t2 = t
    · subst ht2
      rw [tableOf_setTable_same] at h2
      by_cases hk2 : k2 = key
      · subst hk2
        rw [dlookup_dset] at h2
        cases h2
        exact Or.inl ⟨rfl, rfl, rfl⟩
      · rw [dlookup_dset_ne _ _ _ _ hk2] at h2
        exact Or.inr ⟨h2, (hTL t2 k2 lid2 h2).2.1⟩
    · rw [tableOf_setTable_ne _ _ _ _ ht2] at h2
      exact Or.inr ⟨h2, (hTL t2 k2 lid2 h2).2.1⟩
  have hidsold : idsAt ls (tableOf m t) key = [] := by
    simp [idsAt, hk]
  have hidsnew : idsAt ⟨ls.nodeHeap,
      ls.listHeap ++ [(ls.ctr + 1, [⟨ls.ctr, idv, nodev⟩])], ls.ctr + 2⟩
      (tableOf (setTable m t (dset (tableOf m t) key (ls.ctr + 1))) t) key
      = [idv] := by
    rw [tableOf_setTable_same]
    simp [idsAt, dlookup_dset, dlookup_append_fresh _ _ _ hfreshheap]
  have hother : ∀ t2 k2, ¬ (t2 = t ∧ k2 = key) →
      idsAt ⟨ls.nodeHeap, ls.listHeap ++ [(ls.ctr + 1, [⟨ls.ctr, idv, nodev⟩])],
        ls.ctr + 2⟩ (tableOf (setTable m t (dset (tableOf m t) key (ls.ctr + 1))) t2)
        k2 = idsAt ls (tableOf m t2) k2 := by
    intro t2 k2 hne
    have htbl2 : dlookup (tableOf (setTable m t
        (dset (tableOf m t) key (ls.ctr + 1))) t2) k2 =
        dlookup (tableOf m t2) k2 := by
      by_cases ht2 : t2 = t
      · subst ht2
        rw [tableOf_setTable_same]
        have hk2 : k2 ≠ key := fun he => hne ⟨rfl, he⟩
        exact dlookup_dset_ne _ _ _ _ hk2
      · rw [tableOf_setTable_ne _ _ _ _ ht2]
    cases hk2 : dlookup (tableOf m t2) k2 with
    | none => simp [idsAt, htbl2, hk2]
    | some lid2 =>
        have hlt2 : lid2 < ls.ctr := (hTL t2 k2 lid2 hk2).2.1
        have hne2 : lid2 ≠ ls.ctr + 1 := by omega
        simp [idsAt, htbl2, hk2, dlookup_append_old _ _ _ _ hne2]
  refine ⟨⟨by show ls0.ctr ≤ ls.ctr + 2; omega, hnode, ?_, ?_, ?_, ?_, ?_, ?_⟩,
    by rw [hidsnew, hidsold, List.nil_append], hother⟩
  · intro lid2 h2
    have hne2 : lid2 ≠ ls.ctr + 1 := by omega
    show dlookup (ls.listHeap ++ [(ls.ctr + 1, [⟨ls.ctr, idv, nodev⟩])]) lid2 =
      dlookup ls0.listHeap lid2
    rw [dlookup_append_old _ _ _ _ hne2]
    exact hpres lid2 h2
  · intro lid2 syms h2
    show lid2 < ls.ctr + 2
    by_cases he : lid2 = ls.ctr + 1
    · omega
    · rw [show (⟨ls.nodeHeap, ls.listHeap ++ [(ls.ctr + 1,
          [⟨ls.ctr, idv, nodev⟩])], ls.ctr + 2⟩ : LedgerState).listHeap =
          ls.listHeap ++ [(ls.ctr + 1, [⟨ls.ctr, idv, nodev⟩])] from rfl,
        dlookup_append_old _ _ _ _ he] at h2
      have := hdom lid2 syms h2
      omega
  · intro lid2 syms h2 s hs
    show s.sid < ls.ctr + 2
    by_cases he : lid2 = ls.ctr + 1
    · subst he
      rw [show (⟨ls.nodeHeap, ls.listHeap ++ [(ls.ctr + 1,
          [⟨ls.ctr, idv, nodev⟩])], ls.ctr + 2⟩ : LedgerState).listHeap =
          ls.listHeap ++ [(ls.ctr + 1, [⟨ls.ctr, idv, nodev⟩])] from rfl,
        dlookup_append_fresh _ _ _ hfreshheap] at h2
      cases h2
      rw [List.mem_singleton] at hs
      subst hs
      exact Nat.lt_succ_of_lt (Nat.lt_succ_self _)
    · rw [show (⟨ls.nodeHeap, ls.listHeap ++ [(ls.ctr + 1,
          [⟨ls.ctr, idv, nodev⟩])], ls.ctr + 2⟩ : LedgerState).listHeap =
          ls.listHeap ++ [(ls.ctr + 1, [⟨ls.ctr, idv, nodev⟩])] from rfl,
        dlookup_append_old _ _ _ _ he] at h2
      have := hsid lid2 syms h2 s hs
      omega
  · intro t2 k2 lid2 h2
    rcases hcases t2 k2 lid2 h2 with ⟨_, _, rfl⟩ | ⟨hold, hlt2⟩
    · refine ⟨by omega, by show ls.ctr + 1 < ls.ctr + 2; omega, ?_⟩
      show (dlookup (ls.listHeap ++ [(ls.ctr + 1, [⟨ls.ctr, idv, nodev⟩])])
        (ls.ctr + 1)).isSome
      rw [dlookup_append_fresh _ _ _ hfreshheap]
      rfl
    · obtain ⟨hge2, _, hlive2⟩ := hTL t2 k2 lid2 hold
      refine ⟨hge2, by show lid2 < ls.ctr + 2; omega, ?_⟩
      show (dlookup (ls.listHeap ++ [(ls.ctr + 1, [⟨ls.ctr, idv, nodev⟩])])
        lid2).isSome
      rw [dlookup_append_old _ _ _ _ (by omega : lid2 ≠ ls.ctr + 1)]
      exact hlive2
  · intro t1 k1 t2 k2 lid2 h1 h2
    rcases hcases t1 k1 lid2 h1 with ⟨rfl, rfl, rfl⟩ | ⟨hold1, hlt1⟩
    · rcases hcases t2 k2 _ h2 with ⟨rfl, rfl, _⟩ | ⟨_, hlt2⟩
      · exact ⟨rfl, rfl⟩
      · omega
    · rcases hcases t2 k2 _ h2 with ⟨_, _, rfl⟩ | ⟨hold2, _⟩
      · omega
      · exact hinj t1 k1 t2 k2 lid2 hold1 hold2
  · intro k
    rw [show (setTable m t (dset (tableOf m t) key (ls.ctr + 1))).conflict_keys =
      m.conflict_keys from setTable_conflicts m t _]
    rw [hchar k]
    constructor
    · rintro ⟨t2, htd2⟩
      by_cases hpair : t2 = t ∧ k = key
      · obtain ⟨rfl, rfl⟩ := hpair
        rw [hidsold] at htd2
        exact absurd htd2 (by rw [twoDiffer_nil]; exact Bool.false_ne_true)
      · refine ⟨t2, ?_⟩
        rw [hother t2 k hpair]
        exact htd2
    · rintro ⟨t2, htd2⟩
      by_cases hpair : t2 = t ∧ k = key
      · obtain ⟨rfl, rfl⟩ := hpair
        rw [hidsnew] at htd2
        exact absurd htd2 (by rw [twoDiffer_single]; exact Bool.false_ne_true)
      · rw [hother t2 k hpair] at htd2
        exact ⟨t2, htd2⟩

end PedalSpec

namespace PedalSpec

theorem add_var_merge (ls0 : LedgerState) (key : String) (std : Nat)
    (m : AstMap) (ls : LedgerState) (r : AstMap × LedgerState)
    (h : add_var_to_sym_table (.inl key) std m ls = some r)
    (hinv : MergeInv ls0 m ls) :
    ∃ v, derive_var_id ls0 std = some v ∧
      MergeInv ls0 r.1 r.2 ∧
      idsAt r.2 (tableOf r.1 0) key = idsAt ls (tableOf m 0) key ++ [v] ∧
      ∀ t2 k2, ¬ (t2 = 0 ∧ k2 = key) →
        idsAt r.2 (tableOf r.1 t2) k2 = idsAt ls (tableOf m t2) k2 := by
  obtain ⟨hctr, hnode, hpres, hdom, hsid, hTL, hinj, hchar⟩ := hinv
  simp only [add_var_to_sym_table, resolve_var_key, Option.bind_eq_bind,
    Option.some_bind] at h
  cases hnd : dlookup ls.nodeHeap std with
  | none =>
      simp only [hnd, Option.none_bind] at h
      exact Option.noConfusion h
  | some nd =>
      simp only [hnd, Option.some_bind] at h
      have hnd0 : dlookup ls0.nodeHeap std = some nd := by
        rw [← hnode]; exact hnd
      refine ⟨nd.idStr, by simp [derive_var_id, hnd0], ?_⟩
      cases hk : dlookup m.symbol_table key with
      | some lid =>
          have hk0 : dlookup (tableOf m 0) key = some lid := hk
          obtain ⟨hge, hlt, hlive⟩ := hTL 0 key lid hk0
          obtain ⟨cur, hcur⟩ := Option.isSome_iff_exists.mp hlive
          have hsidne : ∀ s ∈ cur, s.sid ≠
              (⟨ls.ctr, nd.idStr, std⟩ : AstSymbol).sid :=
            fun s hs he => Nat.lt_irrefl _ (he ▸ hsid lid cur hcur s hs)
          have happ := add_x_existing_spec key ⟨ls.ctr, nd.idStr, std⟩
            m.symbol_table m.conflict_keys { ls with ctr := ls.ctr + 1 }
            lid cur hk hcur hsidne
          rw [happ] at h
          simp only [Option.some_bind, Option.pure_def, Option.some.injEq] at h
          subst h
          obtain ⟨hinv2, hids, hoth⟩ := merge_step_existing ls0 m ls 0 key
            nd.idStr std lid cur ⟨hctr, hnode, hpres, hdom, hsid, hTL, hinj, hchar⟩
            hk0 hcur
          exact ⟨hinv2, hids, hoth⟩
      | none =>
          have hk0 : dlookup (tableOf m 0) key = none := hk
          have happ := add_x_fresh_spec key ⟨ls.ctr, nd.idStr, std⟩
            m.symbol_table m.conflict_keys { ls with ctr := ls.ctr + 1 } hk
          rw [happ] at h
          simp only [Option.some_bind, Option.pure_def, Option.some.injEq] at h
          subst h
          obtain ⟨hinv2, hids, hoth⟩ := merge_step_fresh ls0 m ls 0 key
            nd.idStr std ⟨hctr, hnode, hpres, hdom, hsid, hTL, hinj, hchar⟩ hk0
          exact ⟨hinv2, hids, hoth⟩

end PedalSpec

namespace PedalSpec

theorem add_class_merge (ls0 : LedgerState) (key : String) (std : Nat)
    (m : AstMap) (ls : LedgerState) (r : AstMap × LedgerState)
    (h : add_class_to_sym_table (.inl key) std m ls = some r)
    (hinv : MergeInv ls0 m ls) :
    ∃ v, derive_class_id ls0 std = some v ∧
      MergeInv ls0 r.1 r.2 ∧
      idsAt r.2 (tableOf r.1 2) key = idsAt ls (tableOf m 2) key ++ [v] ∧
      ∀ t2 k2, ¬ (t2 = 2 ∧ k2 = key) →
        idsAt r.2 (tableOf r.1 t2) k2 = idsAt ls (tableOf m t2) k2 := by
  obtain ⟨hctr, hnode, hpres, hdom, hsid, hTL, hinj, hchar⟩ := hinv
  simp only [add_class_to_sym_table, resolve_class_key, Option.bind_eq_bind,
    Option.some_bind] at h
  cases hnd : dlookup ls.nodeHeap std with
  | none =>
      simp only [hnd, Option.none_bind] at h
      exact Option.noConfusion h
  | some nd =>
      simp only [hnd, Option.some_bind] at h
      have hnd0 : dlookup ls0.nodeHeap std = some nd := by
        rw [← hnode]; exact hnd
      by_cases hcd : nd.typeName = "ClassDef"
      · simp only [hcd, if_true, if_pos] at h
        refine ⟨nd.defName, by simp [derive_class_id, hnd0, hcd], ?_⟩
        cases hk : dlookup m.class_table key with
        | some lid =>
            have hk2 : dlookup (tableOf m 2) key = some lid := hk
            obtain ⟨hge, hlt, hlive⟩ := hTL 2 key lid hk2
            obtain ⟨cur, hcur⟩ := Option.isSome_iff_exists.mp hlive
            have hsidne : ∀ s ∈ cur, s.sid ≠
                (⟨ls.ctr, nd.defName, std⟩ : AstSymbol).sid :=
              fun s hs he => Nat.lt_irrefl _ (he ▸ hsid lid cur hcur s hs)
            have happ := add_x_existing_spec key ⟨ls.ctr, nd.defName, std⟩
              m.class_table m.conflict_keys { ls with ctr := ls.ctr + 1 }
              lid cur hk hcur hsidne
            rw [happ] at h
            simp only [Option.some_bind, Option.pure_def, Option.some.injEq] at h
            subst h
            obtain ⟨hinv2, hids, hoth⟩ := merge_step_existing ls0 m ls 2 key
              nd.defName std lid cur
              ⟨hctr, hnode, hpres, hdom, hsid, hTL, hinj, hchar⟩ hk2 hcur
            exact ⟨hinv2, hids, hoth⟩
        | none =>
            have hk2 : dlookup (tableOf m 2) key = none := hk
            have happ := add_x_fresh_spec key ⟨ls.ctr, nd.defName, std⟩
              m.class_table m.conflict_keys { ls with ctr := ls.ctr + 1 } hk
            rw [happ] at h
            simp only [Option.some_bind, Option.pure_def, Option.some.injEq] at h
            subst h
            obtain ⟨hinv2, hids, hoth⟩ := merge_step_fresh ls0 m ls 2 key
              nd.defName std ⟨hctr, hnode, hpres, hdom, hsid, hTL, hinj, hchar⟩ hk2
            exact ⟨hinv2, hids, hoth⟩
      · simp only [hcd, if_false] at h
        exact Option.noConfusion h

end PedalSpec

namespace PedalSpec

theorem add_func_merge (ls0 : LedgerState) (key : String) (std : Nat)
    (m : AstMap) (ls : LedgerState) (r : AstMap × LedgerState)
    (h : add_func_to_sym_table (.inl key) std m ls = some r)
    (hinv : MergeInv ls0 m ls)
    (hder : (derive_func_id ls0 std).isSome) :
    ∃ v, derive_func_id ls0 std = some v ∧
      MergeInv ls0 r.1 r.2 ∧
      idsAt r.2 (tableOf r.1 1) key = idsAt ls (tableOf m 1) key ++ [v] ∧
      ∀ t2 k2, ¬ (t2 = 1 ∧ k2 = key) →
        idsAt r.2 (tableOf r.1 t2) k2 = idsAt ls (tableOf m t2) k2 := by
  obtain ⟨hctr, hnode, hpres, hdom, hsid, hTL, hinj, hchar⟩ := hinv
  simp only [add_func_to_sym_table, resolve_func_key, Option.bind_eq_bind,
    Option.some_bind] at h
  cases hnd : dlookup ls.nodeHeap std with
  | none =>
      simp only [hnd, Option.none_bind] at h
      exact Option.noConfusion h
  | some nd =>
      simp only [hnd, Option.some_bind] at h
      have hnd0 : dlookup ls0.nodeHeap std = some nd := by
        rw [← hnode]; exact hnd
      by_cases hfd : nd.typeName = "FunctionDef"
      · simp only [if_pos hfd] at h
        refine ⟨nd.defName, by simp [derive_func_id, hnd0, hfd], ?_⟩
        cases hk : dlookup m.func_table key with
        | some lid =>
            have hk1 : dlookup (tableOf m 1) key = some lid := hk
            obtain ⟨hge, hlt, hlive⟩ := hTL 1 key lid hk1
            obtain ⟨cur, hcur⟩ := Option.isSome_iff_exists.mp hlive
            have hsidne : ∀ s ∈ cur, s.sid ≠
                (⟨ls.ctr, nd.defName, std⟩ : AstSymbol).sid :=
              fun s hs he => Nat.lt_irrefl _ (he ▸ hsid lid cur hcur s hs)
            have happ := add_x_existing_spec key ⟨ls.ctr, nd.defName, std⟩
              m.func_table m.conflict_keys { ls with ctr := ls.ctr + 1 }
              lid cur hk hcur hsidne
            rw [happ] at h
            simp only [Option.some_bind, Option.pure_def, Option.some.injEq] at h
            subst h
            obtain ⟨hinv2, hids, hoth⟩ := merge_step_existing ls0 m ls 1 key
              nd.defName std lid cur
              ⟨hctr, hnode, hpres, hdom, hsid, hTL, hinj, hchar⟩ hk1 hcur
            exact ⟨hinv2, hids, hoth⟩
        | none =>
            have hk1 : dlookup (tableOf m 1) key = none := hk
            have happ := add_x_fresh_spec key ⟨ls.ctr, nd.defName, std⟩
              m.func_table m.conflict_keys { ls with ctr := ls.ctr + 1 } hk
            rw [happ] at h
            simp only [Option.some_bind, Option.pure_def, Option.some.injEq] at h
            subst h
            obtain ⟨hinv2, hids, hoth⟩ := merge_step_fresh ls0 m ls 1 key
              nd.defName std ⟨hctr, hnode, hpres, hdom, hsid, hTL, hinj, hchar⟩ hk1
            exact ⟨hinv2, hids, hoth⟩
      · simp only [if_neg hfd] at h
        by_cases hcall : nd.typeName = "Call"
        · simp only [if_pos hcall] at h
          rw [show ({ nd with idStr := nd.idStr } : CaitNode) = nd from rfl,
            dset_self ls.nodeHeap std nd hnd] at h
          rw [show ({ ls with nodeHeap := ls.nodeHeap, ctr := ls.ctr + 1 } :
            LedgerState) = { ls with ctr := ls.ctr + 1 } from rfl] at h
          refine ⟨nd.idStr, by simp [derive_func_id, hnd0, hfd, hcall], ?_⟩
          cases hk : dlookup m.func_table key with
          | some lid =>
              have hk1 : dlookup (tableOf m 1) key = some lid := hk
              obtain ⟨hge, hlt, hlive⟩ := hTL 1 key lid hk1
              obtain ⟨cur, hcur⟩ := Option.isSome_iff_exists.mp hlive
              have hsidne : ∀ s ∈ cur, s.sid ≠
                  (⟨ls.ctr, nd.idStr, std⟩ : AstSymbol).sid :=
                fun s hs he => Nat.lt_irrefl _ (he ▸ hsid lid cur hcur s hs)
              have happ := add_x_existing_spec key ⟨ls.ctr, nd.idStr, std⟩
                m.func_table m.conflict_keys { ls with ctr := ls.ctr + 1 }
                lid cur hk hcur hsidne
              rw [happ] at h
              simp only [Option.some_bind, Option.pure_def, Option.some.injEq] at h
              subst h
              obtain ⟨hinv2, hids, hoth⟩ := merge_step_existing ls0 m ls 1 key
                nd.idStr std lid cur
                ⟨hctr, hnode, hpres, hdom, hsid, hTL, hinj, hchar⟩ hk1 hcur
              exact ⟨hinv2, hids, hoth⟩
          | none =>
              have hk1 : dlookup (tableOf m 1) key = none := hk
              have happ := add_x_fresh_spec key ⟨ls.ctr, nd.idStr, std⟩
                m.func_table m.conflict_keys { ls with ctr := ls.ctr + 1 } hk
              rw [happ] at h
              simp only [Option.some_bind, Option.pure_def, Option.some.injEq] at h
              subst h
              obtain ⟨hinv2, hids, hoth⟩ := merge_step_fresh ls0 m ls 1 key
                nd.idStr std
                ⟨hctr, hnode, hpres, hdom, hsid, hTL, hinj, hchar⟩ hk1
              exact ⟨hinv2, hids, hoth⟩
        · exfalso
          simp [derive_func_id, hnd0, hfd, hcall] at hder

end PedalSpec

namespace PedalSpec

theorem merge_var_syms_merge (ls0 : LedgerState) (m : AstMap) (key : String)
    (syms : List AstSymbol) (ls : LedgerState) (r : AstMap × LedgerState)
    (h : merge_var_syms m key syms ls = some r)
    (hinv : MergeInv ls0 m ls) :
    MergeInv ls0 r.1 r.2 ∧
    idsAt r.2 (tableOf r.1 0) key = idsAt ls (tableOf m 0) key ++
      syms.filterMap (fun s => derive_var_id ls0 s.node) ∧
    ∀ t2 k2, ¬ (t2 = 0 ∧ k2 = key) →
      idsAt r.2 (tableOf r.1 t2) k2 = idsAt ls (tableOf m t2) k2 := by
  induction syms generalizing m ls with
  | nil =>
      simp only [merge_var_syms, Option.some.injEq] at h
      subst h
      exact ⟨hinv, by simp, fun _ _ _ => rfl⟩
  | cons s rest ih =>
      simp only [merge_var_syms, Option.bind_eq_bind] at h
      cases hadd : add_var_to_sym_table (.inl key) s.node m ls with
      | none =>
          simp only [hadd, Option.none_bind] at h
          exact Option.noConfusion h
      | some r1 =>
          simp only [hadd, Option.some_bind] at h
          obtain ⟨v, hv, hinv1, hids1, hoth1⟩ :=
            add_var_merge ls0 key s.node m ls r1 hadd hinv
          obtain ⟨hinv2, hids2, hoth2⟩ := ih r1.1 r1.2 h hinv1
          refine ⟨hinv2, ?_, ?_⟩
          · rw [hids2, hids1, List.filterMap_cons, hv, List.append_assoc]
            rfl
          · intro t2 k2 hne
            rw [hoth2 t2 k2 hne, hoth1 t2 k2 hne]

theorem merge_func_syms_merge (ls0 : LedgerState) (m : AstMap) (key : String)
    (syms : List AstSymbol) (ls : LedgerState) (r : AstMap × LedgerState)
    (h : merge_func_syms m key syms ls = some r)
    (hinv : MergeInv ls0 m ls)
    (hders : ∀ s ∈ syms, (derive_func_id ls0 s.node).isSome) :
    MergeInv ls0 r.1 r.2 ∧
    idsAt r.2 (tableOf r.1 1) key = idsAt ls (tableOf m 1) key ++
      syms.filterMap (fun s => derive_func_id ls0 s.node) ∧
    ∀ t2 k2, ¬ (t2 = 1 ∧ k2 = key) →
      idsAt r.2 (tableOf r.1 t2) k2 = idsAt ls (tableOf m t2) k2 := by
  induction syms generalizing m ls with
  | nil =>
      simp only [merge_func_syms, Option.some.injEq] at h
      subst h
      exact ⟨hinv, by simp, fun _ _ _ => rfl⟩
  | cons s rest ih =>
      simp only [merge_func_syms, Option.bind_eq_bind] at h
      cases hadd : add_func_to_sym_table (.inl key) s.node m ls with
      | none =>
          simp only [hadd, Option.none_bind] at h
          exact Option.noConfusion h
      | some r1 =>
          simp only [hadd, Option.some_bind] at h
          obtain ⟨v, hv, hinv1, hids1, hoth1⟩ :=
            add_func_merge ls0 key s.node m ls r1 hadd hinv
              (hders s (List.mem_cons_self _ _))
          obtain ⟨hinv2, hids2, hoth2⟩ := ih r1.1 r1.2 h hinv1
            (fun s2 hs2 => hders s2 (List.mem_cons_of_mem _ hs2))
          refine ⟨hinv2, ?_, ?_⟩
          · rw [hids2, hids1, List.filterMap_cons, hv, List.append_assoc]
            rfl
          · intro t2 k2 hne
            rw [hoth2 t2 k2 hne, hoth1 t2 k2 hne]

theorem merge_class_syms_merge (ls0 : LedgerState) (m : AstMap) (key : String)
    (syms : List AstSymbol) (ls : LedgerState) (r : AstMap × LedgerState)
    (h : merge_class_syms m key syms ls = some r)
    (hinv : MergeInv ls0 m ls) :
    MergeInv ls0 r.1 r.2 ∧
    idsAt r.2 (tableOf r.1 2) key = idsAt ls (tableOf m 2) key ++
      syms.filterMap (fun s => derive_class_id ls0 s.node) ∧
    ∀ t2 k2, ¬ (t2 = 2 ∧ k2 = key) →
      idsAt r.2 (tableOf r.1 t2) k2 = idsAt ls (tableOf m t2) k2 := by
  induction syms generalizing m ls with
  | nil =>
      simp only [merge_class_syms, Option.some.injEq] at h
      subst h
      exact ⟨hinv, by simp, fun _ _ _ => rfl⟩
  | cons s rest ih =>
      simp only [merge_class_syms, Option.bind_eq_bind] at h
      cases hadd : add_class_to_sym_table (.inl key) s.node m ls with
      | none =>
          simp only [hadd, Option.none_bind] at h
          exact Option.noConfusion h
      | some r1 =>
          simp only [hadd, Option.some_bind] at h
          obtain ⟨v, hv, hinv1, hids1, hoth1⟩ :=
            add_class_merge ls0 key s.node m ls r1 hadd hinv
          obtain ⟨hinv2, hids2, hoth2⟩ := ih r1.1 r1.2 h hinv1
          refine ⟨hinv2, ?_, ?_⟩
          · rw [hids2, hids1, List.filterMap_cons, hv, List.append_assoc]
            rfl
          · intro t2 k2 hne
            rw [hoth2 t2 k2 hne, hoth1 t2 k2 hne]

end PedalSpec

namespace PedalSpec

theorem merge_var_entries_merge (ls0 : LedgerState) (m : AstMap)
    (entries : List (String × Nat)) (ls : LedgerState) (r : AstMap × LedgerState)
    (h : merge_var_entries m entries ls = some r)
    (hinv : MergeInv ls0 m ls)
    (hkeys : (entries.map Prod.fst).Nodup)
    (hent : ∀ p ∈ entries, p.2 < ls0.ctr) :
    MergeInv ls0 r.1 r.2 ∧
    (∀ k, idsAt r.2 (tableOf r.1 0) k = idsAt ls (tableOf m 0) k ++
      derived_ids (derive_var_id ls0) ls0 entries k) ∧
    ∀ t2 k2, t2 ≠ 0 →
      idsAt r.2 (tableOf r.1 t2) k2 = idsAt ls (tableOf m t2) k2 := by
  induction entries generalizing m ls with
  | nil =>
      simp only [merge_var_entries, Option.some.injEq] at h
      subst h
      exact ⟨hinv, fun k => by simp [derived_ids, dlookup], fun _ _ _ => rfl⟩
  | cons e rest ih =>
      obtain ⟨key, lid⟩ := e
      simp only [merge_var_entries, Option.bind_eq_bind] at h
      cases hsy : dlookup ls.listHeap lid with
      | none =>
          simp only [hsy, Option.none_bind] at h
          exact Option.noConfusion h
      | some syms =>
          simp only [hsy, Option.some_bind] at h
          have hsy0 : dlookup ls0.listHeap lid = some syms := by
            rw [← hinv.2.2.1 lid (hent (key, lid)
              (List.mem_cons_self _ _))]
            exact hsy
          cases hloop : merge_var_syms m key syms ls with
          | none =>
              simp only [hloop, Option.none_bind] at h
              exact Option.noConfusion h
          | some r1 =>
              simp only [hloop, Option.some_bind] at h
              obtain ⟨hinv1, hids1, hoth1⟩ :=
                merge_var_syms_merge ls0 m key syms ls r1 hloop hinv
              simp only [List.map_cons, List.nodup_cons] at hkeys
              obtain ⟨hinv2, hids2, hoth2⟩ := ih r1.1 r1.2 h hinv1 hkeys.2
                (fun p hp => hent p (List.mem_cons_of_mem _ hp))
              refine ⟨hinv2, ?_, ?_⟩
              · intro k
                by_cases hkk : k = key
                · subst hkk
                  have hnone : dlookup rest k = none :=
                    dlookup_none_of_not_mem_keys rest k hkeys.1
                  have hdr : derived_ids (derive_var_id ls0) ls0 rest k = [] := by
                    simp [derived_ids, hnone]
                  have hdc : derived_ids (derive_var_id ls0) ls0 ((k, lid) :: rest) k
                      = List.filterMap (fun s => derive_var_id ls0 s.node) syms := by
                    simp [derived_ids, dlookup, hsy0]
                  rw [hids2 k, hids1, hdr, List.append_nil, hdc]
                · have hne : ¬ ((0 : Fin 3) = 0 ∧ k = key) :=
                    fun hpair => hkk hpair.2
                  have hkk2 : ¬ key = k := fun he => hkk he.symm
                  have hdc2 : derived_ids (derive_var_id ls0) ls0 ((key, lid) :: rest) k
                      = derived_ids (derive_var_id ls0) ls0 rest k := by
                    simp [derived_ids, dlookup, hkk2]
                  rw [hids2 k, hoth1 0 k hne, hdc2]
              · intro t2 k2 ht2
                rw [hoth2 t2 k2 ht2,
                  hoth1 t2 k2 (fun hpair => ht2 hpair.1)]

end PedalSpec

namespace PedalSpec

theorem merge_func_entries_merge (ls0 : LedgerState) (m : AstMap)
    (entries : List (String × Nat)) (ls : LedgerState) (r : AstMap × LedgerState)
    (h : merge_func_entries m entries ls = some r)
    (hinv : MergeInv ls0 m ls)
    (hkeys : (entries.map Prod.fst).Nodup)
    (hent : ∀ p ∈ entries, p.2 < ls0.ctr ∧
      ∀ syms, dlookup ls0.listHeap p.2 = some syms →
        ∀ s ∈ syms, (derive_func_id ls0 s.node).isSome) :
    MergeInv ls0 r.1 r.2 ∧
    (∀ k, idsAt r.2 (tableOf r.1 1) k = idsAt ls (tableOf m 1) k ++
      derived_ids (derive_func_id ls0) ls0 entries k) ∧
    ∀ t2 k2, t2 ≠ 1 →
      idsAt r.2 (tableOf r.1 t2) k2 = idsAt ls (tableOf m t2) k2 := by
  induction entries generalizing m ls with
  | nil =>
      simp only [merge_func_entries, Option.some.injEq] at h
      subst h
      exact ⟨hinv, fun k => by simp [derived_ids, dlookup], fun _ _ _ => rfl⟩
  | cons e rest ih =>
      obtain ⟨key, lid⟩ := e
      simp only [merge_func_entries, Option.bind_eq_bind] at h
      cases hsy : dlookup ls.listHeap lid with
      | none =>
          simp only [hsy, Option.none_bind] at h
          exact Option.noConfusion h
      | some syms =>
          simp only [hsy, Option.some_bind] at h
          obtain ⟨hlid, hderall⟩ := hent (key, lid) (List.mem_cons_self _ _)
          have hsy0 : dlookup ls0.listHeap lid = some syms := by
            rw [← hinv.2.2.1 lid hlid]
            exact hsy
          cases hloop : merge_func_syms m key syms ls with
          | none =>
              simp only [hloop, Option.none_bind] at h
              exact Option.noConfusion h
          | some r1 =>
              simp only [hloop, Option.some_bind] at h
              obtain ⟨hinv1, hids1, hoth1⟩ :=
                merge_func_syms_merge ls0 m key syms ls r1 hloop hinv
                  (hderall syms hsy0)
              simp only [List.map_cons, List.nodup_cons] at hkeys
              obtain ⟨hinv2, hids2, hoth2⟩ := ih r1.1 r1.2 h hinv1 hkeys.2
                (fun p hp => hent p (List.mem_cons_of_mem _ hp))
              refine ⟨hinv2, ?_, ?_⟩
              · intro k
                by_cases hkk : k = key
                · subst hkk
                  have hnone : dlookup rest k = none :=
                    dlookup_none_of_not_mem_keys rest k hkeys.1
                  have hdr : derived_ids (derive_func_id ls0) ls0 rest k = [] := by
                    simp [derived_ids, hnone]
                  have hdc : derived_ids (derive_func_id ls0) ls0 ((k, lid) :: rest) k
                      = List.filterMap (fun s => derive_func_id ls0 s.node) syms := by
                    simp [derived_ids, dlookup, hsy0]
                  rw [hids2 k, hids1, hdr, List.append_nil, hdc]
                · have hne : ¬ ((1 : Fin 3) = 1 ∧ k = key) :=
                    fun hpair => hkk hpair.2
                  have hkk2 : ¬ key = k := fun he => hkk he.symm
                  have hdc2 : derived_ids (derive_func_id ls0) ls0 ((key, lid) :: rest) k
                      = derived_ids (derive_func_id ls0) ls0 rest k := by
                    simp [derived_ids, dlookup, hkk2]
                  rw [hids2 k, hoth1 1 k hne, hdc2]
              · intro t2 k2 ht2
                rw [hoth2 t2 k2 ht2,
                  hoth1 t2 k2 (fun hpair => ht2 hpair.1)]

theorem merge_class_entries_merge (ls0 : LedgerState) (m : AstMap)
    (entries : List (String × Nat)) (ls : LedgerState) (r : AstMap × LedgerState)
    (h : merge_class_entries m entries ls = some r)
    (hinv : MergeInv ls0 m ls)
    (hkeys : (entries.map Prod.fst).Nodup)
    (hent : ∀ p ∈ entries, p.2 < ls0.ctr) :
    MergeInv ls0 r.1 r.2 ∧
    (∀ k, idsAt r.2 (tableOf r.1 2) k = idsAt ls (tableOf m 2) k ++
      derived_ids (derive_class_id ls0) ls0 entries k) ∧
    ∀ t2 k2, t2 ≠ 2 →
      idsAt r.2 (tableOf r.1 t2) k2 = idsAt ls (tableOf m t2) k2 := by
  induction entries generalizing m ls with
  | nil =>
      simp only [merge_class_entries, Option.some.injEq] at h
      subst h
      exact ⟨hinv, fun k => by simp [derived_ids, dlookup], fun _ _ _ => rfl⟩
  | cons e rest ih =>
      obtain ⟨key, lid⟩ := e
      simp only [merge_class_entries, Option.bind_eq_bind] at h
      cases hsy : dlookup ls.listHeap lid with
      | none =>
          simp only [hsy, Option.none_bind] at h
          exact Option.noConfusion h
      | some syms =>
          simp only [hsy, Option.some_bind] at h
          have hsy0 : dlookup ls0.listHeap lid = some syms := by
            rw [← hinv.2.2.1 lid (hent (key, lid) (List.mem_cons_self _ _))]
            exact hsy
          cases hloop : merge_class_syms m key syms ls with
          | none =>
              simp only [hloop, Option.none_bind] at h
              exact Option.noConfusion h
          | some r1 =>
              simp only [hloop, Option.some_bind] at h
              obtain ⟨hinv1, hids1, hoth1⟩ :=
                merge_class_syms_merge ls0 m key syms ls r1 hloop hinv
              simp only [List.map_cons, List.nodup_cons] at hkeys
              obtain ⟨hinv2, hids2, hoth2⟩ := ih r1.1 r1.2 h hinv1 hkeys.2
                (fun p hp => hent p (List.mem_cons_of_mem _ hp))
              refine ⟨hinv2, ?_, ?_⟩
              · intro k
                by_cases hkk : k = key
                · subst hkk
                  have hnone : dlookup rest k = none :=
                    dlookup_none_of_not_mem_keys rest k hkeys.1
                  have hdr : derived_ids (derive_class_id ls0) ls0 rest k = [] := by
                    simp [derived_ids, hnone]
                  have hdc : derived_ids (derive_class_id ls0) ls0 ((k, lid) :: rest) k
                      = List.filterMap (fun s => derive_class_id ls0 s.node) syms := by
                    simp [derived_ids, dlookup, hsy0]
                  rw [hids2 k, hids1, hdr, List.append_nil, hdc]
                · have hne : ¬ ((2 : Fin 3) = 2 ∧ k = key) :=
                    fun hpair => hkk hpair.2
                  have hkk2 : ¬ key = k := fun he => hkk he.symm
                  have hdc2 : derived_ids (derive_class_id ls0) ls0 ((key, lid) :: rest) k
                      = derived_ids (derive_class_id ls0) ls0 rest k := by
                    simp [derived_ids, dlookup, hkk2]
                  rw [hids2 k, hoth1 2 k hne, hdc2]
              · intro t2 k2 ht2
                rw [hoth2 t2 k2 ht2,
                  hoth1 t2 k2 (fun hpair => ht2 hpair.1)]

end PedalSpec

namespace PedalSpec

theorem MergeInv_mapexp (ls0 : LedgerState) (m : AstMap) (ls : LedgerState)
    (x : List (Nat × Nat)) (y : List (String × Nat))
    (hinv : MergeInv ls0 m ls) :
    MergeInv ls0 { m with mappings := x, exp_table := y } ls := by
  obtain ⟨h1, h2, h3, h4, h5, h6, h7, h8⟩ := hinv
  refine ⟨h1, h2, h3, h4, h5, ?_, ?_, ?_⟩
  · intro t
    rw [tableOf_mapexp_update]
    exact h6 t
  · intro t1 k1 t2 k2 lid hq1 hq2
    rw [tableOf_mapexp_update] at hq1 hq2
    exact h7 t1 k1 t2 k2 lid hq1 hq2
  · intro k
    show k ∈ m.conflict_keys ↔ _
    rw [h8 k]
    refine exists_congr fun t => ?_
    have he : tableOf { m with mappings := x, exp_table := y } t
        = tableOf m t := by
      fin_cases t <;> rfl
    rw [he]

theorem merge_map_with_merge (ls0 : LedgerState) (m other : AstMap)
    (ls : LedgerState) (r : AstMap × LedgerState)
    (h : merge_map_with m other ls = some r)
    (hinv : MergeInv ls0 m ls)
    (hwo : MapWf other ls0) :
    MergeInv ls0 r.1 r.2 ∧
    ∀ t k, idsAt r.2 (tableOf r.1 t) k = idsAt ls (tableOf m t) k ++
      derived_ids (deriveOf ls0 t) ls0 (tableOf other t) k := by
  obtain ⟨hwv, hwf, hwc⟩ := hwo
  simp only [merge_map_with, Option.bind_eq_bind] at h
  have hinv1 := MergeInv_mapexp ls0 m ls
    (dict_update m.mappings other.mappings)
    (dict_update m.exp_table other.exp_table) hinv
  cases h1 : merge_var_entries
      { m with mappings := dict_update m.mappings other.mappings,
               exp_table := dict_update m.exp_table other.exp_table }
      other.symbol_table ls with
  | none =>
      simp only [h1, Option.none_bind] at h
      exact Option.noConfusion h
  | some r1 =>
      simp only [h1, Option.some_bind] at h
      obtain ⟨hinvA, hidsA, hothA⟩ := merge_var_entries_merge ls0 _
        other.symbol_table ls r1 h1 hinv1 hwv.1
        (fun p hp => (hwv.2 p.1 p.2 (dlookup_of_mem_nodup _ p hp hwv.1)).1)
      cases h2 : merge_func_entries r1.1 other.func_table r1.2 with
      | none =>
          simp only [h2, Option.none_bind] at h
          exact Option.noConfusion h
      | some r2 =>
          simp only [h2, Option.some_bind] at h
          obtain ⟨hinvB, hidsB, hothB⟩ := merge_func_entries_merge ls0 r1.1
            other.func_table r1.2 r2 h2 hinvA hwf.1
            (by
              intro p hp
              obtain ⟨hlt, syms1, hsy1, hd1⟩ :=
                hwf.2 p.1 p.2 (dlookup_of_mem_nodup _ p hp hwf.1)
              refine ⟨hlt, ?_⟩
              intro syms hsy s hs
              rw [hsy1] at hsy
              cases hsy
              exact hd1 s hs)
          cases h3 : merge_class_entries r2.1 other.class_table r2.2 with
          | none =>
              simp only [h3, Option.none_bind] at h
              exact Option.noConfusion h
          | some r3 =>
              simp only [h3, Option.some_bind, Option.pure_def,
                Option.some.injEq] at h
              subst h
              obtain ⟨hinvC, hidsC, hothC⟩ := merge_class_entries_merge ls0 r2.1
                other.class_table r2.2 r3 h3 hinvB hwc.1
                (fun p hp => (hwc.2 p.1 p.2 (dlookup_of_mem_nodup _ p hp hwc.1)).1)
              refine ⟨hinvC, ?_⟩
              intro t k
              fin_cases t
              · show idsAt r3.2 (tableOf r3.1 0) k = idsAt ls (tableOf m 0) k ++
                  derived_ids (deriveOf ls0 0) ls0 (tableOf other 0) k
                rw [hothC 0 k (by decide), hothB 0 k (by decide), hidsA k]
                rfl
              · show idsAt r3.2 (tableOf r3.1 1) k = idsAt ls (tableOf m 1) k ++
                  derived_ids (deriveOf ls0 1) ls0 (tableOf other 1) k
                rw [hothC 1 k (by decide), hidsB k, hothA 1 k (by decide)]
                rfl
              · show idsAt r3.2 (tableOf r3.1 2) k = idsAt ls (tableOf m 2) k ++
                  derived_ids (deriveOf ls0 2) ls0 (tableOf other 2) k
                rw [hidsC k, hothB 2 k (by decide), hothA 2 k (by decide)]
                rfl

end PedalSpec

namespace PedalSpec

theorem new_merged_map_conflicts_char (a b : AstMap) (ls : LedgerState)
    (r : AstMap × LedgerState)
    (h : new_merged_map a b ls = some r)
    (hwa : MapWf a ls) (hwb : MapWf b ls)
    (hdom : heapDomBelow ls) (hsids : sidsBelow ls) :
    ∀ k, k ∈ r.1.conflict_keys ↔
      ∃ t : Fin 3, twoDiffer
        (derived_ids (deriveOf ls t) ls (tableOf a t) k ++
         derived_ids (deriveOf ls t) ls (tableOf b t) k) = true := by
  simp only [new_merged_map, Option.bind_eq_bind] at h
  have hbase : MergeInv ls AstMap.empty ls := by
    refine ⟨le_refl _, rfl, fun _ _ => rfl, hdom, hsids, ?_, ?_, ?_⟩
    · intro t k lid hk
      have e1 : tableOf AstMap.empty t = [] := by fin_cases t <;> rfl
      rw [e1] at hk
      exact Option.noConfusion hk
    · intro t1 k1 t2 k2 lid hq1 hq2
      have e1 : tableOf AstMap.empty t1 = [] := by fin_cases t1 <;> rfl
      rw [e1] at hq1
      exact Option.noConfusion hq1
    · intro k
      constructor
      · intro hk
        simp [AstMap.empty] at hk
      · rintro ⟨t, ht⟩
        have e1 : tableOf AstMap.empty t = [] := by fin_cases t <;> rfl
        rw [e1] at ht
        simp [idsAt, dlookup, twoDiffer] at ht
  cases h1 : merge_map_with AstMap.empty a ls with
  | none =>
      simp only [h1, Option.none_bind] at h
      exact Option.noConfusion h
  | some r1 =>
      simp only [h1, Option.some_bind] at h
      obtain ⟨hinv1, hids1⟩ :=
        merge_map_with_merge ls AstMap.empty a ls r1 h1 hbase hwa
      cases h2 : merge_map_with r1.1 b r1.2 with
      | none =>
          simp only [h2, Option.none_bind] at h
          exact Option.noConfusion h
      | some r2 =>
          simp only [h2, Option.some_bind, Option.pure_def,
            Option.some.injEq] at h
          subst h
          obtain ⟨hinv2, hids2⟩ :=
            merge_map_with_merge ls r1.1 b r1.2 r2 h2 hinv1 hwb
          obtain ⟨-, -, -, -, -, -, -, hchar2⟩ := hinv2
          intro k
          rw [hchar2 k]
          refine exists_congr fun t => ?_
          rw [hids2 t k, hids1 t k]
          have he : idsAt ls (tableOf AstMap.empty t) k = [] := by
            have e1 : tableOf AstMap.empty t = [] := by fin_cases t <;> rfl
            rw [e1]
            simp [idsAt, dlookup]
          rw [he, List.nil_append]

end PedalSpec

namespace PedalSpec

/-- Claim C4 counterexample: two one-binding function-table ledgers, one
wrapping a Call node, the other a BinOp node whose parent is that same Call
node.  Merging A-then-B flags the shared key (identifiers f and g differ),
while merging B-then-A re-inserts B first, and its parent-climb overwrites
the Call node identifier to g, so re-inserting A then derives g as well and
no conflict is flagged: the final conflict-key sets differ as unordered
sets. -/
theorem merge_conflict_order_counterexample :
    ((new_merged_map
        ⟨[], [], [], [("k", 100)], [], []⟩
        ⟨[], [], [], [("k", 101)], [], []⟩
        ⟨[(1, ⟨"Call", "f", "", none⟩), (2, ⟨"BinOp", "g", "", some 1⟩)],
         [(100, [⟨50, "f", 1⟩]), (101, [⟨51, "g", 2⟩])], 200⟩).map
       (fun r => r.1.conflict_keys.contains "k") = some true) ∧
    ((new_merged_map
        ⟨[], [], [], [("k", 101)], [], []⟩
        ⟨[], [], [], [("k", 100)], [], []⟩
        ⟨[(1, ⟨"Call", "f", "", none⟩), (2, ⟨"BinOp", "g", "", some 1⟩)],
         [(100, [⟨50, "f", 1⟩]), (101, [⟨51, "g", 2⟩])], 200⟩).map
       (fun r => r.1.conflict_keys.contains "k") = some false) :=
  ⟨rfl, rfl⟩

/-- Claim C4 (amended): merge order does not change the conflict-key set as
an unordered set, provided the ledgers are well-formed and no re-inserted
function binding takes the parent-climb fallback (every function binding
wraps a FunctionDef or Call node, which is the condition MapWf imposes
through derive_func_id); the counterexample shows the parent-climb mutation
breaks commutativity on a node that is neither. -/
theorem merge_conflicts_comm (a b : AstMap) (ls : LedgerState)
    (r1 r2 : AstMap × LedgerState)
    (hwa : MapWf a ls) (hwb : MapWf b ls)
    (hdom : heapDomBelow ls) (hsids : sidsBelow ls)
    (h1 : new_merged_map a b ls = some r1)
    (h2 : new_merged_map b a ls = some r2) :
    ∀ k, k ∈ r1.1.conflict_keys ↔ k ∈ r2.1.conflict_keys := by
  intro k
  rw [new_merged_map_conflicts_char a b ls r1 h1 hwa hwb hdom hsids k,
      new_merged_map_conflicts_char b a ls r2 h2 hwb hwa hdom hsids k]
  exact exists_congr fun t => twoDiffer_swap _ _

/-- Claim C4 witness: two well-formed one-variable ledgers merged in both
orders; both runs succeed, flag the shared key, and the conflict sets
agree. -/
theorem merge_conflicts_comm_check :
    new_merged_map
        ⟨[], [], [("p", 100)], [], [], []⟩
        ⟨[], [], [("p", 101)], [], [], []⟩
        ⟨[(0, ⟨"Name", "x", "", none⟩), (1, ⟨"Name", "y", "", none⟩)],
         [(100, [⟨50, "x", 0⟩]), (101, [⟨51, "y", 1⟩])], 200⟩ =
      some (⟨[], [], [("p", 201)], [], [], ["p"]⟩,
        ⟨[(0, ⟨"Name", "x", "", none⟩), (1, ⟨"Name", "y", "", none⟩)],
         [(100, [⟨50, "x", 0⟩]), (101, [⟨51, "y", 1⟩]),
          (201, [⟨200, "x", 0⟩, ⟨202, "y", 1⟩])], 203⟩) ∧
    new_merged_map
        ⟨[], [], [("p", 101)], [], [], []⟩
        ⟨[], [], [("p", 100)], [], [], []⟩
        ⟨[(0, ⟨"Name", "x", "", none⟩), (1, ⟨"Name", "y", "", none⟩)],
         [(100, [⟨50, "x", 0⟩]), (101, [⟨51, "y", 1⟩])], 200⟩ =
      some (⟨[], [], [("p", 201)], [], [], ["p"]⟩,
        ⟨[(0, ⟨"Name", "x", "", none⟩), (1, ⟨"Name", "y", "", none⟩)],
         [(100, [⟨50, "x", 0⟩]), (101, [⟨51, "y", 1⟩]),
          (201, [⟨200, "y", 1⟩, ⟨202, "x", 0⟩])], 203⟩) ∧
    ∀ k, k ∈ (["p"] : List String) ↔ k ∈ (["p"] : List String) := by
  have hwa : MapWf ⟨[], [], [("p", 100)], [], [], []⟩
      ⟨[(0, ⟨"Name", "x", "", none⟩), (1, ⟨"Name", "y", "", none⟩)],
       [(100, [⟨50, "x", 0⟩]), (101, [⟨51, "y", 1⟩])], 200⟩ := by
    refine ⟨⟨by decide, ?_⟩, ⟨by decide, ?_⟩, ⟨by decide, ?_⟩⟩
    · intro k lid hk
      simp only [dlookup] at hk
      by_cases hp : "p" = k
      · rw [if_pos hp] at hk
        cases hk
        refine ⟨by decide, _, rfl, ?_⟩
        intro s hs
        rw [List.mem_singleton] at hs
        subst hs
        decide
      · rw [if_neg hp] at hk
        exact Option.noConfusion hk
    · intro k lid hk
      exact Option.noConfusion hk
    · intro k lid hk
      exact Option.noConfusion hk
  have hwb : MapWf ⟨[], [], [("p", 101)], [], [], []⟩
      ⟨[(0, ⟨"Name", "x", "", none⟩), (1, ⟨"Name", "y", "", none⟩)],
       [(100, [⟨50, "x", 0⟩]), (101, [⟨51, "y", 1⟩])], 200⟩ := by
    refine ⟨⟨by decide, ?_⟩, ⟨by decide, ?_⟩, ⟨by decide, ?_⟩⟩
    · intro k lid hk
      simp only [dlookup] at hk
      by_cases hp : "p" = k
      · rw [if_pos hp] at hk
        cases hk
        refine ⟨by decide, _, rfl, ?_⟩
        intro s hs
        rw [List.mem_singleton] at hs
        subst hs
        decide
      · rw [if_neg hp] at hk
        exact Option.noConfusion hk
    · intro k lid hk
      exact Option.noConfusion hk
    · intro k lid hk
      exact Option.noConfusion hk
  have hdom : heapDomBelow
      ⟨[(0, ⟨"Name", "x", "", none⟩), (1, ⟨"Name", "y", "", none⟩)],
       [(100, [⟨50, "x", 0⟩]), (101, [⟨51, "y", 1⟩])], 200⟩ := by
    intro lid syms hl
    simp only [dlookup] at hl
    by_cases e1 : (100 : Nat) = lid
    · show lid < 200
      omega
    · rw [if_neg e1] at hl
      by_cases e2 : (101 : Nat) = lid
      · show lid < 200
        omega
      · rw [if_neg e2] at hl
        exact Option.noConfusion hl
  have hsids : sidsBelow
      ⟨[(0, ⟨"Name", "x", "", none⟩), (1, ⟨"Name", "y", "", none⟩)],
       [(100, [⟨50, "x", 0⟩]), (101, [⟨51, "y", 1⟩])], 200⟩ := by
    intro lid syms hl s hs
    simp only [dlookup] at hl
    by_cases e1 : (100 : Nat) = lid
    · rw [if_pos e1] at hl
      cases hl
      rw [List.mem_singleton] at hs
      subst hs
      decide
    · rw [if_neg e1] at hl
      by_cases e2 : (101 : Nat) = lid
      · rw [if_pos e2] at hl
        cases hl
        rw [List.mem_singleton] at hs
        subst hs
        decide
      · rw [if_neg e2] at hl
        exact Option.noConfusion hl
  exact ⟨rfl, rfl,
    merge_conflicts_comm _ _ _ _ _ hwa hwb hdom hsids rfl rfl⟩

end PedalSpec
